import Mathlib

/-!
# AODjustify: optimal paragraph justification

A shallow embedding of `src/AODjustify.c` and a verification of its
line-breaking optimizer, renderer, tokenizer and driver loop.

Conventions of the embedding.

* `long long` values are `Int`; every 64-bit arithmetic operation of the
  source is followed by `wrap64`, the two's-complement reduction to the
  signed 64-bit range, and the conversion of a `long long` to `int` is
  `wrap32`.  Word indices (`int i, k, n`) are `Nat`: they range over `0..n`
  with `n < MAX_WORDS`.
* C arrays (`dp`, `valid`, `next_break`, `prefix_sum`) are total maps
  `Nat → Int`; a store `a[i] = v` is `set_at a i v`.
* The mapped input buffer is a `List Nat` of bytes; a `Word` is an offset
  into it together with its length, as in the source.  The output stream
  is the list of the bytes written so far.
* `error(msg)` ends the run: functions that may call it return `Except Fatal`.
* A `for` or `while` loop is a recursive function on the number of
  iterations left; where that number is not known on entry it is a bound
  that the loop cannot exhaust.
-/

namespace AODjustify

/-! ## Constants and data model -/

/-- Source: `#define MAX_WORDS 1000000`. -/
def MAX_WORDS : Nat := 1000000

/-- Source: `#define MAX_WORD_LEN 256`. -/
def MAX_WORD_LEN : Int := 256

/-- Source: `#define MAX_LINE_LEN 10000`. -/
def MAX_LINE_LEN : Int := 10000

/-- Source: `LLONG_MAX` of `<limits.h>` for a 64-bit `long long`. -/
def LLONG_MAX : Int := 9223372036854775807

/-- Largest value of the C type `int` (32 bits), the type of `Word.len`. -/
def INT_MAX : Int := 2147483647

/-- Two's-complement reduction of an integer to the signed 64-bit range. -/
def wrap64 (x : Int) : Int := (x + 2 ^ 63) % 2 ^ 64 - 2 ^ 63

/-- Source: `typedef struct { char *start; int len; } Word;`
`start` is the offset of the first byte of the word in the mapped buffer. -/
structure Word where
  start : Nat
  len : Int
deriving DecidableEq, Repr

/-- Source: `typedef struct { Word *words; int word_count; ll optimal_cost; } Paragraph;`
The array `words[0..word_count-1]` is the list `words`; the field
`optimal_cost` is never read or written by the program. -/
structure Paragraph where
  words : List Word
deriving DecidableEq, Repr

/-- Source: the field `p->word_count`. -/
def Paragraph.word_count (p : Paragraph) : Nat := p.words.length

/-- Source: the expression `p->words[i].len`. -/
def Paragraph.len (p : Paragraph) (i : Nat) : Int :=
  match p.words[i]? with
  | some w => w.len
  | none => 0

/-- The fatal errors raised through `error(msg)`; each ends the run. -/
inductive Fatal where
  /-- Message "mot de longueur superieure a 256 caracteres". -/
  | word_too_long
  /-- Message "trop de mots dans un paragraphe". -/
  | too_many_words
  /-- Message "trop de paragraphes". -/
  | too_many_paragraphs
  /-- Message "impossible de justifier le paragraphe". -/
  | cannot_justify
  /-- Message "le fichier possède un mot de longueur supérieure à M caractères". -/
  | word_wider_than_target (M : Int)
  /-- Message "Aucun paragraphe detecte". -/
  | no_paragraph
  /-- Message "Largeur M invalide". -/
  | invalid_width
  /-- Message "Fichier vide". -/
  | empty_file
deriving DecidableEq, Repr

/-- The store `a[i] = v` on an array seen as a map. -/
def set_at (a : Nat → Int) (i : Nat) (v : Int) : Nat → Int :=
  fun j => if j = i then v else a j

/-! ## Cost model -/

/-- Source: `ll cube(ll x)`. -/
def cube (x : Int) : Int :=
  if x > 2097151 ∨ x < -2097151 then LLONG_MAX
  else wrap64 (wrap64 (x * x) * x)

/-- Source: `ll delta(int i, int k, ll *prefix_sum)`. -/
def delta (i k : Nat) (prefix_sum : Nat → Int) : Int :=
  wrap64 (wrap64 (prefix_sum k - (if i > 0 then prefix_sum (i - 1) else 0))
    + ((k : Int) - (i : Int)))

/-! ## Justification optimizer -/

/-- The three tables that `justify_paragraph` fills. -/
structure Tables where
  dp : Nat → Int
  valid : Nat → Int
  next_break : Nat → Int

/-- Source: the initialisation loop
`for (int i = 0; i <= n; i++) { dp[i] = LLONG_MAX; valid[i] = 0; next_break[i] = i; }`
run from index `i` with `cnt` iterations left. -/
def init_loop : Nat → Nat → Tables → Tables
  | 0, _, t => t
  | cnt + 1, i, t =>
    init_loop cnt (i + 1)
      { dp := set_at t.dp i LLONG_MAX,
        valid := set_at t.valid i 0,
        next_break := set_at t.next_break i (i : Int) }

/-- Source: the prefix-sum loop
`for (int i = 1; i < n; i++) prefix_sum[i] = prefix_sum[i - 1] + p->words[i].len;`
run from index `i` with `cnt` iterations left. -/
def prefix_loop (p : Paragraph) : Nat → Nat → (Nat → Int) → (Nat → Int)
  | 0, _, ps => ps
  | cnt + 1, i, ps =>
    prefix_loop p cnt (i + 1) (set_at ps i (wrap64 (ps (i - 1) + p.len i)))

/-- Source: the array `prefix_sum` as built by `justify_paragraph`
(`prefix_sum[0] = p->words[0].len;` then the loop for `i = 1..n-1`). -/
def build_prefix_sum (p : Paragraph) : Nat → Int :=
  prefix_loop p (p.word_count - 1) 1 (set_at (fun _ => 0) 0 (p.len 0))

/-- Source: the inner loop `for (int k = i; k < n; k++) { ... }` of
`justify_paragraph`, from the current `k`.  The first argument bounds the
number of iterations; `n - k` is always enough. -/
def inner_loop (n : Nat) (M : Int) (prefix_sum : Nat → Int) (i : Nat) :
    Nat → Nat → Tables → Tables
  | 0, _, t => t
  | fuel + 1, k, t =>
    if k < n then
      let d := delta i k prefix_sum
      if d > M then t
      else if t.valid (k + 1) = 0 then inner_loop n M prefix_sum i fuel (k + 1) t
      else
        let penalty := if k = n - 1 then 0 else cube (wrap64 (M - d))
        let penalty := if penalty < 0 then LLONG_MAX else penalty
        let future_cost := t.dp (k + 1)
        if future_cost = LLONG_MAX then inner_loop n M prefix_sum i fuel (k + 1) t
        else if penalty > wrap64 (LLONG_MAX - future_cost) then
          inner_loop n M prefix_sum i fuel (k + 1) t
        else
          let total := wrap64 (penalty + future_cost)
          if total < t.dp i then
            inner_loop n M prefix_sum i fuel (k + 1)
              { dp := set_at t.dp i total,
                valid := set_at t.valid i 1,
                next_break := set_at t.next_break i ((k : Int) + 1) }
          else inner_loop n M prefix_sum i fuel (k + 1) t
    else t

/-- Source: the outer loop `for (int i = n - 1; i >= 0; i--)` of
`justify_paragraph`; `outer_loop (i + 1)` treats index `i` and goes on
downwards to index `0`. -/
def outer_loop (n : Nat) (M : Int) (prefix_sum : Nat → Int) : Nat → Tables → Tables
  | 0, t => t
  | i + 1, t => outer_loop n M prefix_sum i (inner_loop n M prefix_sum i (n - i) i t)

/-- Source: the body of `justify_paragraph` for `n > 0` up to the end of
the main loop: the tables `dp`, `valid` and `next_break` at that point.
The freshly allocated `dp` and `valid` are written on `0..n` before any
read, so their initial content is taken to be zero. -/
def justify_tables (p : Paragraph) (M : Int) (next_break : Nat → Int) : Tables :=
  let n := p.word_count
  let t0 := init_loop (n + 1) 0 { dp := fun _ => 0, valid := fun _ => 0, next_break := next_break }
  let t1 : Tables :=
    { dp := set_at t0.dp n 0, valid := set_at t0.valid n 1, next_break := t0.next_break }
  outer_loop n M (build_prefix_sum p) n t1

/-- Source: `ll justify_paragraph(Paragraph *p, ll M, int *next_break)`.
Returns the cost together with the content of `next_break` on return. -/
def justify_paragraph (p : Paragraph) (M : Int) (next_break : Nat → Int) :
    Except Fatal (Int × (Nat → Int)) :=
  if p.word_count = 0 then .ok (0, next_break)
  else
    let t := justify_tables p M next_break
    let cost := t.dp 0
    let is_valid := t.valid 0
    if is_valid = 0 then .error Fatal.cannot_justify
    else .ok (cost, t.next_break)

/-! ## Renderer -/

/-- Two's-complement reduction of an integer to the signed 32-bit range
(the C type `int`). -/
def wrap32 (x : Int) : Int := (x + 2 ^ 31) % 2 ^ 32 - 2 ^ 31

/-- Source: the array access `words[j]`. -/
def word_at (words : List Word) (j : Nat) : Word := words.getD j ⟨0, 0⟩

/-- Source: the bytes written by `fwrite(w.start, 1, w.len, out)`: the
`len` bytes of the mapped buffer `data` from offset `start` on. -/
def word_bytes (data : List Nat) (w : Word) : List Nat :=
  (List.range w.len.toNat).map (fun j => data.getD (w.start + j) 0)

/-- Source: `for (int s = 0; s < spaces; s++) fputc(' ', out);` -/
def put_spaces (out : List Nat) (spaces : Int) : List Nat :=
  out ++ List.replicate spaces.toNat 32

/-- Source: the loop `for (int j = start; j < end; j++) { ... }` of
`write_justified_line`, from the current `j` with `cnt` iterations left. -/
def justified_loop (data : List Nat) (words : List Word) (start end_ : Nat)
    (base_spaces extra_spaces : Int) : Nat → Nat → List Nat → List Nat
  | 0, _, out => out
  | cnt + 1, j, out =>
    let out := out ++ word_bytes data (word_at words j)
    let out :=
      if (j : Int) < (end_ : Int) - 1 then
        let spaces := wrap32 (wrap64 (wrap64 (base_spaces
          + (if (j : Int) - (start : Int) < extra_spaces then 1 else 0)) + 1))
        put_spaces out spaces
      else out
    justified_loop data words start end_ base_spaces extra_spaces cnt (j + 1) out

/-- Source: `void write_justified_line(FILE *out, Word *words, int start, int end, ll total_spaces)`.
The stream `out` is the list of the bytes written so far. -/
def write_justified_line (data : List Nat) (out : List Nat) (words : List Word)
    (start end_ : Nat) (total_spaces : Int) : List Nat :=
  let word_count : Int := (end_ : Int) - (start : Int)
  if word_count = 1 then out ++ word_bytes data (word_at words start)
  else
    let base_spaces := Int.tdiv total_spaces (word_count - 1)
    let extra_spaces := Int.tmod total_spaces (word_count - 1)
    justified_loop data words start end_ base_spaces extra_spaces (end_ - start) start out

/-- Source: the loop of the last line in `write_paragraph`,
`for (int j = i; j < k; j++) { fwrite(...); if (j < k - 1) fputc(' ', out); }`. -/
def last_line_loop (data : List Nat) (words : List Word) (k : Nat) :
    Nat → Nat → List Nat → List Nat
  | 0, _, out => out
  | cnt + 1, j, out =>
    let out := out ++ word_bytes data (word_at words j)
    let out := if (j : Int) < (k : Int) - 1 then out ++ [32] else out
    last_line_loop data words k cnt (j + 1) out

/-- Source: `for (int j = i; j < k; j++) line_length += p->words[j].len + 1;` -/
def line_length_loop (p : Paragraph) : Nat → Nat → Int → Int
  | 0, _, line_length => line_length
  | cnt + 1, j, line_length =>
    line_length_loop p cnt (j + 1) (wrap64 (line_length + wrap32 (p.len j + 1)))

/-- Source: the part of the body of the `while` loop of `write_paragraph`
that emits the line made of words `i..k-1` (the `if (k == n) ... else ...`). -/
def write_line (data : List Nat) (out : List Nat) (p : Paragraph) (M : Int) (i k : Nat) :
    List Nat :=
  if k = p.word_count then last_line_loop data p.words k (k - i) i out
  else
    let line_length := wrap64 (line_length_loop p (k - i) i 0 - 1)
    write_justified_line data out p.words i k (wrap64 (M - line_length))

/-- Source: the loop `while (i < n) { ... }` of `write_paragraph`, from the
current `i`.  The first argument bounds the number of iterations; since `i`
grows at each turn, `n - i` is always enough. -/
def write_paragraph_loop (data : List Nat) (p : Paragraph) (M : Int) (next_break : Nat → Int) :
    Nat → Nat → List Nat → Except Fatal (List Nat)
  | 0, _, out => .ok out
  | fuel + 1, i, out =>
    if i < p.word_count then
      let k := next_break i
      if k ≤ (i : Int) then .error Fatal.cannot_justify
      else
        let out := write_line data out p M i k.toNat
        let out := if k < (p.word_count : Int) then out ++ [10] else out
        write_paragraph_loop data p M next_break fuel k.toNat out
    else .ok out

/-- Source: `void write_paragraph(FILE *out, Paragraph *p, ll M, int *next_break)`. -/
def write_paragraph (data : List Nat) (out : List Nat) (p : Paragraph) (M : Int)
    (next_break : Nat → Int) : Except Fatal (List Nat) :=
  write_paragraph_loop data p M next_break p.word_count 0 out

/-! ## Tokenizer -/

/-- Source: the read `data[i]` of the mapped buffer (always guarded by
`i < size` in the program). -/
def byte_at (data : List Nat) (i : Nat) : Nat := data.getD i 0

/-- Source: `int is_separator(char c)`: space, line feed, tab or carriage return. -/
def is_separator (c : Nat) : Bool := c == 32 || c == 10 || c == 9 || c == 13

/-- Source: `int is_printable(char c)`, on the byte value `uc`. -/
def is_printable (uc : Nat) : Bool := (decide (33 ≤ uc) && decide (uc ≤ 126)) || decide (160 ≤ uc)

/-- Source: `while (i < size && is_separator(data[i])) i++;`.  The first
argument bounds the number of iterations; `size - i` is enough. -/
def skip_separators (data : List Nat) : Nat → Nat → Nat
  | 0, i => i
  | fuel + 1, i =>
    if i < data.length ∧ is_separator (byte_at data i) = true then
      skip_separators data fuel (i + 1)
    else i

/-- Source: the loop that measures a word,
`while (i < size && is_printable(data[i])) { w->len++; i++; if (w->len > MAX_WORD_LEN) error(...); }`.
Returns the final `i` and `w->len`. -/
def word_loop (data : List Nat) : Nat → Nat → Int → Except Fatal (Nat × Int)
  | 0, i, len => .ok (i, len)
  | fuel + 1, i, len =>
    if i < data.length ∧ is_printable (byte_at data i) = true then
      if len + 1 > MAX_WORD_LEN then .error Fatal.word_too_long
      else word_loop data fuel (i + 1) (len + 1)
    else .ok (i, len)

/-- Source: the loop `while (i < size) { ... }` of `extract_paragraphs` that
reads one paragraph; `words` is `p->words[0..p->word_count-1]`.  Returns the
final `i` and the words of the paragraph. -/
def paragraph_loop (data : List Nat) : Nat → Nat → List Word → Except Fatal (Nat × List Word)
  | 0, i, words => .ok (i, words)
  | fuel + 1, i, words =>
    if i < data.length then
      if i + 1 < data.length ∧ byte_at data i = 10 ∧ byte_at data (i + 1) = 10 then
        .ok (i + 2, words)
      else if is_separator (byte_at data i) = true then paragraph_loop data fuel (i + 1) words
      else if is_printable (byte_at data i) = true then
        match word_loop data (data.length - i) i 0 with
        | .error e => .error e
        | .ok (i', len) =>
          if (words ++ [Word.mk i len]).length ≥ MAX_WORDS then .error Fatal.too_many_words
          else paragraph_loop data fuel i' (words ++ [Word.mk i len])
      else paragraph_loop data fuel (i + 1) words
    else .ok (i, words)

/-- Source: the outer loop `while (i < size) { ... }` of `extract_paragraphs`;
`paragraphs` is `paragraphs[0..*para_count-1]`. -/
def extract_loop (data : List Nat) : Nat → Nat → List Paragraph → Except Fatal (List Paragraph)
  | 0, _, paragraphs => .ok paragraphs
  | fuel + 1, i, paragraphs =>
    if i < data.length then
      let i1 := skip_separators data (data.length - i) i
      if i1 ≥ data.length then .ok paragraphs
      else
        match paragraph_loop data (data.length - i1) i1 [] with
        | .error e => .error e
        | .ok (i2, words) =>
          let paragraphs := if words.length > 0 then paragraphs ++ [⟨words⟩] else paragraphs
          if paragraphs.length ≥ 1000 then .error Fatal.too_many_paragraphs
          else extract_loop data fuel i2 paragraphs
    else .ok paragraphs

/-- Source: `int extract_paragraphs(char *data, size_t size, Paragraph *paragraphs, int *para_count)`.
Returns the paragraphs stored; `*para_count` is the length of the list.
Every turn of the outer loop consumes at least one byte, so `size` turns
are enough. -/
def extract_paragraphs (data : List Nat) : Except Fatal (List Paragraph) :=
  extract_loop data data.length 0 []

/-! ## Driver loop -/

/-- State of a run of `main`: the bytes written to the output file, the
running total cost, the content of the shared `next_break` buffer, and
the number of calls made to `justify_paragraph` (a ghost counter). -/
structure Run where
  out : List Nat
  total_cost : Int
  next_break : Nat → Int
  optimized : Nat

/-- Source: the check `for (int i = 0; i < p->word_count; i++) if (p->words[i].len > M) error(...)`
at the head of the body of the paragraph loop of `main`. -/
def check_widths (M : Int) : List Word → Except Fatal Unit
  | [] => .ok ()
  | w :: ws =>
    if w.len > M then .error (Fatal.word_wider_than_target M) else check_widths M ws

/-- Source: the loop `for (int p_idx = 0; p_idx < para_count; p_idx++) { ... }`
of `main`, over the paragraphs still to be treated.  Returns the state of
the run when the loop ends or `error` is called, with the error if any. -/
def main_loop (data : List Nat) (M : Int) (para_count : Nat) :
    List Paragraph → Nat → Run → Run × Option Fatal
  | [], _, r => (r, none)
  | p :: rest, p_idx, r =>
    match check_widths M p.words with
    | .error e => (r, some e)
    | .ok _ =>
      match justify_paragraph p M r.next_break with
      | .error e => ({ r with optimized := r.optimized + 1 }, some e)
      | .ok (cost, nb) =>
        match write_paragraph data r.out p M nb with
        | .error e =>
          ({ r with total_cost := wrap64 (r.total_cost + cost), next_break := nb,
                    optimized := r.optimized + 1 }, some e)
        | .ok out =>
          main_loop data M para_count rest (p_idx + 1)
            { out := if (p_idx : Int) < (para_count : Int) - 1 then out ++ [10, 10] else out,
              total_cost := wrap64 (r.total_cost + cost),
              next_break := nb,
              optimized := r.optimized + 1 }

/-- Source: `main` once `M` has been parsed and the file mapped: the test
on `M`, the test on an empty file (made by `map_file`), `extract_paragraphs`,
the test `para_count == 0`, then the paragraph loop on an empty output
file.  The encoding check, which runs an external command, is left out. -/
def main_run (data : List Nat) (M : Int) (next_break : Nat → Int) : Run × Option Fatal :=
  if M ≤ 0 ∨ M > MAX_LINE_LEN then (⟨[], 0, next_break, 0⟩, some Fatal.invalid_width)
  else if data.length = 0 then (⟨[], 0, next_break, 0⟩, some Fatal.empty_file)
  else
    match extract_paragraphs data with
    | .error e => (⟨[], 0, next_break, 0⟩, some e)
    | .ok paragraphs =>
      if paragraphs.length = 0 then (⟨[], 0, next_break, 0⟩, some Fatal.no_paragraph)
      else main_loop data M paragraphs.length paragraphs 0 ⟨[], 0, next_break, 0⟩

/-! ## Observers of the optimizer -/

/-- Source: the state of `dp`, `valid` and `next_break` in
`justify_paragraph` when the main loop starts (after the initialisation
loop and the stores `dp[n] = 0; valid[n] = 1;`). -/
def initial_tables (p : Paragraph) (next_break : Nat → Int) : Tables :=
  let n := p.word_count
  let t0 := init_loop (n + 1) 0 { dp := fun _ => 0, valid := fun _ => 0, next_break := next_break }
  { dp := set_at t0.dp n 0, valid := set_at t0.valid n 1, next_break := t0.next_break }

/-- Observer of the inner loop of `justify_paragraph`: follows the turns of
`inner_loop` from `k` in state `t` and tells whether one of them takes a
saturation branch (`penalty < 0`, `future_cost == LLONG_MAX`,
`penalty > LLONG_MAX - future_cost`) or computes `LLONG_MAX - future_cost`
or `penalty + future_cost` with a 64-bit result that is not the exact one.
The state after the turn at `k` is the one `inner_loop` reaches in one
turn, `inner_loop n M prefix_sum i 1 k t`. -/
def inner_loop_saturates (n : Nat) (M : Int) (prefix_sum : Nat → Int) (i : Nat) :
    Nat → Nat → Tables → Bool
  | 0, _, _ => false
  | fuel + 1, k, t =>
    if k < n then
      let d := delta i k prefix_sum
      if d > M then false
      else if t.valid (k + 1) = 0 then inner_loop_saturates n M prefix_sum i fuel (k + 1) t
      else
        let penalty := if k = n - 1 then 0 else cube (wrap64 (M - d))
        let future_cost := t.dp (k + 1)
        if penalty < 0 then true
        else if future_cost = LLONG_MAX then true
        else if wrap64 (LLONG_MAX - future_cost) ≠ LLONG_MAX - future_cost then true
        else if penalty > wrap64 (LLONG_MAX - future_cost) then true
        else if wrap64 (penalty + future_cost) ≠ penalty + future_cost then true
        else
          inner_loop_saturates n M prefix_sum i fuel (k + 1) (inner_loop n M prefix_sum i 1 k t)
    else false

/-- Observer of the outer loop of `justify_paragraph`: tells whether the
inner loop of one of the rows `i-1, ..., 0` takes a saturation branch. -/
def outer_loop_saturates (n : Nat) (M : Int) (prefix_sum : Nat → Int) : Nat → Tables → Bool
  | 0, _ => false
  | i + 1, t =>
    inner_loop_saturates n M prefix_sum i (n - i) i t ||
      outer_loop_saturates n M prefix_sum i (inner_loop n M prefix_sum i (n - i) i t)

/-- Whether a run of `justify_paragraph` takes one of its saturation branches. -/
def justify_saturates (p : Paragraph) (M : Int) (next_break : Nat → Int) : Bool :=
  outer_loop_saturates p.word_count M (build_prefix_sum p) p.word_count
    (initial_tables p next_break)

/-! ## Specification vocabulary for line-break plans -/

/-- The word lengths of a paragraph, in order. -/
def Paragraph.lens (p : Paragraph) : List Int := p.words.map Word.len

/-- Natural length of a line given by its word lengths: the sum of the
word lengths plus one space per gap between consecutive words. -/
def natural_length (line : List Int) : Int := line.sum + ((line.length : Int) - 1)

/-- A plan for the words `ws` at width `M`: a splitting of `ws` into
consecutive non-empty lines, each of natural length at most `M`. -/
def IsPlan (M : Int) (ws : List Int) (plan : List (List Int)) : Prop :=
  plan.flatten = ws ∧ ∀ line ∈ plan, line ≠ [] ∧ natural_length line ≤ M

/-- Total cost of a plan: the cube of the padding deficit of every line
except the last one. -/
def plan_cost (M : Int) : List (List Int) → Int
  | [] => 0
  | [_] => 0
  | line :: next :: rest => (M - natural_length line) ^ 3 + plan_cost M (next :: rest)

/-- Sum of the lengths of the first `k` words of the paragraph. -/
def len_sum (p : Paragraph) (k : Nat) : Int := (p.lens.take k).sum

/-- Natural length of the line made of words `i..k` (inclusive). -/
def line_len (p : Paragraph) (i k : Nat) : Int :=
  len_sum p (k + 1) - len_sum p i + ((k : Int) - (i : Int))

/-- Penalty charged by the optimizer to the line `i..k`: nothing for the
line that ends the paragraph, the cube of the padding deficit otherwise. -/
def line_penalty (p : Paragraph) (M : Int) (i k : Nat) : Int :=
  if k + 1 = p.word_count then 0 else (M - line_len p i k) ^ 3

/-- The plan read off a breakpoint table: starting at word `i`, the line
`i..next_break[i]-1` is taken and the walk jumps to `next_break[i]`, until
the last word is passed.  Each line is given by its word lengths; the
first argument bounds the number of lines. -/
def read_plan (lens : List Int) (next_break : Nat → Int) : Nat → Nat → List (List Int)
  | 0, _ => []
  | fuel + 1, i =>
    if i < lens.length then
      ((lens.drop i).take ((next_break i).toNat - i)) ::
        read_plan lens next_break fuel (next_break i).toNat
    else []

/-- Source: the penalty `(k == n - 1) ? 0 : cube(M - d)` that the inner loop
of `justify_paragraph` charges to the line `i..k`, where
`d = delta(i, k, prefix_sum)`. -/
def penalty (n : Nat) (M : Int) (prefix_sum : Nat → Int) (i k : Nat) : Int :=
  if k = n - 1 then 0 else cube (wrap64 (M - delta i k prefix_sum))

/-! ## Specification vocabulary for rendered lines -/

/-- Number of spaces a justified line of `g` gaps and slack `total_spaces`
is to put in its `j`-th gap from the left: the separating space, the
share `total_spaces / g`, and one more in the first `total_spaces mod g` gaps. -/
def gap_width (total_spaces : Int) (g j : Nat) : Int :=
  1 + total_spaces / (g : Int) + (if (j : Int) < total_spaces % (g : Int) then 1 else 0)

/-- The `j`-th word of a justified line of `w` words starting at word
`start`, followed by its gap when it is not the last word of the line. -/
def justified_piece (data : List Nat) (words : List Word) (start w : Nat) (total_spaces : Int)
    (j : Nat) : List Nat :=
  word_bytes data (word_at words (start + j)) ++
    (if j + 1 < w then List.replicate (gap_width total_spaces (w - 1) j).toNat 32 else [])

/-- The text of a justified line of `w` words starting at word `start`:
its words in order, each but the last followed by its gap. -/
def justified_text (data : List Nat) (words : List Word) (start w : Nat) (total_spaces : Int) :
    List Nat :=
  ((List.range w).map (justified_piece data words start w total_spaces)).flatten

/-! ## Specification vocabulary for the tokenizer -/

/-- The words of a document, in order across its paragraphs. -/
def all_words (paragraphs : List Paragraph) : List Word :=
  (paragraphs.map Paragraph.words).flatten

/-- The span `w` is a maximal run of printable bytes of the buffer: it is
not empty, lies in the buffer, holds printable bytes only, and is bordered
on each side by the end of the buffer or by a byte that is not printable. -/
def IsMaximalRun (data : List Nat) (w : Word) : Prop :=
  1 ≤ w.len ∧ (w.start : Int) + w.len ≤ (data.length : Int) ∧
  (∀ j : Nat, w.start ≤ j → (j : Int) < (w.start : Int) + w.len →
    is_printable (byte_at data j) = true) ∧
  (w.start = 0 ∨ is_printable (byte_at data (w.start - 1)) = false) ∧
  ((w.start : Int) + w.len = (data.length : Int) ∨
    is_printable (byte_at data (w.start + w.len.toNat)) = false)

/-- Invariant of the tokenizer when it stands at position `i` having stored
the words `ws`: `i` is not inside a run, the words are maximal runs of at
most `MAX_WORD_LEN` bytes that end at or before `i`, they are in buffer
order, and every printable byte before `i` belongs to one of them. -/
structure Scanned (data : List Nat) (i : Nat) (ws : List Word) : Prop where
  le : i ≤ data.length
  boundary : i = 0 ∨ is_printable (byte_at data (i - 1)) = false ∨ i = data.length ∨
    is_printable (byte_at data i) = false
  runs : ∀ w ∈ ws, IsMaximalRun data w ∧ w.len ≤ MAX_WORD_LEN ∧ (w.start : Int) + w.len ≤ (i : Int)
  sorted : ws.Pairwise (fun a b => (a.start : Int) + a.len ≤ (b.start : Int))
  covered : ∀ j, j < i → is_printable (byte_at data j) = true →
    ∃ w ∈ ws, w.start ≤ j ∧ (j : Int) < (w.start : Int) + w.len

/-- The buffer holds a run of consecutive printable bytes longer than
`MAX_WORD_LEN`: 257 printable bytes in a row. -/
def HasLongRun (data : List Nat) : Prop :=
  ∃ s, s + 257 ≤ data.length ∧
    ∀ j, s ≤ j → j < s + 257 → is_printable (byte_at data j) = true

/-- Offset of the first byte after the word. -/
def Word.stop (w : Word) : Nat := w.start + w.len.toNat

/-- Two consecutive line-feed bytes lie among the bytes `lo..hi-1` of the buffer. -/
def HasBlankLine (data : List Nat) (lo hi : Nat) : Prop :=
  ∃ j, lo ≤ j ∧ j + 1 < hi ∧ byte_at data j = 10 ∧ byte_at data (j + 1) = 10

/-- The bytes between the word `a` and the later word `b` hold no two
consecutive line feeds. -/
def NoBlankBetween (data : List Nat) (a b : Word) : Prop :=
  ¬ HasBlankLine data a.stop b.start

/-- The bytes between the last word of `p` and the first word of `q` hold
two consecutive line feeds. -/
def BlankBetween (data : List Nat) (p q : Paragraph) : Prop :=
  ∀ a ∈ p.words.getLast?, ∀ b ∈ q.words.head?, HasBlankLine data a.stop b.start

/-- No pair of consecutive line feeds starts at a position in `lo..i-1`. -/
def NoBlankFrom (data : List Nat) (lo i : Nat) : Prop :=
  ∀ j, lo ≤ j → j < i →
    ¬ (j + 1 < data.length ∧ byte_at data j = 10 ∧ byte_at data (j + 1) = 10)

/-- Invariant of the outer loop of the tokenizer at position `i` with the
paragraphs `ps` stored: the paragraphs are not empty and below the count
limits, consecutive words of a paragraph have no blank line between them,
consecutive paragraphs have one, and a blank line has been passed since the
last stored word unless the buffer is exhausted. -/
structure GroupedUpTo (data : List Nat) (ps : List Paragraph) (i : Nat) : Prop where
  nonempty : ∀ p ∈ ps, p.words ≠ []
  small : ∀ p ∈ ps, p.words.length < MAX_WORDS
  within : ∀ p ∈ ps, p.words.Chain' (NoBlankBetween data)
  between : ps.Chain' (BlankBetween data)
  pending : ∀ p ∈ ps.getLast?, ∀ a ∈ p.words.getLast?,
    data.length ≤ i ∨ ∃ j, a.stop ≤ j ∧ j + 2 ≤ i ∧ byte_at data j = 10 ∧ byte_at data (j + 1) = 10

/-- The buffer holds `k` words, in buffer order, with no blank line between
one and the next: some paragraph of the buffer has at least `k` words. -/
def HasParagraphOf (data : List Nat) (k : Nat) : Prop :=
  ∃ ws : List Word, ws.length = k ∧ (∀ w ∈ ws, IsMaximalRun data w) ∧
    ws.Pairwise (fun a b => (a.start : Int) + a.len ≤ (b.start : Int)) ∧
    ws.Chain' (NoBlankBetween data)

/-- The buffer holds `k` groups of words, none empty, in buffer order, with
a blank line between one group and the next: the document has at least `k`
non-empty paragraphs. -/
def HasParagraphs (data : List Nat) (k : Nat) : Prop :=
  ∃ ps : List Paragraph, ps.length = k ∧ (∀ p ∈ ps, p.words ≠ []) ∧
    (∀ w ∈ all_words ps, IsMaximalRun data w) ∧
    (all_words ps).Pairwise (fun a b => (a.start : Int) + a.len ≤ (b.start : Int)) ∧
    ps.Chain' (BlankBetween data)

/-! ## Specification vocabulary for texts made of words and gaps -/

/-- A word of a text with the bytes of the gap that follows it. -/
structure Token where
  word : List Nat
  gap : List Nat

/-- The text made of the tokens in order. -/
def tokens_text (toks : List Token) : List Nat :=
  (toks.map (fun t => t.word ++ t.gap)).flatten

/-- A gap as the renderer writes them: one line feed, two line feeds, or
one or more spaces. -/
def IsGap (g : List Nat) : Prop :=
  g = [10] ∨ g = [10, 10] ∨ (g ≠ [] ∧ ∀ b ∈ g, b = 32)

/-- A word the tokenizer accepts: 1 to 256 printable bytes. -/
def CleanWord (w : List Nat) : Prop :=
  w ≠ [] ∧ w.length ≤ 256 ∧ ∀ b ∈ w, is_printable b = true

/-- Every token is a clean word followed by a gap; the gap of the last
token may be empty. -/
def CleanTokens : List Token → Prop
  | [] => True
  | [t] => CleanWord t.word ∧ (t.gap = [] ∨ IsGap t.gap)
  | t :: u :: rest => CleanWord t.word ∧ IsGap t.gap ∧ CleanTokens (u :: rest)

/-- What the paragraph loop of the tokenizer does on a text made of tokens,
told on the tokens: from offset `off` with the words `cur` stored, it
stores the words up to the first gap of two line feeds, or to the end.
Returns the offset reached, the words of the paragraph and the tokens left. -/
def scan_para : Nat → List Word → List Token → Except Fatal (Nat × List Word × List Token)
  | off, cur, [] => .ok (off, cur, [])
  | off, cur, t :: rest =>
    if (cur ++ [Word.mk off (t.word.length : Int)]).length ≥ MAX_WORDS then
      .error Fatal.too_many_words
    else if t.gap = [10, 10] then
      .ok (off + t.word.length + 2, cur ++ [Word.mk off (t.word.length : Int)], rest)
    else
      scan_para (off + t.word.length + t.gap.length)
        (cur ++ [Word.mk off (t.word.length : Int)]) rest

/-- What the outer loop of the tokenizer does on a text made of tokens,
told on the tokens; the first argument bounds the number of paragraphs
read, as in `extract_loop`. -/
def scan_doc : Nat → Nat → List Paragraph → List Token → Except Fatal (List Paragraph)
  | 0, _, ps, _ => .ok ps
  | _ + 1, _, ps, [] => .ok ps
  | fuel + 1, off, ps, t :: rest =>
    match scan_para off [] (t :: rest) with
    | .error e => .error e
    | .ok (off', ws, rest') =>
      if (if ws.length > 0 then ps ++ [Paragraph.mk ws] else ps).length ≥ 1000 then
        .error Fatal.too_many_paragraphs
      else scan_doc fuel off' (if ws.length > 0 then ps ++ [Paragraph.mk ws] else ps) rest'

/-- A gap inside a paragraph: one line feed, or one or more spaces. -/
def SoftGap (g : List Nat) : Prop := g = [10] ∨ (g ≠ [] ∧ ∀ b ∈ g, b = 32)

/-- The tokens of one paragraph: at least one token, soft gaps between the
words, and the gap `term` after the last word. -/
def Group (term : List Nat) : List Token → Prop
  | [] => False
  | [t] => t.gap = term
  | t :: u :: rest => SoftGap t.gap ∧ Group term (u :: rest)

/-- The tokens of a document, paragraph by paragraph: at least one
paragraph, a blank line after each paragraph but the last, and nothing after
the last word. -/
def Doc : List (List Token) → Prop
  | [] => False
  | [g] => Group [] g
  | g :: h :: rest => Group [10, 10] g ∧ Doc (h :: rest)

/-- The words of a token list laid out from offset `off` on. -/
def located : Nat → List Token → List Word
  | _, [] => []
  | off, t :: rest =>
    Word.mk off (t.word.length : Int) :: located (off + t.word.length + t.gap.length) rest

/-- The text `text` is the words `W`, in order, with a soft gap between
consecutive words: whatever gap `term` is put after it, it reads as a group
of tokens whose words are `W`. -/
def Chunk (W : List (List Nat)) (text : List Nat) : Prop :=
  ∀ term, ∃ toks, Group term toks ∧ toks.map Token.word = W ∧ tokens_text toks = text ++ term

/-- The bytes `i`, `i + 1` and `i + 2` of the text are not three line feeds. -/
def NoTripleLF (text : List Nat) : Prop :=
  ∀ i, ¬ (byte_at text i = 10 ∧ byte_at text (i + 1) = 10 ∧ byte_at text (i + 2) = 10)

/-! ## Specification vocabulary for the layout of the output -/

/-- The lines that the walk of `write_paragraph` emits from word `i` on,
each one as `write_line` writes it on an empty stream; the first argument
bounds the number of lines, as in `write_paragraph_loop`. -/
def rendered_lines (data : List Nat) (p : Paragraph) (M : Int) (next_break : Nat → Int) :
    Nat → Nat → List (List Nat)
  | 0, _ => []
  | fuel + 1, i =>
    if i < p.word_count then
      if next_break i ≤ (i : Int) then []
      else
        write_line data [] p M i (next_break i).toNat ::
          rendered_lines data p M next_break fuel (next_break i).toNat
    else []

/-- The lines of the rendering of a paragraph, for the breaks that the
optimizer computes. -/
def paragraph_lines (data : List Nat) (M : Int) (p : Paragraph) : List (List Nat) :=
  rendered_lines data p M (justify_tables p M (fun _ => 0)).next_break p.word_count 0

/-- The rendering of a paragraph: its lines joined by one line feed. -/
def rendered_paragraph (data : List Nat) (M : Int) (p : Paragraph) : List Nat :=
  List.intercalate [10] (paragraph_lines data M p)

/-! ## Invariants of the optimizer -/

/-- The standing assumptions on a paragraph handed to the optimizer. -/
structure InRange (p : Paragraph) (M : Int) : Prop where
  n_pos : 1 ≤ p.word_count
  n_lt : p.word_count < 1000000
  M_pos : 1 ≤ M
  M_le : M ≤ 10000
  len_pos : ∀ w ∈ p.words, 1 ≤ w.len
  len_le : ∀ w ∈ p.words, w.len ≤ INT_MAX

/-- What the entries after `i` of the tables look like while row `i` is
being computed: flags are 0 or 1 and valid costs are small. -/
def TailOK (p : Paragraph) (i : Nat) (T : Tables) : Prop :=
  ∀ j, i < j → j ≤ p.word_count →
    (T.valid j = 0 ∨ T.valid j = 1) ∧
    (T.valid j = 1 → 0 ≤ T.dp j ∧ T.dp j ≤ ((p.word_count : Int) - j) * 1000000000000)

/-- Candidate total for ending after word `k` the line that starts at `i`. -/
def cand (p : Paragraph) (M : Int) (T : Tables) (i k : Nat) : Int :=
  line_penalty p M i k + T.dp (k + 1)

/-- Row `i` of `t` is the best choice among the line ends `k' < k`, the
other rows being those of `T`: either no feasible line end with a valid
continuation was met and the row is still in its initial state, or the
row holds the first line end of least candidate total. -/
def RowInv (p : Paragraph) (M : Int) (i : Nat) (T : Tables) (k : Nat) (t : Tables) : Prop :=
  (∀ j, j ≠ i → t.dp j = T.dp j ∧ t.valid j = T.valid j ∧ t.next_break j = T.next_break j) ∧
  ((t.valid i = 0 ∧ t.dp i = LLONG_MAX ∧ t.next_break i = (i : Int) ∧
      ∀ k', i ≤ k' → k' < k → line_len p i k' ≤ M → T.valid (k' + 1) = 0) ∨
   (t.valid i = 1 ∧ ∃ ks, i ≤ ks ∧ ks < k ∧ t.next_break i = (ks : Int) + 1 ∧
      line_len p i ks ≤ M ∧ T.valid (ks + 1) = 1 ∧ t.dp i = cand p M T i ks ∧
      ∀ k', i ≤ k' → k' < k → line_len p i k' ≤ M → T.valid (k' + 1) = 1 →
        t.dp i ≤ cand p M T i k' ∧ (k' < ks → t.dp i < cand p M T i k')))

/-- State of the tables when the rows `i..n` have been computed and the
rows below `i` are still in their initial state. -/
structure Solved (p : Paragraph) (M : Int) (nb0 : Nat → Int) (i : Nat) (t : Tables) : Prop where
  untouched : ∀ j, j < i → t.dp j = LLONG_MAX ∧ t.valid j = 0 ∧ t.next_break j = (j : Int)
  last : t.valid p.word_count = 1 ∧ t.dp p.word_count = 0 ∧
    t.next_break p.word_count = (p.word_count : Int)
  rows : ∀ j, i ≤ j → j < p.word_count → RowInv p M j t p.word_count t
  bounds : ∀ j, i ≤ j → j ≤ p.word_count →
    (t.valid j = 0 ∨ t.valid j = 1) ∧
    (t.valid j = 1 → 0 ≤ t.dp j ∧ t.dp j ≤ ((p.word_count : Int) - j) * 1000000000000)
  beyond : ∀ j, p.word_count < j → t.next_break j = nb0 j

/-- Two states of the tables that the optimizer cannot tell apart on the
entries `0..n`. -/
def SameTables (n : Nat) (t1 t2 : Tables) : Prop :=
  t1.dp = t2.dp ∧ t1.valid = t2.valid ∧ ∀ j, j ≤ n → t1.next_break j = t2.next_break j


/-! ## Arithmetic facts -/

theorem wrap64_of_range {x : Int} (h1 : -9223372036854775808 ≤ x) (h2 : x ≤ 9223372036854775807) :
    wrap64 x = x := by
  unfold wrap64
  norm_num
  omega

theorem small_cube_bound {x : Int} (h0 : 0 ≤ x) (h1 : x ≤ 10000) :
    0 ≤ x * x ∧ x * x ≤ 100000000 ∧ 0 ≤ x * x * x ∧ x * x * x ≤ 1000000000000 := by
  have a : 0 ≤ x * x := mul_nonneg h0 h0
  have b : x * x ≤ 10000 * 10000 := mul_le_mul h1 h1 h0 (by norm_num)
  have c : 0 ≤ x * x * x := mul_nonneg a h0
  have d : x * x * x ≤ 100000000 * 10000 := mul_le_mul (by linarith) h1 h0 (by norm_num)
  refine ⟨a, by linarith, c, by linarith⟩

theorem cube_small {x : Int} (h0 : 0 ≤ x) (h1 : x ≤ 10000) : cube x = x ^ 3 := by
  obtain ⟨a, b, c, d⟩ := small_cube_bound h0 h1
  unfold cube
  rw [if_neg (by omega), wrap64_of_range (x := x * x) (by omega) (by omega),
    wrap64_of_range (by omega) (by omega)]
  ring

theorem pow3_small {x : Int} (h0 : 0 ≤ x) (h1 : x ≤ 10000) :
    0 ≤ x ^ 3 ∧ x ^ 3 ≤ 1000000000000 := by
  obtain ⟨_, _, c, d⟩ := small_cube_bound h0 h1
  have : x ^ 3 = x * x * x := by ring
  omega

/-! ## Word lengths and prefix sums -/

theorem lens_length (p : Paragraph) : p.lens.length = p.word_count := by
  simp [Paragraph.lens, Paragraph.word_count]

theorem len_eq_getElem (p : Paragraph) (i : Nat) (h : i < p.lens.length) :
    p.len i = p.lens[i] := by
  have h2 : i < p.words.length := by simpa [Paragraph.lens] using h
  unfold Paragraph.len Paragraph.lens
  simp [List.getElem?_eq_getElem h2]

theorem len_bounds {p : Paragraph} {M : Int} (H : InRange p M) (i : Nat) (h : i < p.word_count) :
    1 ≤ p.len i ∧ p.len i ≤ INT_MAX := by
  unfold Paragraph.len
  unfold Paragraph.word_count at h
  simp only [List.getElem?_eq_getElem h]
  exact ⟨H.len_pos _ (List.getElem_mem _), H.len_le _ (List.getElem_mem _)⟩

theorem len_sum_zero (p : Paragraph) : len_sum p 0 = 0 := by
  simp [len_sum]

theorem len_sum_succ (p : Paragraph) (k : Nat) (h : k < p.word_count) :
    len_sum p (k + 1) = len_sum p k + p.len k := by
  unfold len_sum
  have h2 : k < p.lens.length := by rw [lens_length]; exact h
  rw [List.sum_take_succ _ _ h2, len_eq_getElem p k h2]

theorem len_sum_bounds {p : Paragraph} {M : Int} (H : InRange p M) :
    ∀ k, k ≤ p.word_count → (k : Int) ≤ len_sum p k ∧ len_sum p k ≤ k * INT_MAX
  | 0, _ => by simp [len_sum_zero]
  | k + 1, h => by
    have ih := len_sum_bounds H k (by omega)
    have hb := len_bounds H k (by omega)
    rw [len_sum_succ p k (by omega)]
    unfold INT_MAX at *
    push_cast
    omega

theorem len_sum_mono {p : Paragraph} {M : Int} (H : InRange p M) (a : Nat) :
    ∀ d, a + d ≤ p.word_count → len_sum p a + d ≤ len_sum p (a + d)
  | 0, _ => by simp
  | d + 1, h => by
    have ih := len_sum_mono H a d (by omega)
    have hb := len_bounds H (a + d) (by omega)
    rw [← Nat.add_assoc, len_sum_succ p (a + d) (by omega)]
    push_cast
    omega

theorem line_len_mono {p : Paragraph} {M : Int} (H : InRange p M) (i k k' : Nat)
    (hkk : k ≤ k') (hk : k' < p.word_count) : line_len p i k ≤ line_len p i k' := by
  unfold line_len
  have := len_sum_mono H (k + 1) (k' - k) (by omega)
  have e : k + 1 + (k' - k) = k' + 1 := by omega
  rw [e] at this
  have c : ((k' - k : Nat) : Int) = (k' : Int) - k := by omega
  omega

theorem line_len_pos {p : Paragraph} {M : Int} (H : InRange p M) (i k : Nat)
    (hik : i ≤ k) (hk : k < p.word_count) : 1 ≤ line_len p i k := by
  unfold line_len
  have := len_sum_mono H i (k + 1 - i) (by omega)
  have e : i + (k + 1 - i) = k + 1 := by omega
  rw [e] at this
  have c : ((k + 1 - i : Nat) : Int) = (k : Int) + 1 - i := by omega
  omega

theorem prefix_loop_spec {p : Paragraph} {M : Int} (H : InRange p M) :
    ∀ cnt i ps, 1 ≤ i → i + cnt ≤ p.word_count →
      (∀ j, j < i → ps j = len_sum p (j + 1)) →
      ∀ j, j < i + cnt → prefix_loop p cnt i ps j = len_sum p (j + 1)
  | 0, i, ps, _, _, hps, j, hj => by simpa [prefix_loop] using hps j (by omega)
  | cnt + 1, i, ps, hi, hn, hps, j, hj => by
    rw [prefix_loop]
    apply prefix_loop_spec H cnt (i + 1) _ (by omega) (by omega) _ j (by omega)
    intro j' hj'
    unfold set_at
    by_cases e : j' = i
    · subst e
      have h1 := hps (j' - 1) (by omega)
      have e1 : j' - 1 + 1 = j' := by omega
      rw [e1] at h1
      have hb := len_bounds H j' (by omega)
      have hs := len_sum_bounds H j' (by omega)
      have hn' := H.n_lt
      unfold INT_MAX at *
      rw [if_pos rfl, h1, wrap64_of_range (by omega) (by omega), len_sum_succ p j' (by omega)]
    · rw [if_neg e]
      exact hps j' (by omega)

theorem build_prefix_sum_spec {p : Paragraph} {M : Int} (H : InRange p M) (j : Nat)
    (hj : j < p.word_count) : build_prefix_sum p j = len_sum p (j + 1) := by
  unfold build_prefix_sum
  have hn := H.n_pos
  apply prefix_loop_spec H (p.word_count - 1) 1 _ (le_refl _) (by omega) _ j (by omega)
  intro j' hj'
  have : j' = 0 := by omega
  subst this
  simp [set_at, len_sum_succ p 0 (by omega), len_sum_zero]

/-- The value computed by `delta` on the prefix sums the optimizer builds is
the natural length of the line `i..k`. -/
theorem delta_eq_line_len {p : Paragraph} {M : Int} (H : InRange p M) (i k : Nat)
    (hik : i ≤ k) (hk : k < p.word_count) :
    delta i k (build_prefix_sum p) = line_len p i k := by
  unfold delta line_len
  have hn' := H.n_lt
  have hk1 := len_sum_bounds H (k + 1) (by omega)
  have hi1 := len_sum_bounds H i (by omega)
  have hm := len_sum_mono H i (k + 1 - i) (by omega)
  have e : i + (k + 1 - i) = k + 1 := by omega
  rw [e] at hm
  rw [build_prefix_sum_spec H k hk]
  unfold INT_MAX at *
  by_cases h0 : i > 0
  · have e1 : i - 1 + 1 = i := by omega
    rw [if_pos h0, build_prefix_sum_spec H (i - 1) (by omega), e1,
      wrap64_of_range (x := len_sum p (k + 1) - len_sum p i) (by push_cast at *; omega) (by push_cast at *; omega),
      wrap64_of_range (by push_cast at *; omega) (by push_cast at *; omega)]
  · have e0 : i = 0 := by omega
    subst e0
    rw [if_neg h0, len_sum_zero] at *
    rw [wrap64_of_range (x := len_sum p (k + 1) - 0) (by push_cast at *; omega) (by push_cast at *; omega),
      wrap64_of_range (by push_cast at *; omega) (by push_cast at *; omega)]

/-! ## The initialisation loop -/

theorem init_loop_spec : ∀ cnt i (t : Tables) j,
    ((init_loop cnt i t).dp j = if i ≤ j ∧ j < i + cnt then LLONG_MAX else t.dp j) ∧
    ((init_loop cnt i t).valid j = if i ≤ j ∧ j < i + cnt then 0 else t.valid j) ∧
    ((init_loop cnt i t).next_break j = if i ≤ j ∧ j < i + cnt then (j : Int) else t.next_break j)
  | 0, i, t, j => by
    simp only [init_loop]
    have : ¬ (i ≤ j ∧ j < i + 0) := by omega
    rw [if_neg this, if_neg this, if_neg this]
    exact ⟨rfl, rfl, rfl⟩
  | cnt + 1, i, t, j => by
    simp only [init_loop]
    obtain ⟨h1, h2, h3⟩ := init_loop_spec cnt (i + 1)
      { dp := set_at t.dp i LLONG_MAX, valid := set_at t.valid i 0,
        next_break := set_at t.next_break i (i : Int) } j
    rw [h1, h2, h3]
    simp only [set_at]
    by_cases c1 : i + 1 ≤ j ∧ j < i + 1 + cnt
    · have c2 : i ≤ j ∧ j < i + (cnt + 1) := by omega
      simp [c1, c2]
    · by_cases c3 : j = i
      · subst c3
        have c2 : j ≤ j ∧ j < j + (cnt + 1) := by omega
        simp [c1, c2]
      · have c2 : ¬ (i ≤ j ∧ j < i + (cnt + 1)) := by omega
        simp [c1, c2, c3]

/-! ## One turn of the inner loop, overflow-free -/

theorem line_penalty_bounds {p : Paragraph} {M : Int} (H : InRange p M) (i k : Nat)
    (hik : i ≤ k) (hk : k < p.word_count) (hd : line_len p i k ≤ M) :
    0 ≤ line_penalty p M i k ∧ line_penalty p M i k ≤ 1000000000000 := by
  unfold line_penalty
  split
  · omega
  · have h1 := line_len_pos H i k hik hk
    have hM := H.M_le
    exact pow3_small (by omega) (by omega)

theorem inner_loop_step {p : Paragraph} {M : Int} (H : InRange p M) (i k fuel : Nat) (t : Tables)
    (hik : i ≤ k) (hk : k < p.word_count)
    (hv : t.valid (k + 1) = 0 ∨ t.valid (k + 1) = 1)
    (hdp : t.valid (k + 1) = 1 →
      0 ≤ t.dp (k + 1) ∧ t.dp (k + 1) ≤ ((p.word_count : Int) - (k + 1 : Nat)) * 1000000000000) :
    inner_loop p.word_count M (build_prefix_sum p) i (fuel + 1) k t =
      if line_len p i k > M then t
      else if t.valid (k + 1) = 0 then
        inner_loop p.word_count M (build_prefix_sum p) i fuel (k + 1) t
      else if line_penalty p M i k + t.dp (k + 1) < t.dp i then
        inner_loop p.word_count M (build_prefix_sum p) i fuel (k + 1)
          { dp := set_at t.dp i (line_penalty p M i k + t.dp (k + 1)),
            valid := set_at t.valid i 1,
            next_break := set_at t.next_break i ((k : Int) + 1) }
      else inner_loop p.word_count M (build_prefix_sum p) i fuel (k + 1) t := by
  rw [inner_loop, if_pos hk]
  simp only [delta_eq_line_len H i k hik hk]
  by_cases c1 : line_len p i k > M
  · simp only [if_pos c1]
  simp only [if_neg c1]
  by_cases c2 : t.valid (k + 1) = 0
  · simp only [if_pos c2]
  simp only [if_neg c2]
  have hv1 : t.valid (k + 1) = 1 := by omega
  obtain ⟨d0, d1⟩ := hdp hv1
  have hn := H.n_lt
  have hpos := line_len_pos H i k hik hk
  have hM := H.M_le
  obtain ⟨p0, p1⟩ := line_penalty_bounds H i k hik hk (by omega)
  have hpen : (if (if k = p.word_count - 1 then 0 else cube (wrap64 (M - line_len p i k))) < 0
      then LLONG_MAX
      else (if k = p.word_count - 1 then 0 else cube (wrap64 (M - line_len p i k))))
      = line_penalty p M i k := by
    unfold line_penalty
    by_cases c3 : k = p.word_count - 1
    · have c4 : k + 1 = p.word_count := by omega
      rw [if_pos c3, if_pos c4]
      simp
    · have c4 : ¬ (k + 1 = p.word_count) := by omega
      have hc : cube (wrap64 (M - line_len p i k)) = (M - line_len p i k) ^ 3 := by
        rw [wrap64_of_range (by omega) (by omega)]
        exact cube_small (by omega) (by omega)
      have := pow3_small (x := M - line_len p i k) (by omega) (by omega)
      rw [if_neg c3, if_neg c4, hc, if_neg (by omega)]
  rw [hpen]
  push_cast at d1
  have hfc : ¬ (t.dp (k + 1) = LLONG_MAX) := by unfold LLONG_MAX; omega
  have hov : ¬ (line_penalty p M i k > wrap64 (LLONG_MAX - t.dp (k + 1))) := by
    unfold LLONG_MAX
    rw [wrap64_of_range (by omega) (by omega)]
    omega
  rw [if_neg hfc, if_neg hov, wrap64_of_range (by omega) (by omega)]

/-! ## The inner loop computes the best line end of a row -/

theorem rowInv_break {p : Paragraph} {M : Int} (H : InRange p M) {i k : Nat} {T t : Tables}
    (hk : k < p.word_count) (hbig : line_len p i k > M) (h : RowInv p M i T k t) :
    RowInv p M i T p.word_count t := by
  have key : ∀ k', k' < p.word_count → line_len p i k' ≤ M → k' < k := by
    intro k' h1 h2
    by_contra hc
    have := line_len_mono H i k k' (by omega) h1
    omega
  obtain ⟨hf, hrow⟩ := h
  refine ⟨hf, ?_⟩
  rcases hrow with ⟨a, b, c, d⟩ | ⟨a, ks, b, c, d, e, f, g, h⟩
  · exact Or.inl ⟨a, b, c, fun k' h1 h2 h3 => d k' h1 (key k' h2 h3) h3⟩
  · exact Or.inr ⟨a, ks, b, by omega, d, e, f, g,
      fun k' h1 h2 h3 h4 => h k' h1 (key k' h2 h3) h3 h4⟩

theorem inner_loop_inv {p : Paragraph} {M : Int} (H : InRange p M) (i : Nat) (T : Tables)
    (hT : TailOK p i T) :
    ∀ fuel k t, p.word_count - k ≤ fuel → i ≤ k → k ≤ p.word_count → RowInv p M i T k t →
      RowInv p M i T p.word_count (inner_loop p.word_count M (build_prefix_sum p) i fuel k t)
  | 0, k, t, hfuel, _, hkn, h => by
    have : k = p.word_count := by omega
    subst this
    simpa [inner_loop] using h
  | fuel + 1, k, t, hfuel, hik, hkn, h => by
    by_cases hk : k < p.word_count
    swap
    · have : k = p.word_count := by omega
      subst this
      rw [inner_loop, if_neg hk]
      exact h
    have hfr := h.1 (k + 1) (by omega)
    obtain ⟨tv, tdp⟩ := hT (k + 1) (by omega) (by omega)
    rw [inner_loop_step H i k fuel t hik hk (by rw [hfr.2.1]; exact tv)
      (by rw [hfr.2.1, hfr.1]; exact tdp)]
    by_cases c1 : line_len p i k > M
    · rw [if_pos c1]
      exact rowInv_break H hk c1 h
    rw [if_neg c1]
    have c1' : line_len p i k ≤ M := by omega
    by_cases c2 : t.valid (k + 1) = 0
    · rw [if_pos c2]
      apply inner_loop_inv H i T hT fuel (k + 1) t (by omega) (by omega) (by omega)
      have c2' : T.valid (k + 1) = 0 := by rw [← hfr.2.1]; exact c2
      refine ⟨h.1, ?_⟩
      rcases h.2 with ⟨a, b, c, d⟩ | ⟨a, ks, b, c, d, e, f, g, hh⟩
      · refine Or.inl ⟨a, b, c, fun k' h1 h2 h3 => ?_⟩
        by_cases e : k' = k
        · subst e; exact c2'
        · exact d k' h1 (by omega) h3
      · refine Or.inr ⟨a, ks, b, by omega, d, e, f, g, fun k' h1 h2 h3 h4 => ?_⟩
        by_cases e : k' = k
        · subst e; omega
        · exact hh k' h1 (by omega) h3 h4
    rw [if_neg c2]
    have c2' : T.valid (k + 1) = 1 := by
      have := hfr.2.1
      omega
    obtain ⟨d0, d1⟩ := tdp c2'
    obtain ⟨p0, p1⟩ := line_penalty_bounds H i k hik hk c1'
    have hn := H.n_lt
    push_cast at d1
    have hcand : line_penalty p M i k + t.dp (k + 1) = cand p M T i k := by
      unfold cand; rw [hfr.1]
    rw [hcand]
    have hcb : cand p M T i k < LLONG_MAX := by
      unfold cand LLONG_MAX; omega
    by_cases c3 : cand p M T i k < t.dp i
    · rw [if_pos c3]
      apply inner_loop_inv H i T hT fuel (k + 1) _ (by omega) (by omega) (by omega)
      refine ⟨fun j hj => ?_, Or.inr ⟨by simp [set_at], k, hik, by omega, by simp [set_at],
        c1', c2', by simp [set_at], fun k' h1 h2 h3 h4 => ?_⟩⟩
      · have := h.1 j hj
        simp only [set_at, if_neg hj]
        exact this
      · have e0 : set_at t.dp i (cand p M T i k) i = cand p M T i k := by simp [set_at]
        simp only [e0]
        by_cases e : k' = k
        · subst e
          exact ⟨le_refl _, fun hlt => absurd hlt (lt_irrefl _)⟩
        · rcases h.2 with ⟨a, b, c, d⟩ | ⟨a, ks, b, c, d, e', f, g, hh⟩
          · have := d k' h1 (by omega) h3
            omega
          · have := (hh k' h1 (by omega) h3 h4).1
            exact ⟨by omega, fun _ => by omega⟩
    · rw [if_neg c3]
      apply inner_loop_inv H i T hT fuel (k + 1) t (by omega) (by omega) (by omega)
      refine ⟨h.1, ?_⟩
      rcases h.2 with ⟨a, b, c, d⟩ | ⟨a, ks, b, c, d, e, f, g, hh⟩
      · omega
      · refine Or.inr ⟨a, ks, b, by omega, d, e, f, g, fun k' h1 h2 h3 h4 => ?_⟩
        by_cases e : k' = k
        · subst e
          exact ⟨by omega, fun hlt => by omega⟩
        · exact hh k' h1 (by omega) h3 h4

/-! ## The outer loop: every row satisfies the Bellman equation -/

theorem rowInv_congr {p : Paragraph} {M : Int} {i k : Nat} {T t T' t' : Tables}
    (hT : ∀ j, i < j → T'.dp j = T.dp j ∧ T'.valid j = T.valid j)
    (ht : t'.dp i = t.dp i ∧ t'.valid i = t.valid i ∧ t'.next_break i = t.next_break i)
    (hf : ∀ j, j ≠ i →
      t'.dp j = T'.dp j ∧ t'.valid j = T'.valid j ∧ t'.next_break j = T'.next_break j)
    (h : RowInv p M i T k t) : RowInv p M i T' k t' := by
  have hc : ∀ k', i ≤ k' → cand p M T' i k' = cand p M T i k' := by
    intro k' hk'
    unfold cand
    rw [(hT (k' + 1) (by omega)).1]
  refine ⟨hf, ?_⟩
  rw [ht.1, ht.2.1, ht.2.2]
  rcases h.2 with ⟨a, b, c, d⟩ | ⟨a, ks, b, c, d, e, f, g, hh⟩
  · refine Or.inl ⟨a, b, c, fun k' h1 h2 h3 => ?_⟩
    rw [(hT (k' + 1) (by omega)).2]
    exact d k' h1 h2 h3
  · refine Or.inr ⟨a, ks, b, c, d, e, ?_, ?_, fun k' h1 h2 h3 h4 => ?_⟩
    · rw [(hT (ks + 1) (by omega)).2]; exact f
    · rw [hc ks b]; exact g
    · rw [hc k' h1]
      rw [(hT (k' + 1) (by omega)).2] at h4
      exact hh k' h1 h2 h3 h4

theorem solved_step {p : Paragraph} {M : Int} (H : InRange p M) (nb0 : Nat → Int) (i : Nat)
    (t : Tables) (hi : i < p.word_count) (h : Solved p M nb0 (i + 1) t) :
    Solved p M nb0 i
      (inner_loop p.word_count M (build_prefix_sum p) i (p.word_count - i) i t) := by
  have hT : TailOK p i t := fun j h1 h2 => h.bounds j (by omega) h2
  have h0 : RowInv p M i t i t := by
    obtain ⟨a, b, c⟩ := h.untouched i (by omega)
    exact ⟨fun _ _ => ⟨rfl, rfl, rfl⟩, Or.inl ⟨b, a, c, fun k' h1 h2 => by omega⟩⟩
  have hr := inner_loop_inv H i t hT (p.word_count - i) i t (le_refl _) (le_refl _)
    (by omega) h0
  generalize inner_loop p.word_count M (build_prefix_sum p) i (p.word_count - i) i t = r at hr ⊢
  have hfr := hr.1
  have hrow : RowInv p M i r p.word_count r :=
    rowInv_congr (fun j hj => by have := hfr j (by omega); exact ⟨this.1, this.2.1⟩)
      ⟨rfl, rfl, rfl⟩ (fun _ _ => ⟨rfl, rfl, rfl⟩) hr
  refine ⟨fun j hj => ?_, ?_, fun j h1 h2 => ?_, fun j h1 h2 => ?_, fun j hj => ?_⟩
  · obtain ⟨a, b, c⟩ := hfr j (by omega)
    rw [a, b, c]
    exact h.untouched j (by omega)
  · obtain ⟨a, b, c⟩ := hfr p.word_count (by omega)
    rw [a, b, c]
    exact h.last
  · by_cases e : j = i
    · subst e; exact hrow
    · exact rowInv_congr
        (fun j' hj' => by have := hfr j' (by omega); exact ⟨this.1, this.2.1⟩)
        (hfr j e) (fun _ _ => ⟨rfl, rfl, rfl⟩) (h.rows j (by omega) h2)
  · by_cases e : j = i
    · subst e
      rcases hrow.2 with ⟨a, _, _, _⟩ | ⟨a, ks, b, c, _, e, f, g, _⟩
      · exact ⟨Or.inl a, fun h1 => by omega⟩
      · refine ⟨Or.inr a, fun _ => ?_⟩
        obtain ⟨p0, p1⟩ := line_penalty_bounds H j ks b c e
        have hb := (h.bounds (ks + 1) (by omega) (by omega)).2
        obtain ⟨x, y, _⟩ := hfr (ks + 1) (by omega)
        rw [← x, ← y] at hb
        obtain ⟨d0, d1⟩ := hb f
        rw [g]
        unfold cand
        push_cast at d1
        constructor <;> omega
    · obtain ⟨a, b, _⟩ := hfr j e
      rw [a, b]
      exact h.bounds j (by omega) h2
  · obtain ⟨_, _, c⟩ := hfr j (by omega)
    rw [c]
    exact h.beyond j hj

theorem outer_loop_solved {p : Paragraph} {M : Int} (H : InRange p M) (nb0 : Nat → Int) :
    ∀ i t, i ≤ p.word_count → Solved p M nb0 i t →
      Solved p M nb0 0 (outer_loop p.word_count M (build_prefix_sum p) i t)
  | 0, t, _, h => by simpa [outer_loop] using h
  | i + 1, t, hi, h => by
    rw [outer_loop]
    exact outer_loop_solved H nb0 i _ (by omega) (solved_step H nb0 i t (by omega) h)

theorem justify_tables_solved {p : Paragraph} {M : Int} (H : InRange p M) (nb0 : Nat → Int) :
    Solved p M nb0 0 (justify_tables p M nb0) := by
  unfold justify_tables
  apply outer_loop_solved H nb0 p.word_count _ (le_refl _)
  have hs := init_loop_spec (p.word_count + 1) 0
    { dp := fun _ => 0, valid := fun _ => 0, next_break := nb0 }
  refine ⟨fun j hj => ?_, ?_, fun j h1 h2 => by omega, fun j h1 h2 => ?_, fun j hj => ?_⟩
  · obtain ⟨a, b, c⟩ := hs j
    have hc : 0 ≤ j ∧ j < 0 + (p.word_count + 1) := by omega
    have hne : j ≠ p.word_count := by omega
    simp only [set_at, if_neg hne]
    rw [a, b, c, if_pos hc, if_pos hc, if_pos hc]
    exact ⟨rfl, rfl, rfl⟩
  · obtain ⟨a, b, c⟩ := hs p.word_count
    have hc : 0 ≤ p.word_count ∧ p.word_count < 0 + (p.word_count + 1) := by omega
    refine ⟨by simp [set_at], by simp [set_at], ?_⟩
    simp only
    rw [c, if_pos hc]
  · have e : j = p.word_count := by omega
    subst e
    simp [set_at]
  · obtain ⟨a, b, c⟩ := hs j
    have hc : ¬ (0 ≤ j ∧ j < 0 + (p.word_count + 1)) := by omega
    simp only
    rw [c, if_neg hc]

/-! ## From the Bellman equation to plans -/

theorem plan_cost_cons (M : Int) (l : List Int) (rest : List (List Int)) (h : rest ≠ []) :
    plan_cost M (l :: rest) = (M - natural_length l) ^ 3 + plan_cost M rest := by
  cases rest with
  | nil => exact absurd rfl h
  | cons a b => rfl

theorem isPlan_nil_iff (M : Int) (plan : List (List Int)) : IsPlan M [] plan ↔ plan = [] := by
  constructor
  · rintro ⟨h1, h2⟩
    cases plan with
    | nil => rfl
    | cons l rest =>
      have hl := (h2 l (List.mem_cons_self _ _)).1
      simp at h1
      exact absurd h1.1 hl
  · rintro rfl
    exact ⟨rfl, fun _ h => by simp at h⟩

theorem isPlan_cons_iff (M : Int) (ws l : List Int) (rest : List (List Int)) :
    IsPlan M ws (l :: rest) ↔
      l ≠ [] ∧ natural_length l ≤ M ∧ l = ws.take l.length ∧ IsPlan M (ws.drop l.length) rest := by
  constructor
  · rintro ⟨h1, h2⟩
    obtain ⟨a, b⟩ := h2 l (List.mem_cons_self _ _)
    simp only [List.flatten_cons] at h1
    subst h1
    refine ⟨a, b, by simp, by simp, fun x hx => h2 x (List.mem_cons_of_mem _ hx)⟩
  · rintro ⟨a, b, c, d, e⟩
    refine ⟨?_, ?_⟩
    · simp only [List.flatten_cons]
      rw [d]
      nth_rewrite 1 [c]
      exact List.take_append_drop _ _
    · intro x hx
      rcases List.mem_cons.1 hx with rfl | hx
      · exact ⟨a, b⟩
      · exact e x hx

theorem natural_length_take_drop (p : Paragraph) (i m : Nat) (hm : 1 ≤ m)
    (h : i + m ≤ p.word_count) :
    natural_length ((p.lens.drop i).take m) = line_len p i (i + m - 1) := by
  unfold natural_length line_len len_sum
  have e1 : i + m - 1 + 1 = i + m := by omega
  have hlen : ((p.lens.drop i).take m).length = m := by
    rw [List.length_take, List.length_drop, lens_length]
    omega
  rw [e1, List.take_add, List.sum_append, hlen]
  have c : ((i + m - 1 : Nat) : Int) = (i : Int) + m - 1 := by omega
  omega

theorem lens_drop_eq_nil_iff (p : Paragraph) (j : Nat) :
    p.lens.drop j = [] ↔ p.word_count ≤ j := by
  rw [List.drop_eq_nil_iff, lens_length]

theorem isPlan_nil_suffix {p : Paragraph} {M : Int} {j : Nat} (h : IsPlan M (p.lens.drop j) []) :
    p.word_count ≤ j :=
  (lens_drop_eq_nil_iff p j).1 h.1.symm

/-- Putting the line `j..ks` in front of a plan of the words after `ks`
gives a plan of the words from `j` on, and adds the penalty of that line. -/
theorem plan_extend (p : Paragraph) (M : Int) (j ks : Nat) (rest : List (List Int))
    (hj : j ≤ ks) (hks : ks < p.word_count) (hl : line_len p j ks ≤ M)
    (hrest : IsPlan M (p.lens.drop (ks + 1)) rest) :
    IsPlan M (p.lens.drop j) (((p.lens.drop j).take (ks + 1 - j)) :: rest) ∧
    plan_cost M (((p.lens.drop j).take (ks + 1 - j)) :: rest) =
      line_penalty p M j ks + plan_cost M rest := by
  have hlen : ((p.lens.drop j).take (ks + 1 - j)).length = ks + 1 - j := by
    rw [List.length_take, List.length_drop, lens_length]; omega
  have hnl := natural_length_take_drop p j (ks + 1 - j) (by omega) (by omega)
  have e1 : j + (ks + 1 - j) - 1 = ks := by omega
  rw [e1] at hnl
  constructor
  · rw [isPlan_cons_iff, hlen]
    refine ⟨?_, by omega, by simp, ?_⟩
    · intro h0
      rw [h0] at hlen
      simp at hlen
      omega
    · rw [List.drop_drop]
      have e2 : j + (ks + 1 - j) = ks + 1 := by omega
      rw [e2]
      exact hrest
  · unfold line_penalty
    by_cases hk : ks + 1 = p.word_count
    · rw [if_pos hk]
      rw [hk] at hrest
      have hnil : p.lens.drop p.word_count = [] :=
        (lens_drop_eq_nil_iff p _).2 (le_refl _)
      rw [hnil] at hrest
      have := (isPlan_nil_iff M rest).1 hrest
      subst this
      simp [plan_cost]
    · rw [if_neg hk]
      have hr : rest ≠ [] := by
        rintro rfl
        have := isPlan_nil_suffix hrest
        omega
      rw [plan_cost_cons M _ rest hr, hnl]

/-- What a solved table says about the plans of the words `j..n-1`. -/
theorem solved_plans {p : Paragraph} {M : Int} {nb0 : Nat → Int} {t : Tables}
    (hs : Solved p M nb0 0 t) :
    ∀ d j, j + d = p.word_count →
      (t.valid j = 1 →
        (∃ plan, IsPlan M (p.lens.drop j) plan ∧ plan_cost M plan = t.dp j) ∧
        (∀ plan, IsPlan M (p.lens.drop j) plan → t.dp j ≤ plan_cost M plan)) ∧
      (t.valid j = 0 → ∀ plan, ¬ IsPlan M (p.lens.drop j) plan) := by
  intro d
  induction d using Nat.strong_induction_on with
  | _ d ih =>
    intro j hj
    by_cases hjn : j = p.word_count
    · -- the empty suffix
      subst hjn
      have hnil : p.lens.drop p.word_count = [] :=
        (lens_drop_eq_nil_iff p _).2 (le_refl _)
      rw [hnil]
      obtain ⟨a, b, _⟩ := hs.last
      refine ⟨fun _ => ⟨⟨[], (isPlan_nil_iff M []).2 rfl, by rw [b]; rfl⟩, fun plan hp => ?_⟩,
        fun h0 => by omega⟩
      rw [(isPlan_nil_iff M plan).1 hp, b]
      rfl
    have hlt : j < p.word_count := by omega
    have hrow := (hs.rows j (Nat.zero_le _) hlt).2
    -- every plan of the suffix starts with a line `j..k` followed by a plan
    have split : ∀ plan, IsPlan M (p.lens.drop j) plan →
        ∃ k rest, j ≤ k ∧ k < p.word_count ∧ line_len p j k ≤ M ∧
          IsPlan M (p.lens.drop (k + 1)) rest ∧
          plan_cost M plan = (if rest = [] then 0 else (M - line_len p j k) ^ 3 + plan_cost M rest) ∧
          (rest = [] ↔ k + 1 = p.word_count) := by
      intro plan hp
      cases plan with
      | nil =>
        have := isPlan_nil_suffix hp
        omega
      | cons l rest =>
        obtain ⟨a, b, c, e⟩ := (isPlan_cons_iff M _ l rest).1 hp
        have hl1 : 1 ≤ l.length := by
          cases l with
          | nil => exact absurd rfl a
          | cons _ _ => simp
        have hl2 : j + l.length ≤ p.word_count := by
          have := congrArg List.length c
          rw [List.length_take, List.length_drop, lens_length] at this
          omega
        have hnl := natural_length_take_drop p j l.length hl1 hl2
        rw [← c] at hnl
        have e1 : j + l.length - 1 + 1 = j + l.length := by omega
        rw [List.drop_drop] at e
        have e2 : j + l.length = j + l.length - 1 + 1 := by omega
        rw [e2] at e
        refine ⟨j + l.length - 1, rest, by omega, by omega, by omega, e, ?_, ?_⟩
        · by_cases hr : rest = []
          · subst hr; simp [plan_cost]
          · rw [if_neg hr, plan_cost_cons M l rest hr, hnl]
        · constructor
          · rintro rfl
            have := isPlan_nil_suffix e
            omega
          · intro hk
            rw [hk] at e
            have hnil : p.lens.drop p.word_count = [] :=
              (lens_drop_eq_nil_iff p _).2 (le_refl _)
            rw [hnil] at e
            exact (isPlan_nil_iff M rest).1 e
    refine ⟨fun hv => ?_, fun hv plan hp => ?_⟩
    · rcases hrow with ⟨a, _⟩ | ⟨_, ks, b, c, _, e, f, g, hh⟩
      · omega
      have ihk := (ih (p.word_count - (ks + 1)) (by omega) (ks + 1) (by omega)).1 f
      obtain ⟨⟨rest, hrest, hcost⟩, _⟩ := ihk
      constructor
      · -- the plan that starts with the line `j..ks`
        obtain ⟨x, y⟩ := plan_extend p M j ks rest b c e hrest
        exact ⟨_, x, by rw [y, g, hcost]; rfl⟩
      · intro plan hp
        obtain ⟨k, rest, h1, h2, h3, h4, h5, h6⟩ := split plan hp
        have ihk := ih (p.word_count - (k + 1)) (by omega) (k + 1) (by omega)
        have hvk : t.valid (k + 1) = 1 := by
          rcases (hs.bounds (k + 1) (Nat.zero_le _) (by omega)).1 with h0 | h1
          · exact absurd h4 (ihk.2 h0 rest)
          · exact h1
        have hlow := (ihk.1 hvk).2 rest h4
        have hle := (hh k h1 h2 h3 hvk).1
        rw [h5]
        unfold cand line_penalty at hle
        by_cases hr : rest = []
        · rw [if_pos hr]
          have hk := h6.1 hr
          rw [if_pos hk, hk, hs.last.2.1] at hle
          omega
        · rw [if_neg hr]
          have hk : ¬ (k + 1 = p.word_count) := fun h => hr (h6.2 h)
          rw [if_neg hk] at hle
          omega
    · obtain ⟨k, rest, h1, h2, h3, h4, _, _⟩ := split plan hp
      rcases hrow with ⟨_, _, _, d⟩ | ⟨a, _⟩
      · have hvk := d k h1 h2 h3
        have ihk := ih (p.word_count - (k + 1)) (by omega) (k + 1) (by omega)
        exact ihk.2 hvk rest h4
      · omega

/-! ## Consequences for `justify_paragraph` -/

theorem inRange_of_fits {p : Paragraph} {M : Int} (hn1 : 1 ≤ p.word_count)
    (hn : p.word_count < 1000000) (hM1 : 1 ≤ M) (hM : M ≤ 10000)
    (hw : ∀ w ∈ p.words, 1 ≤ w.len ∧ w.len ≤ M) : InRange p M :=
  ⟨hn1, hn, hM1, hM, fun w h => (hw w h).1,
    fun w h => by have := (hw w h).2; unfold INT_MAX; omega⟩

theorem len_le_of_fits {p : Paragraph} {M : Int} (hw : ∀ w ∈ p.words, w.len ≤ M) (i : Nat)
    (h : i < p.word_count) : p.len i ≤ M := by
  unfold Paragraph.len
  unfold Paragraph.word_count at h
  simp only [List.getElem?_eq_getElem h]
  exact hw _ (List.getElem_mem _)

theorem line_len_self (p : Paragraph) (j : Nat) (h : j < p.word_count) :
    line_len p j j = p.len j := by
  unfold line_len
  rw [len_sum_succ p j h]
  omega

/-- When every word fits in the width, every row of the table is valid. -/
theorem solved_all_valid {p : Paragraph} {M : Int} {nb0 : Nat → Int} {t : Tables}
    (hw : ∀ w ∈ p.words, w.len ≤ M) (hs : Solved p M nb0 0 t) :
    ∀ d j, j + d = p.word_count → t.valid j = 1
  | 0, j, hj => by
    have : j = p.word_count := by omega
    subst this
    exact hs.last.1
  | d + 1, j, hj => by
    have ih := solved_all_valid hw hs d (j + 1) (by omega)
    rcases (hs.rows j (Nat.zero_le _) (by omega)).2 with ⟨_, _, _, h⟩ | ⟨a, _⟩
    · have := h j (le_refl _) (by omega)
        (by rw [line_len_self p j (by omega)]; exact len_le_of_fits hw j (by omega))
      omega
    · exact a

theorem justify_paragraph_of_valid {p : Paragraph} {M : Int} (nb : Nat → Int)
    (hn1 : 1 ≤ p.word_count) (hv : (justify_tables p M nb).valid 0 = 1) :
    justify_paragraph p M nb =
      .ok ((justify_tables p M nb).dp 0, (justify_tables p M nb).next_break) := by
  unfold justify_paragraph
  rw [if_neg (by omega)]
  simp only [hv]
  rfl

theorem justify_paragraph_of_invalid {p : Paragraph} {M : Int} (nb : Nat → Int)
    (hn1 : 1 ≤ p.word_count) (hv : (justify_tables p M nb).valid 0 = 0) :
    justify_paragraph p M nb = .error Fatal.cannot_justify := by
  unfold justify_paragraph
  rw [if_neg (by omega)]
  simp only [hv]
  rfl

/-- Reading the plan off a solved table from a valid row `j` gives a plan
of the words from `j` on whose cost is `dp[j]`. -/
theorem read_plan_spec {p : Paragraph} {M : Int} {nb0 : Nat → Int} {t : Tables}
    (hs : Solved p M nb0 0 t) :
    ∀ fuel j, j ≤ p.word_count → p.word_count - j ≤ fuel → t.valid j = 1 →
      IsPlan M (p.lens.drop j) (read_plan p.lens t.next_break fuel j) ∧
      plan_cost M (read_plan p.lens t.next_break fuel j) = t.dp j
  | 0, j, hj, hf, _ => by
    have : j = p.word_count := by omega
    subst this
    rw [(lens_drop_eq_nil_iff p _).2 (le_refl _), read_plan, hs.last.2.1]
    exact ⟨(isPlan_nil_iff M []).2 rfl, rfl⟩
  | fuel + 1, j, hj, hf, hv => by
    rw [read_plan, lens_length]
    by_cases hjn : j < p.word_count
    · rw [if_pos hjn]
      rcases (hs.rows j (Nat.zero_le _) hjn).2 with ⟨a, _⟩ | ⟨_, ks, b, c, d, e, f, g, _⟩
      · omega
      have e1 : (t.next_break j).toNat = ks + 1 := by omega
      rw [e1]
      obtain ⟨x, y⟩ := read_plan_spec hs fuel (ks + 1) (by omega) (by omega) f
      obtain ⟨u, v⟩ := plan_extend p M j ks _ b c e x
      exact ⟨u, by rw [v, y, g]; rfl⟩
    · have : j = p.word_count := by omega
      subst this
      rw [if_neg hjn, (lens_drop_eq_nil_iff p _).2 (le_refl _), hs.last.2.1]
      exact ⟨(isPlan_nil_iff M []).2 rfl, rfl⟩

theorem mem_le_natural_length {l : List Int} (hpos : ∀ x ∈ l, 1 ≤ x) {x : Int} (hx : x ∈ l) :
    x ≤ natural_length l := by
  have h1 : x ≤ l.sum := List.single_le_sum (fun y hy => by have := hpos y hy; omega) x hx
  have h2 : 1 ≤ l.length := List.length_pos_of_mem hx
  unfold natural_length
  omega

/-- A plan exists only if every word fits in the width. -/
theorem isPlan_words_fit {M : Int} {ws : List Int} {plan : List (List Int)}
    (hpos : ∀ x ∈ ws, 1 ≤ x) (h : IsPlan M ws plan) : ∀ x ∈ ws, x ≤ M := by
  intro x hx
  rw [← h.1] at hx hpos
  obtain ⟨l, hl, hxl⟩ := List.mem_flatten.1 hx
  have := mem_le_natural_length (fun y hy => hpos y (List.mem_flatten.2 ⟨l, hl, hy⟩)) hxl
  have := (h.2 l hl).2
  omega

theorem length_le_sum_of_pos : ∀ (l : List Int), (∀ x ∈ l, 1 ≤ x) → (l.length : Int) ≤ l.sum
  | [], _ => by simp
  | a :: l, h => by
    have ih := length_le_sum_of_pos l (fun x hx => h x (List.mem_cons_of_mem _ hx))
    have ha := h a (List.mem_cons_self _ _)
    simp only [List.length_cons, List.sum_cons]
    push_cast
    omega

theorem line_len_strict {p : Paragraph} {M : Int} (H : InRange p M) (i k k' : Nat)
    (hkk : k < k') (hk : k' < p.word_count) : line_len p i k < line_len p i k' := by
  unfold line_len
  have := len_sum_mono H (k + 1) (k' - k) (by omega)
  have e : k + 1 + (k' - k) = k' + 1 := by omega
  rw [e] at this
  have c : ((k' - k : Nat) : Int) = (k' : Int) - k := by omega
  omega

theorem penalty_eq_line_penalty {p : Paragraph} {M : Int} (H : InRange p M) (i k : Nat)
    (hik : i ≤ k) (hk : k < p.word_count) (hd : line_len p i k ≤ M) :
    penalty p.word_count M (build_prefix_sum p) i k = line_penalty p M i k := by
  unfold penalty line_penalty
  rw [delta_eq_line_len H i k hik hk]
  have hpos := line_len_pos H i k hik hk
  have hM := H.M_le
  by_cases c : k = p.word_count - 1
  · rw [if_pos c, if_pos (by omega)]
  · rw [if_neg c, if_neg (by omega), wrap64_of_range (by omega) (by omega)]
    exact cube_small (by omega) (by omega)

/-- C1: for a paragraph of `n` words with `1 ≤ n < 1,000,000`, a width
`1 ≤ M ≤ 10000` and word lengths between 1 and `M`, `justify_paragraph`
returns, and the cost it returns is the minimum of the plan cost (sum of
the cubed padding deficits of all lines but the last) over all splittings
of the words into consecutive lines of natural length at most `M`: some
plan has that cost and no plan costs less. -/
theorem justify_paragraph_cost_is_minimum (p : Paragraph) (M : Int) (nb : Nat → Int)
    (hn1 : 1 ≤ p.word_count) (hn : p.word_count < 1000000) (hM1 : 1 ≤ M) (hM : M ≤ 10000)
    (hw : ∀ w ∈ p.words, 1 ≤ w.len ∧ w.len ≤ M) :
    ∃ cost nb', justify_paragraph p M nb = .ok (cost, nb') ∧
      (∃ plan, IsPlan M p.lens plan ∧ plan_cost M plan = cost) ∧
      ∀ plan, IsPlan M p.lens plan → cost ≤ plan_cost M plan := by
  have H := inRange_of_fits hn1 hn hM1 hM hw
  have hs := justify_tables_solved H nb
  have hv := solved_all_valid (fun w h => (hw w h).2) hs p.word_count 0 (by omega)
  have hp := (solved_plans hs p.word_count 0 (by omega)).1 hv
  rw [List.drop_zero] at hp
  exact ⟨_, _, justify_paragraph_of_valid nb hn1 hv, hp.1, hp.2⟩

theorem justify_paragraph_cost_is_minimum_witness :
    ∃ cost nb', justify_paragraph ⟨[⟨0, 3⟩, ⟨4, 3⟩, ⟨8, 3⟩, ⟨12, 3⟩, ⟨16, 3⟩]⟩ 10
        (fun _ => 0) = .ok (cost, nb') ∧
      (∃ plan, IsPlan 10 [3, 3, 3, 3, 3] plan ∧ plan_cost 10 plan = cost) ∧
      ∀ plan, IsPlan 10 [3, 3, 3, 3, 3] plan → cost ≤ plan_cost 10 plan :=
  justify_paragraph_cost_is_minimum ⟨[⟨0, 3⟩, ⟨4, 3⟩, ⟨8, 3⟩, ⟨12, 3⟩, ⟨16, 3⟩]⟩ 10 (fun _ => 0)
    (by decide) (by decide) (by decide) (by decide) (by decide)

/-- C2: for a paragraph of `n` words with `1 ≤ n < 1,000,000`, a width
`1 ≤ M ≤ 10000` and word lengths between 1 and `M`, `justify_paragraph`
returns, and the plan read off the returned breakpoint table from word 0
by repeated jumps to `next_break[i]` is a splitting of all the words into
consecutive non-empty lines, each of natural length at most `M` (the last
one included), whose cost (cubed deficits of the non-last lines) is the
cost that `justify_paragraph` returns. -/
theorem read_plan_is_plan_of_returned_cost (p : Paragraph) (M : Int) (nb : Nat → Int)
    (hn1 : 1 ≤ p.word_count) (hn : p.word_count < 1000000) (hM1 : 1 ≤ M) (hM : M ≤ 10000)
    (hw : ∀ w ∈ p.words, 1 ≤ w.len ∧ w.len ≤ M) :
    ∃ cost nb', justify_paragraph p M nb = .ok (cost, nb') ∧
      IsPlan M p.lens (read_plan p.lens nb' p.word_count 0) ∧
      plan_cost M (read_plan p.lens nb' p.word_count 0) = cost := by
  have H := inRange_of_fits hn1 hn hM1 hM hw
  have hs := justify_tables_solved H nb
  have hv := solved_all_valid (fun w h => (hw w h).2) hs p.word_count 0 (by omega)
  have hp := read_plan_spec hs p.word_count 0 (by omega) (by omega) hv
  rw [List.drop_zero] at hp
  exact ⟨_, _, justify_paragraph_of_valid nb hn1 hv, hp.1, hp.2⟩

theorem read_plan_is_plan_of_returned_cost_witness :
    ∃ cost nb', justify_paragraph ⟨[⟨0, 3⟩, ⟨4, 3⟩, ⟨8, 3⟩, ⟨12, 3⟩, ⟨16, 3⟩]⟩ 10
        (fun _ => 0) = .ok (cost, nb') ∧
      IsPlan 10 [3, 3, 3, 3, 3] (read_plan [3, 3, 3, 3, 3] nb' 5 0) ∧
      plan_cost 10 (read_plan [3, 3, 3, 3, 3] nb' 5 0) = cost :=
  read_plan_is_plan_of_returned_cost ⟨[⟨0, 3⟩, ⟨4, 3⟩, ⟨8, 3⟩, ⟨12, 3⟩, ⟨16, 3⟩]⟩ 10 (fun _ => 0)
    (by decide) (by decide) (by decide) (by decide) (by decide)

/-- C3: for a paragraph of `n` words with `1 ≤ n < 1,000,000`, every
length at least 1 (and within the range of the C type `int`), and a width
`1 ≤ M ≤ 10000`, `justify_paragraph` ends with the fatal error
"impossible de justifier le paragraphe" if and only if some word is longer
than `M`; in particular it returns whenever every word fits in `M`. -/
theorem justify_paragraph_error_iff (p : Paragraph) (M : Int) (nb : Nat → Int)
    (hn1 : 1 ≤ p.word_count) (hn : p.word_count < 1000000) (hM1 : 1 ≤ M) (hM : M ≤ 10000)
    (hpos : ∀ w ∈ p.words, 1 ≤ w.len) (hint : ∀ w ∈ p.words, w.len ≤ INT_MAX) :
    (justify_paragraph p M nb = .error Fatal.cannot_justify ↔ ∃ w ∈ p.words, M < w.len) ∧
    ((∀ w ∈ p.words, w.len ≤ M) → ∃ cost nb', justify_paragraph p M nb = .ok (cost, nb')) := by
  have H : InRange p M := ⟨hn1, hn, hM1, hM, hpos, hint⟩
  have hs := justify_tables_solved H nb
  have hok : (∀ w ∈ p.words, w.len ≤ M) → (justify_tables p M nb).valid 0 = 1 :=
    fun hw => solved_all_valid hw hs p.word_count 0 (by omega)
  refine ⟨⟨fun herr => ?_, fun ⟨w, hw, hlt⟩ => ?_⟩, fun hw => ?_⟩
  · by_contra hnone
    push_neg at hnone
    rw [justify_paragraph_of_valid nb hn1 (hok hnone)] at herr
    cases herr
  · rcases (hs.bounds 0 (le_refl _) (Nat.zero_le _)).1 with h0 | h1
    · exact justify_paragraph_of_invalid nb hn1 h0
    · obtain ⟨⟨plan, hplan, _⟩, _⟩ := (solved_plans hs p.word_count 0 (by omega)).1 h1
      rw [List.drop_zero] at hplan
      have hposl : ∀ x ∈ p.lens, 1 ≤ x := fun x hx => by
        obtain ⟨w', hw', rfl⟩ := List.mem_map.1 hx
        exact hpos w' hw'
      have hfit := isPlan_words_fit hposl hplan w.len (List.mem_map.2 ⟨w, hw, rfl⟩)
      omega
  · exact ⟨_, _, justify_paragraph_of_valid nb hn1 (hok hw)⟩

theorem justify_paragraph_error_iff_witness :
    (justify_paragraph ⟨[⟨0, 4⟩, ⟨5, 10⟩, ⟨16, 4⟩]⟩ 9 (fun _ => 0) = .error Fatal.cannot_justify ↔
      ∃ w ∈ [(⟨0, 4⟩ : Word), ⟨5, 10⟩, ⟨16, 4⟩], 9 < w.len) ∧
    ((∀ w ∈ [(⟨0, 4⟩ : Word), ⟨5, 10⟩, ⟨16, 4⟩], w.len ≤ 9) →
      ∃ cost nb', justify_paragraph ⟨[⟨0, 4⟩, ⟨5, 10⟩, ⟨16, 4⟩]⟩ 9 (fun _ => 0) = .ok (cost, nb')) :=
  justify_paragraph_error_iff ⟨[⟨0, 4⟩, ⟨5, 10⟩, ⟨16, 4⟩]⟩ 9 (fun _ => 0)
    (by decide) (by decide) (by decide) (by decide) (by decide) (by decide)

theorem line_len_all (p : Paragraph) (h : 1 ≤ p.word_count) :
    line_len p 0 (p.word_count - 1) = natural_length p.lens := by
  have := natural_length_take_drop p 0 p.word_count h (by omega)
  rw [List.drop_zero, ← lens_length, List.take_length, lens_length] at this
  rw [this]
  congr 1
  omega

/-- C6: for a paragraph of `n ≥ 1` words (each of length at least 1) and a
width `1 ≤ M ≤ 10000` such that all the words fit on one line (sum of the
word lengths plus `n - 1` is at most `M`), `justify_paragraph` returns cost
0 with `next_break[0] = n`: the plan read off the table is the single line
made of all the words. -/
theorem justify_paragraph_single_line (p : Paragraph) (M : Int) (nb : Nat → Int)
    (hn1 : 1 ≤ p.word_count) (hM1 : 1 ≤ M) (hM : M ≤ 10000)
    (hpos : ∀ w ∈ p.words, 1 ≤ w.len) (hfit : natural_length p.lens ≤ M) :
    ∃ nb', justify_paragraph p M nb = .ok (0, nb') ∧ nb' 0 = (p.word_count : Int) ∧
      read_plan p.lens nb' p.word_count 0 = [p.lens] := by
  have hposl : ∀ x ∈ p.lens, 1 ≤ x := fun x hx => by
    obtain ⟨w', hw', rfl⟩ := List.mem_map.1 hx
    exact hpos w' hw'
  have hlen := length_le_sum_of_pos p.lens hposl
  have hn : p.word_count < 1000000 := by
    rw [lens_length] at hlen
    unfold natural_length at hfit
    rw [lens_length] at hfit
    omega
  have hw : ∀ w ∈ p.words, 1 ≤ w.len ∧ w.len ≤ M := fun w h => by
    have := mem_le_natural_length hposl (List.mem_map.2 ⟨w, h, rfl⟩)
    exact ⟨hpos w h, by omega⟩
  have H := inRange_of_fits hn1 hn hM1 hM hw
  have hs := justify_tables_solved H nb
  have hall := solved_all_valid (fun w h => (hw w h).2) hs
  have hv := hall p.word_count 0 (by omega)
  have hfull : line_len p 0 (p.word_count - 1) ≤ M := by rw [line_len_all p hn1]; exact hfit
  have e1 : p.word_count - 1 + 1 = p.word_count := by omega
  rcases (hs.rows 0 (le_refl _) (by omega)).2 with ⟨a, _⟩ | ⟨_, ks, b, c, d, e, f, g, hh⟩
  · omega
  have hend := (hh (p.word_count - 1) (Nat.zero_le _) (by omega) hfull
    (by rw [e1]; exact hs.last.1)).1
  have hcend : cand p M (justify_tables p M nb) 0 (p.word_count - 1) = 0 := by
    unfold cand line_penalty
    rw [if_pos e1, e1, hs.last.2.1]
    rfl
  rw [hcend] at hend
  have hge := ((hs.bounds 0 (le_refl _) (Nat.zero_le _)).2 hv).1
  have hzero : (justify_tables p M nb).dp 0 = 0 := by omega
  have hks : ks + 1 = p.word_count := by
    by_contra hne
    have hstrict := line_len_strict H 0 ks (p.word_count - 1) (by omega) (by omega)
    have hnext := ((hs.bounds (ks + 1) (Nat.zero_le _) (by omega)).2 f).1
    have hpw : 0 < (M - line_len p 0 ks) ^ 3 := pow_pos (by omega) 3
    rw [hzero] at g
    unfold cand line_penalty at g
    rw [if_neg hne] at g
    omega
  have hnb : (justify_tables p M nb).next_break 0 = (p.word_count : Int) := by
    rw [d, ← hks]
    push_cast
    rfl
  refine ⟨_, by rw [justify_paragraph_of_valid nb hn1 hv, hzero], hnb, ?_⟩
  have hnb' : ((justify_tables p M nb).next_break 0).toNat = p.word_count := by
    rw [hnb]; simp
  have e3 : ∀ fuel, read_plan p.lens (justify_tables p M nb).next_break fuel p.word_count = [] := by
    intro fuel
    cases fuel with
    | zero => rfl
    | succ m' => rw [read_plan, if_neg (by rw [lens_length]; omega)]
  have step : ∀ fuel, 1 ≤ fuel →
      read_plan p.lens (justify_tables p M nb).next_break fuel 0 = [p.lens] := by
    intro fuel hf
    cases fuel with
    | zero => omega
    | succ f =>
      rw [read_plan, if_pos (by rw [lens_length]; omega), hnb', e3, List.drop_zero, Nat.sub_zero,
        ← lens_length, List.take_length]
  exact step _ hn1

theorem justify_paragraph_single_line_witness :
    ∃ nb', justify_paragraph ⟨[⟨0, 10⟩]⟩ 10 (fun _ => 0) = .ok (0, nb') ∧ nb' 0 = 1 ∧
      read_plan [10] nb' 1 0 = [[10]] :=
  justify_paragraph_single_line ⟨[⟨0, 10⟩]⟩ 10 (fun _ => 0)
    (by decide) (by decide) (by decide) (by decide) (by decide)

/-- C8: for a paragraph and width accepted by `justify_paragraph`
(`1 ≤ n < 1,000,000`, `1 ≤ M ≤ 10000`, word lengths in `1..M`) and every
start word `i < n`, `next_break[i] - 1` is a feasible line end `ks` in
`i..n-1` (`delta(i, ks) ≤ M`) whose candidate total
`penalty(i, ks) + dp[ks+1]` is `dp[i]`; `dp[i]` is the least candidate
total over the feasible line ends, and every feasible line end before `ks`
has a strictly larger candidate total: among equal-cost options the
earliest break is the one recorded. -/
theorem next_break_is_earliest_best (p : Paragraph) (M : Int) (nb : Nat → Int)
    (hn1 : 1 ≤ p.word_count) (hn : p.word_count < 1000000) (hM1 : 1 ≤ M) (hM : M ≤ 10000)
    (hw : ∀ w ∈ p.words, 1 ≤ w.len ∧ w.len ≤ M) (i : Nat) (hi : i < p.word_count) :
    justify_paragraph p M nb =
        .ok ((justify_tables p M nb).dp 0, (justify_tables p M nb).next_break) ∧
    ∃ ks : Nat, (justify_tables p M nb).next_break i = (ks : Int) + 1 ∧ i ≤ ks ∧ ks < p.word_count ∧
      delta i ks (build_prefix_sum p) ≤ M ∧
      penalty p.word_count M (build_prefix_sum p) i ks + (justify_tables p M nb).dp (ks + 1)
        = (justify_tables p M nb).dp i ∧
      (∀ k, i ≤ k → k < p.word_count → delta i k (build_prefix_sum p) ≤ M →
        (justify_tables p M nb).dp i ≤
          penalty p.word_count M (build_prefix_sum p) i k + (justify_tables p M nb).dp (k + 1)) ∧
      (∀ k, i ≤ k → k < ks → delta i k (build_prefix_sum p) ≤ M →
        (justify_tables p M nb).dp i <
          penalty p.word_count M (build_prefix_sum p) i k + (justify_tables p M nb).dp (k + 1)) := by
  have H := inRange_of_fits hn1 hn hM1 hM hw
  have hs := justify_tables_solved H nb
  have hall := solved_all_valid (fun w h => (hw w h).2) hs
  have hv := hall p.word_count 0 (by omega)
  refine ⟨justify_paragraph_of_valid nb hn1 hv, ?_⟩
  rcases (hs.rows i (Nat.zero_le _) hi).2 with ⟨a, _⟩ | ⟨_, ks, b, c, d, e, f, g, hh⟩
  · have := hall (p.word_count - i) i (by omega)
    omega
  refine ⟨ks, d, b, c, by rw [delta_eq_line_len H i ks b c]; exact e, ?_,
    fun k h1 h2 h3 => ?_, fun k h1 h2 h3 => ?_⟩
  · rw [penalty_eq_line_penalty H i ks b c e, g]
    rfl
  · rw [delta_eq_line_len H i k h1 h2] at h3
    rw [penalty_eq_line_penalty H i k h1 h2 h3]
    exact (hh k h1 h2 h3 (hall (p.word_count - (k + 1)) (k + 1) (by omega))).1
  · rw [delta_eq_line_len H i k h1 (by omega)] at h3
    rw [penalty_eq_line_penalty H i k h1 (by omega) h3]
    exact (hh k h1 (by omega) h3 (hall (p.word_count - (k + 1)) (k + 1) (by omega))).2 h2

theorem next_break_is_earliest_best_witness :
    justify_paragraph ⟨[⟨0, 3⟩, ⟨4, 3⟩, ⟨8, 3⟩]⟩ 7 (fun _ => 0) =
        .ok ((justify_tables ⟨[⟨0, 3⟩, ⟨4, 3⟩, ⟨8, 3⟩]⟩ 7 (fun _ => 0)).dp 0,
          (justify_tables ⟨[⟨0, 3⟩, ⟨4, 3⟩, ⟨8, 3⟩]⟩ 7 (fun _ => 0)).next_break) ∧
    ∃ ks : Nat, (justify_tables ⟨[⟨0, 3⟩, ⟨4, 3⟩, ⟨8, 3⟩]⟩ 7 (fun _ => 0)).next_break 0
        = (ks : Int) + 1 ∧ 0 ≤ ks ∧ ks < 3 ∧
      delta 0 ks (build_prefix_sum ⟨[⟨0, 3⟩, ⟨4, 3⟩, ⟨8, 3⟩]⟩) ≤ 7 ∧
      penalty 3 7 (build_prefix_sum ⟨[⟨0, 3⟩, ⟨4, 3⟩, ⟨8, 3⟩]⟩) 0 ks
          + (justify_tables ⟨[⟨0, 3⟩, ⟨4, 3⟩, ⟨8, 3⟩]⟩ 7 (fun _ => 0)).dp (ks + 1)
        = (justify_tables ⟨[⟨0, 3⟩, ⟨4, 3⟩, ⟨8, 3⟩]⟩ 7 (fun _ => 0)).dp 0 ∧
      (∀ k, 0 ≤ k → k < 3 → delta 0 k (build_prefix_sum ⟨[⟨0, 3⟩, ⟨4, 3⟩, ⟨8, 3⟩]⟩) ≤ 7 →
        (justify_tables ⟨[⟨0, 3⟩, ⟨4, 3⟩, ⟨8, 3⟩]⟩ 7 (fun _ => 0)).dp 0 ≤
          penalty 3 7 (build_prefix_sum ⟨[⟨0, 3⟩, ⟨4, 3⟩, ⟨8, 3⟩]⟩) 0 k
            + (justify_tables ⟨[⟨0, 3⟩, ⟨4, 3⟩, ⟨8, 3⟩]⟩ 7 (fun _ => 0)).dp (k + 1)) ∧
      (∀ k, 0 ≤ k → k < ks → delta 0 k (build_prefix_sum ⟨[⟨0, 3⟩, ⟨4, 3⟩, ⟨8, 3⟩]⟩) ≤ 7 →
        (justify_tables ⟨[⟨0, 3⟩, ⟨4, 3⟩, ⟨8, 3⟩]⟩ 7 (fun _ => 0)).dp 0 <
          penalty 3 7 (build_prefix_sum ⟨[⟨0, 3⟩, ⟨4, 3⟩, ⟨8, 3⟩]⟩) 0 k
            + (justify_tables ⟨[⟨0, 3⟩, ⟨4, 3⟩, ⟨8, 3⟩]⟩ 7 (fun _ => 0)).dp (k + 1)) :=
  next_break_is_earliest_best ⟨[⟨0, 3⟩, ⟨4, 3⟩, ⟨8, 3⟩]⟩ 7 (fun _ => 0)
    (by decide) (by decide) (by decide) (by decide) (by decide) 0 (by decide)

/-! ## The renderer -/

theorem wrap32_of_range {x : Int} (h1 : -2147483648 ≤ x) (h2 : x ≤ 2147483647) :
    wrap32 x = x := by
  unfold wrap32
  norm_num
  omega

theorem word_bytes_length (data : List Nat) (w : Word) :
    (word_bytes data w).length = w.len.toNat := by
  simp [word_bytes]

theorem justified_loop_eq (data : List Nat) (words : List Word) (start w : Nat)
    (ts base extra : Int)
    (hsp : ∀ a : Nat, a + 1 < w →
      wrap32 (wrap64 (wrap64 (base
        + (if ((start + a : Nat) : Int) - (start : Int) < extra then 1 else 0)) + 1))
        = gap_width ts (w - 1) a) :
    ∀ cnt a out, a + cnt = w →
      justified_loop data words start (start + w) base extra cnt (start + a) out =
        out ++ ((List.range' a cnt).map (justified_piece data words start w ts)).flatten
  | 0, a, out, _ => by simp [justified_loop]
  | cnt + 1, a, out, h => by
    rw [justified_loop, List.range'_succ, List.map_cons, List.flatten_cons]
    have ih := justified_loop_eq data words start w ts base extra hsp cnt (a + 1)
    rw [← Nat.add_assoc] at ih
    by_cases c : a + 1 < w
    · have c' : ((start + a : Nat) : Int) < ((start + w : Nat) : Int) - 1 := by omega
      simp only [if_pos c']
      rw [ih _ (by omega), hsp a c]
      simp [justified_piece, put_spaces, c, List.append_assoc]
    · have c' : ¬ (((start + a : Nat) : Int) < ((start + w : Nat) : Int) - 1) := by omega
      simp only [if_neg c']
      rw [ih _ (by omega)]
      simp [justified_piece, c, List.append_assoc]

theorem spaces_eq_gap_width (start w : Nat) (ts : Int) (hw : 2 ≤ w) (h0 : 0 ≤ ts)
    (h1 : ts ≤ 2147483646) (a : Nat) :
    wrap32 (wrap64 (wrap64 (Int.tdiv ts (((start + w : Nat) : Int) - (start : Int) - 1)
        + (if ((start + a : Nat) : Int) - (start : Int)
            < Int.tmod ts (((start + w : Nat) : Int) - (start : Int) - 1) then 1 else 0)) + 1))
      = gap_width ts (w - 1) a := by
  have eg : ((start + w : Nat) : Int) - (start : Int) - 1 = ((w - 1 : Nat) : Int) := by omega
  have ea : ((start + a : Nat) : Int) - (start : Int) = (a : Int) := by omega
  have hg : (0 : Int) < ((w - 1 : Nat) : Int) := by omega
  rw [eg, ea, Int.tdiv_eq_ediv h0 (le_of_lt hg), Int.tmod_eq_emod h0 (le_of_lt hg)]
  unfold gap_width
  have hb0 : 0 ≤ ts / ((w - 1 : Nat) : Int) := Int.ediv_nonneg h0 (le_of_lt hg)
  have hmul := Int.ediv_mul_le ts (ne_of_gt hg)
  have hr0 : 0 ≤ ts % ((w - 1 : Nat) : Int) := Int.emod_nonneg _ (ne_of_gt hg)
  have hr1 : ts % ((w - 1 : Nat) : Int) < ((w - 1 : Nat) : Int) := Int.emod_lt_of_pos _ hg
  have hbit : ts / ((w - 1 : Nat) : Int)
      + (if (a : Int) < ts % ((w - 1 : Nat) : Int) then 1 else 0) ≤ ts := by
    by_cases c1 : w - 1 = 1
    · rw [c1] at hr1 hr0 ⊢
      have : ¬ ((a : Int) < ts % ((1 : Nat) : Int)) := by omega
      rw [if_neg this]
      simp
    · have h2 : (2 : Int) ≤ ((w - 1 : Nat) : Int) := by omega
      have : ts / ((w - 1 : Nat) : Int) * 2 ≤ ts / ((w - 1 : Nat) : Int) * ((w - 1 : Nat) : Int) :=
        mul_le_mul_of_nonneg_left h2 hb0
      have hdec := Int.ediv_add_emod' ts ((w - 1 : Nat) : Int)
      split <;> omega
  have hbit0 : 0 ≤ ts / ((w - 1 : Nat) : Int)
      + (if (a : Int) < ts % ((w - 1 : Nat) : Int) then 1 else 0) := by
    split <;> omega
  rw [wrap64_of_range (x := ts / _ + _) (by omega) (by omega),
    wrap64_of_range (by omega) (by omega), wrap32_of_range (by omega) (by omega)]
  omega

theorem justified_text_single (data : List Nat) (words : List Word) (start : Nat) (ts : Int) :
    justified_text data words start 1 ts = word_bytes data (word_at words start) := by
  simp [justified_text, justified_piece, List.range_succ]

theorem gap_width_partial_sum (ts : Int) (g : Nat) (hr : 0 ≤ ts % (g : Int)) :
    ∀ m : Nat, (((List.range m).map (gap_width ts g)).sum : Int) =
      m * (1 + ts / (g : Int)) + min (m : Int) (ts % (g : Int))
  | 0 => by simp [hr]
  | m + 1 => by
    rw [List.range_succ, List.map_append, List.sum_append, gap_width_partial_sum ts g hr m]
    simp only [List.map_cons, List.map_nil, List.sum_cons, List.sum_nil, gap_width]
    have e : ((m + 1 : Nat) : Int) * (1 + ts / (g : Int))
        = (m : Int) * (1 + ts / (g : Int)) + (1 + ts / (g : Int)) := by
      push_cast; ring
    rw [e]
    by_cases c : (m : Int) < ts % (g : Int)
    · rw [if_pos c, min_eq_left (by omega), min_eq_left (by push_cast; omega)]
      push_cast
      omega
    · rw [if_neg c, min_eq_right (by omega), min_eq_right (by push_cast; omega)]
      omega

theorem gap_width_sum (ts : Int) (g : Nat) (hg : 1 ≤ g) :
    ((List.range g).map (gap_width ts g)).sum = ts + (g : Int) := by
  have hg' : (0 : Int) < (g : Int) := by omega
  have hr0 : 0 ≤ ts % (g : Int) := Int.emod_nonneg _ (ne_of_gt hg')
  have hr1 : ts % (g : Int) < (g : Int) := Int.emod_lt_of_pos _ hg'
  rw [gap_width_partial_sum ts g hr0 g, min_eq_right (le_of_lt hr1)]
  have := Int.emod_add_ediv ts (g : Int)
  have e : (g : Int) * (1 + ts / (g : Int)) = (g : Int) + (g : Int) * (ts / (g : Int)) := by ring
  omega

theorem gap_width_antitone (ts : Int) (g j j' : Nat) (h : j ≤ j') :
    gap_width ts g j' ≤ gap_width ts g j ∧ gap_width ts g j ≤ gap_width ts g j' + 1 := by
  unfold gap_width
  constructor <;> split <;> split <;> omega

theorem write_justified_line_eq (data out : List Nat) (words : List Word) (start w : Nat)
    (ts : Int) (hw : 1 ≤ w) (h0 : 0 ≤ ts) (h1 : 2 ≤ w → ts ≤ 2147483646) :
    write_justified_line data out words start (start + w) ts
      = out ++ justified_text data words start w ts := by
  unfold write_justified_line
  by_cases c : w = 1
  · subst c
    have e : ((start + 1 : Nat) : Int) - (start : Int) = 1 := by omega
    simp only [e]
    rw [if_pos trivial, justified_text_single]
  · have hw2 : 2 ≤ w := by omega
    have e : ¬ (((start + w : Nat) : Int) - (start : Int) = 1) := by omega
    simp only [if_neg e]
    have e2 : start + w - start = w := by omega
    have h := justified_loop_eq data words start w ts
      (Int.tdiv ts (((start + w : Nat) : Int) - (start : Int) - 1))
      (Int.tmod ts (((start + w : Nat) : Int) - (start : Int) - 1))
      (fun a _ => spaces_eq_gap_width start w ts hw2 h0 (h1 hw2) a) w 0 out (by omega)
    rw [Nat.add_zero] at h
    rw [e2, h, justified_text, List.range_eq_range']

theorem word_at_len (p : Paragraph) (j : Nat) : (word_at p.words j).len = p.len j := by
  unfold word_at Paragraph.len
  by_cases h : j < p.words.length
  · simp [List.getD_eq_getElem _ _ h, List.getElem?_eq_getElem h]
  · have h' : p.words.length ≤ j := by omega
    simp [List.getD_eq_default _ _ h', List.getElem?_eq_none h']

theorem gap_width_nonneg (ts : Int) (g j : Nat) (h0 : 0 ≤ ts) : 0 ≤ gap_width ts g j := by
  unfold gap_width
  have : 0 ≤ ts / (g : Int) := Int.ediv_nonneg h0 (by omega)
  split <;> omega

theorem justified_prefix_length {p : Paragraph} {M : Int} (H : InRange p M) (data : List Nat)
    (start w : Nat) (ts : Int) (h0 : 0 ≤ ts) (hn : start + w ≤ p.word_count) :
    ∀ m, m + 1 ≤ w →
      ((((List.range m).map (justified_piece data p.words start w ts)).flatten.length : Nat) : Int)
        = len_sum p (start + m) - len_sum p start
          + ((List.range m).map (gap_width ts (w - 1))).sum
  | 0, _ => by simp
  | m + 1, h => by
    have ih := justified_prefix_length H data start w ts h0 hn m (by omega)
    rw [List.range_succ, List.map_append, List.flatten_append, List.length_append,
      List.map_append, List.sum_append]
    push_cast
    rw [ih]
    have hb := len_bounds H (start + m) (by omega)
    have hgw := gap_width_nonneg ts (w - 1) m h0
    have hlen : (((justified_piece data p.words start w ts m).length : Nat) : Int)
        = p.len (start + m) + gap_width ts (w - 1) m := by
      unfold justified_piece
      rw [if_pos (by omega), List.length_append, word_bytes_length, List.length_replicate,
        word_at_len]
      push_cast
      rw [Int.toNat_of_nonneg (by omega), Int.toNat_of_nonneg hgw]
    simp only [List.map_cons, List.map_nil, List.flatten_cons, List.flatten_nil,
      List.append_nil, List.sum_cons, List.sum_nil, add_zero]
    rw [hlen, ← Nat.add_assoc, len_sum_succ p (start + m) (by omega)]
    omega

theorem justified_text_length {p : Paragraph} {M : Int} (H : InRange p M) (data : List Nat)
    (start w : Nat) (ts : Int) (hw : 2 ≤ w) (h0 : 0 ≤ ts) (hn : start + w ≤ p.word_count) :
    (((justified_text data p.words start w ts).length : Nat) : Int)
      = len_sum p (start + w) - len_sum p start + ts + ((w : Int) - 1) := by
  obtain ⟨g, rfl⟩ : ∃ g, w = g + 1 := ⟨w - 1, by omega⟩
  unfold justified_text
  rw [List.range_succ, List.map_append, List.flatten_append, List.length_append]
  push_cast
  rw [justified_prefix_length H data start (g + 1) ts h0 hn g (le_refl _)]
  have e : g + 1 - 1 = g := by omega
  rw [e, gap_width_sum ts g (by omega)]
  have hb := len_bounds H (start + g) (by omega)
  have hlen : (((justified_piece data p.words start (g + 1) ts g).length : Nat) : Int)
      = p.len (start + g) := by
    unfold justified_piece
    rw [if_neg (by omega), List.append_nil, word_bytes_length, word_at_len]
    exact Int.toNat_of_nonneg (by omega)
  simp only [List.map_cons, List.map_nil, List.flatten_cons, List.flatten_nil, List.append_nil]
  rw [hlen, ← Nat.add_assoc, len_sum_succ p (start + g) (by omega)]
  omega

theorem line_length_loop_eq {p : Paragraph} {M : Int} (H : InRange p M)
    (hfit : ∀ w ∈ p.words, w.len ≤ M) :
    ∀ (cnt j : Nat) (acc : Int), j + cnt ≤ p.word_count → 0 ≤ acc →
      acc + cnt * 10001 ≤ 1000000000000000000 →
      line_length_loop p cnt j acc = acc + (len_sum p (j + cnt) - len_sum p j) + cnt
  | 0, j, acc, _, _, _ => by simp [line_length_loop]
  | cnt + 1, j, acc, hj, ha, hb => by
    have h1 := len_bounds H j (by omega)
    have h2 := len_le_of_fits hfit j (by omega)
    have hM := H.M_le
    push_cast at hb
    rw [line_length_loop, wrap32_of_range (by omega) (by omega),
      wrap64_of_range (by omega) (by omega),
      line_length_loop_eq H hfit cnt (j + 1) _ (by omega) (by omega) (by omega),
      len_sum_succ p j (by omega)]
    have e : j + 1 + cnt = j + (cnt + 1) := by omega
    rw [e]
    push_cast
    omega

/-- A non-final line `i..k-1` is rendered by `write_justified_line` with
slack `M` minus its natural length. -/
theorem write_line_justified {p : Paragraph} {M : Int} (H : InRange p M)
    (hfit : ∀ w ∈ p.words, w.len ≤ M) (data out : List Nat) (i ks : Nat) (hi : i ≤ ks)
    (hk : ks + 1 < p.word_count) (hl : line_len p i ks ≤ M) :
    write_line data out p M i (ks + 1) =
      out ++ justified_text data p.words i (ks + 1 - i) (M - line_len p i ks) := by
  unfold write_line
  have hn := H.n_lt
  have hM := H.M_le
  have hpos := line_len_pos H i ks hi (by omega)
  have hs1 := len_sum_bounds H (ks + 1) (by omega)
  have hs2 := len_sum_bounds H i (by omega)
  have hloop := line_length_loop_eq H hfit (ks + 1 - i) i 0 (by omega) (le_refl _) (by omega)
  have e1 : i + (ks + 1 - i) = ks + 1 := by omega
  rw [e1] at hloop
  have hll : wrap64 (line_length_loop p (ks + 1 - i) i 0 - 1) = line_len p i ks := by
    rw [hloop]
    unfold line_len at hpos hl ⊢
    rw [wrap64_of_range (by omega) (by omega)]
    omega
  rw [if_neg (by omega)]
  simp only [hll]
  rw [wrap64_of_range (by omega) (by omega)]
  have := write_justified_line_eq data out p.words i (ks + 1 - i) (M - line_len p i ks)
    (by omega) (by omega) (fun _ => by omega)
  rw [e1] at this
  exact this

/-- C4, as stated, fails: with the words `aaaaa` and `bbbbb` and `M = 6`
the optimizer puts one word per line (`next_break[0] = 1 < 2`) and the
non-final line emitted for word 0 is the five bytes of the word, not six. -/
theorem non_final_line_not_padded :
    ∃ cost nb', justify_paragraph ⟨[⟨0, 5⟩, ⟨6, 5⟩]⟩ 6 (fun _ => 0) = .ok (cost, nb') ∧
      nb' 0 = 1 ∧
      (write_line [97, 97, 97, 97, 97, 32, 98, 98, 98, 98, 98] [] ⟨[⟨0, 5⟩, ⟨6, 5⟩]⟩ 6 0 1).length
        = 5 ∧
      write_paragraph [97, 97, 97, 97, 97, 32, 98, 98, 98, 98, 98] [] ⟨[⟨0, 5⟩, ⟨6, 5⟩]⟩ 6 nb'
        = .ok [97, 97, 97, 97, 97, 10, 98, 98, 98, 98, 98] :=
  ⟨_, _, rfl, by decide, by decide, rfl⟩

/-- C4 (amended): for a paragraph and width accepted by the optimizer, every
non-final line of the computed table (a line starting at `i` with
`next_break[i] < n`) that holds at least two words is rendered by
`write_paragraph` with exactly `M` bytes, word bytes and spaces together;
a non-final line of a single word is rendered as the bytes of that word
alone. -/
theorem non_final_line_length (data out : List Nat) (p : Paragraph) (M : Int) (nb : Nat → Int)
    (hn1 : 1 ≤ p.word_count) (hn : p.word_count < 1000000) (hM1 : 1 ≤ M) (hM : M ≤ 10000)
    (hw : ∀ w ∈ p.words, 1 ≤ w.len ∧ w.len ≤ M) :
    ∃ cost nb', justify_paragraph p M nb = .ok (cost, nb') ∧
      ∀ i, i < p.word_count → nb' i < (p.word_count : Int) →
        (i + 2 ≤ (nb' i).toNat →
          (((write_line data out p M i (nb' i).toNat).length : Nat) : Int)
            = (out.length : Int) + M) ∧
        ((nb' i).toNat = i + 1 →
          write_line data out p M i (nb' i).toNat = out ++ word_bytes data (word_at p.words i)) := by
  have H := inRange_of_fits hn1 hn hM1 hM hw
  have hfit : ∀ w ∈ p.words, w.len ≤ M := fun w h => (hw w h).2
  have hs := justify_tables_solved H nb
  have hall := solved_all_valid hfit hs
  refine ⟨_, _, justify_paragraph_of_valid nb hn1 (hall p.word_count 0 (by omega)), ?_⟩
  intro i hi hlt
  rcases (hs.rows i (Nat.zero_le _) hi).2 with ⟨a, _⟩ | ⟨_, ks, b, c, d, e, _⟩
  · have := hall (p.word_count - i) i (by omega)
    omega
  have ek : ((justify_tables p M nb).next_break i).toNat = ks + 1 := by omega
  rw [ek, write_line_justified H hfit data out i ks b (by omega) e]
  constructor
  · intro h2
    rw [List.length_append]
    push_cast
    rw [justified_text_length H data i (ks + 1 - i) _ (by omega)
      (by omega) (by omega)]
    have e1 : i + (ks + 1 - i) = ks + 1 := by omega
    rw [e1]
    unfold line_len
    omega
  · intro h1
    have e1 : ks + 1 - i = 1 := by omega
    rw [e1, justified_text_single]

theorem non_final_line_length_witness :
    ∃ cost nb', justify_paragraph ⟨[⟨0, 3⟩, ⟨4, 3⟩, ⟨8, 3⟩]⟩ 8 (fun _ => 0) = .ok (cost, nb') ∧
      ∀ i, i < 3 → nb' i < 3 →
        (i + 2 ≤ (nb' i).toNat →
          (((write_line [97, 97, 97, 32, 98, 98, 98, 32, 99, 99, 99] []
              ⟨[⟨0, 3⟩, ⟨4, 3⟩, ⟨8, 3⟩]⟩ 8 i (nb' i).toNat).length : Nat) : Int)
            = (([] : List Nat).length : Int) + 8) ∧
        ((nb' i).toNat = i + 1 →
          write_line [97, 97, 97, 32, 98, 98, 98, 32, 99, 99, 99] []
              ⟨[⟨0, 3⟩, ⟨4, 3⟩, ⟨8, 3⟩]⟩ 8 i (nb' i).toNat
            = [] ++ word_bytes [97, 97, 97, 32, 98, 98, 98, 32, 99, 99, 99]
                (word_at [⟨0, 3⟩, ⟨4, 3⟩, ⟨8, 3⟩] i)) :=
  non_final_line_length [97, 97, 97, 32, 98, 98, 98, 32, 99, 99, 99] []
    ⟨[⟨0, 3⟩, ⟨4, 3⟩, ⟨8, 3⟩]⟩ 8 (fun _ => 0)
    (by decide) (by decide) (by decide) (by decide) (by decide)

/-- C5: for a line of `w ≥ 1` words and a slack `total_spaces ≥ 0` that
fits the C `int` in which the width of a gap is computed
(`total_spaces ≤ 2147483646`, needed only when `w ≥ 2`; the one caller,
`write_paragraph`, passes `M` minus the length of the line, at most 9999),
`write_justified_line` appends the words in order; a single word is
written with no space at all; with `w ≥ 2` and `g = w - 1` gaps, the
`j`-th gap from the left holds `1 + total_spaces / g` spaces plus one more
exactly when `j < total_spaces mod g`, so that the gap widths never
increase from left to right, differ by at most one and sum to
`total_spaces + g`. -/
theorem write_justified_line_distribution (data out : List Nat) (words : List Word)
    (start w : Nat) (total_spaces : Int) (hw : 1 ≤ w) (h0 : 0 ≤ total_spaces)
    (h1 : 2 ≤ w → total_spaces ≤ 2147483646) :
    write_justified_line data out words start (start + w) total_spaces
      = out ++ justified_text data words start w total_spaces ∧
    (w = 1 →
      justified_text data words start w total_spaces = word_bytes data (word_at words start)) ∧
    (2 ≤ w →
      (∀ j j', j ≤ j' → j' < w - 1 →
        gap_width total_spaces (w - 1) j' ≤ gap_width total_spaces (w - 1) j ∧
        gap_width total_spaces (w - 1) j ≤ gap_width total_spaces (w - 1) j' + 1) ∧
      ((List.range (w - 1)).map (gap_width total_spaces (w - 1))).sum
        = total_spaces + ((w - 1 : Nat) : Int)) := by
  refine ⟨write_justified_line_eq data out words start w total_spaces hw h0 h1, ?_, ?_⟩
  · rintro rfl
    exact justified_text_single data words start total_spaces
  · intro h2
    exact ⟨fun j j' hjj _ => gap_width_antitone total_spaces (w - 1) j j' hjj,
      gap_width_sum total_spaces (w - 1) (by omega)⟩

theorem write_justified_line_distribution_witness :
    write_justified_line [97, 98, 99] [] [⟨0, 1⟩, ⟨1, 1⟩, ⟨2, 1⟩] 0 (0 + 3) 5
      = [] ++ justified_text [97, 98, 99] [⟨0, 1⟩, ⟨1, 1⟩, ⟨2, 1⟩] 0 3 5 ∧
    (3 = 1 →
      justified_text [97, 98, 99] [⟨0, 1⟩, ⟨1, 1⟩, ⟨2, 1⟩] 0 3 5
        = word_bytes [97, 98, 99] (word_at [⟨0, 1⟩, ⟨1, 1⟩, ⟨2, 1⟩] 0)) ∧
    (2 ≤ 3 →
      (∀ j j', j ≤ j' → j' < 3 - 1 →
        gap_width 5 (3 - 1) j' ≤ gap_width 5 (3 - 1) j ∧
        gap_width 5 (3 - 1) j ≤ gap_width 5 (3 - 1) j' + 1) ∧
      ((List.range (3 - 1)).map (gap_width 5 (3 - 1))).sum = 5 + ((3 - 1 : Nat) : Int)) :=
  write_justified_line_distribution [97, 98, 99] [] [⟨0, 1⟩, ⟨1, 1⟩, ⟨2, 1⟩] 0 3 5
    (by decide) (by decide) (by decide)

theorem intercalate_cons_cons (sep x y : List Nat) (zs : List (List Nat)) :
    List.intercalate sep (x :: y :: zs) = x ++ sep ++ List.intercalate sep (y :: zs) := by
  simp [List.intercalate]

theorem last_line_loop_eq (data : List Nat) (words : List Word) :
    ∀ cnt j out, j + cnt = words.length →
      last_line_loop data words words.length cnt j out =
        out ++ List.intercalate [32] ((words.drop j).map (word_bytes data))
  | 0, j, out, h => by
    have : words.drop j = [] := List.drop_eq_nil_iff.2 (by omega)
    simp [last_line_loop, this, List.intercalate]
  | cnt + 1, j, out, h => by
    have hj : j < words.length := by omega
    rw [last_line_loop, last_line_loop_eq data words cnt (j + 1) _ (by omega),
      List.drop_eq_getElem_cons hj]
    have hw : word_at words j = words[j] := by
      unfold word_at
      exact List.getD_eq_getElem _ _ hj
    rw [hw]
    by_cases c : j + 1 < words.length
    · have c' : (j : Int) < (words.length : Int) - 1 := by omega
      rw [if_pos c', List.drop_eq_getElem_cons c]
      simp only [List.map_cons]
      rw [intercalate_cons_cons]
      simp [List.append_assoc]
    · have c' : ¬ ((j : Int) < (words.length : Int) - 1) := by omega
      have hnil : words.drop (j + 1) = [] := List.drop_eq_nil_iff.2 (by omega)
      rw [if_neg c', hnil]
      simp [List.intercalate]

theorem write_paragraph_loop_done (data : List Nat) (p : Paragraph) (M : Int) (nb : Nat → Int)
    (fuel i : Nat) (out : List Nat) (h : p.word_count ≤ i) :
    write_paragraph_loop data p M nb fuel i out = .ok out := by
  cases fuel with
  | zero => rfl
  | succ f => rw [write_paragraph_loop, if_neg (by omega)]

/-- C7: whatever the paragraph, the breakpoint table and the width, when
the walk of `write_paragraph` is at a word `i` with `next_break[i] = n`, it
appends the words `i..n-1` joined by exactly one space each and stops:
nothing comes before the first word or after the last one, in particular
no line break.  For the words `a`, `bb`, `ccc` and `M = 10` the cost is 0
and the whole output is `a bb ccc`. -/
theorem last_line_single_spaces (data out : List Nat) (p : Paragraph) (M : Int)
    (nb : Nat → Int) (fuel i : Nat) (hi : i < p.word_count)
    (hnb : nb i = (p.word_count : Int)) :
    write_paragraph_loop data p M nb (fuel + 1) i out =
      .ok (out ++ List.intercalate [32] ((p.words.drop i).map (word_bytes data))) ∧
    ∃ nb', justify_paragraph ⟨[⟨0, 1⟩, ⟨2, 2⟩, ⟨5, 3⟩]⟩ 10 (fun _ => 0) = .ok (0, nb') ∧
      write_paragraph [97, 32, 98, 98, 32, 99, 99, 99] [] ⟨[⟨0, 1⟩, ⟨2, 2⟩, ⟨5, 3⟩]⟩ 10 nb'
        = .ok [97, 32, 98, 98, 32, 99, 99, 99] := by
  refine ⟨?_, _, rfl, rfl⟩
  rw [write_paragraph_loop, if_pos hi]
  have e1 : ¬ (nb i ≤ (i : Int)) := by omega
  have e2 : ¬ (nb i < (p.word_count : Int)) := by omega
  have e3 : (nb i).toNat = p.word_count := by omega
  simp only [if_neg e1, if_neg e2, e3]
  rw [write_paragraph_loop_done data p M nb fuel _ _ (le_refl _)]
  unfold write_line
  rw [if_pos rfl]
  unfold Paragraph.word_count
  rw [last_line_loop_eq data p.words (p.words.length - i) i out
    (by unfold Paragraph.word_count at hi; omega)]

theorem last_line_single_spaces_witness :
    write_paragraph_loop [97, 32, 98, 98, 32, 99, 99, 99] ⟨[⟨0, 1⟩, ⟨2, 2⟩, ⟨5, 3⟩]⟩ 4
        (fun _ => 3) (0 + 1) 1 [97, 10] =
      .ok ([97, 10] ++ List.intercalate [32]
        ((List.drop 1 [(⟨0, 1⟩ : Word), ⟨2, 2⟩, ⟨5, 3⟩]).map
          (word_bytes [97, 32, 98, 98, 32, 99, 99, 99]))) ∧
    ∃ nb', justify_paragraph ⟨[⟨0, 1⟩, ⟨2, 2⟩, ⟨5, 3⟩]⟩ 10 (fun _ => 0) = .ok (0, nb') ∧
      write_paragraph [97, 32, 98, 98, 32, 99, 99, 99] [] ⟨[⟨0, 1⟩, ⟨2, 2⟩, ⟨5, 3⟩]⟩ 10 nb'
        = .ok [97, 32, 98, 98, 32, 99, 99, 99] :=
  last_line_single_spaces [97, 32, 98, 98, 32, 99, 99, 99] [97, 10]
    ⟨[⟨0, 1⟩, ⟨2, 2⟩, ⟨5, 3⟩]⟩ 4 (fun _ => 3) 0 1 (by decide) (by decide)

/-! ## The tokenizer -/

theorem separator_not_printable (c : Nat) (h : is_separator c = true) : is_printable c = false := by
  unfold is_separator at h
  unfold is_printable
  simp only [Bool.or_eq_true, beq_iff_eq] at h
  rcases h with ((rfl | rfl) | rfl) | rfl <;> decide

theorem printable_range (c : Nat) (h : is_printable c = true) :
    (33 ≤ c ∧ c ≤ 126) ∨ 160 ≤ c := by
  unfold is_printable at h
  simp only [Bool.or_eq_true, Bool.and_eq_true, decide_eq_true_eq] at h
  exact h

theorem word_loop_spec (data : List Nat) :
    ∀ fuel i len i' len', data.length - i ≤ fuel → i ≤ data.length →
      word_loop data fuel i len = .ok (i', len') →
      i ≤ i' ∧ i' ≤ data.length ∧ len' = len + ((i' : Int) - (i : Int)) ∧
      (∀ j, i ≤ j → j < i' → is_printable (byte_at data j) = true) ∧
      (i' = data.length ∨ is_printable (byte_at data i') = false) ∧
      (len ≤ MAX_WORD_LEN → len' ≤ MAX_WORD_LEN)
  | 0, i, len, i', len', hf, hi, h => by
    rw [word_loop] at h
    injection h with h
    injection h with h1 h2
    subst h1 h2
    exact ⟨le_refl _, hi, by omega, fun j a b => by omega, Or.inl (by omega), fun x => x⟩
  | fuel + 1, i, len, i', len', hf, hi, h => by
    rw [word_loop] at h
    by_cases c : i < data.length ∧ is_printable (byte_at data i) = true
    · rw [if_pos c] at h
      by_cases c2 : len + 1 > MAX_WORD_LEN
      · rw [if_pos c2] at h
        cases h
      · rw [if_neg c2] at h
        obtain ⟨a, b, e, f, g, k⟩ := word_loop_spec data fuel (i + 1) (len + 1) i' len'
          (by omega) (by omega) h
        refine ⟨by omega, b, by push_cast at e; omega, fun j h1 h2 => ?_, g,
          fun _ => k (by omega)⟩
        by_cases ej : j = i
        · subst ej; exact c.2
        · exact f j (by omega) h2
    · rw [if_neg c] at h
      injection h with h
      injection h with h1 h2
      subst h1 h2
      refine ⟨le_refl _, hi, by omega, fun j a b => by omega, ?_, fun x => x⟩
      by_cases c3 : i < data.length
      · right
        by_contra hp
        exact c ⟨c3, by simpa using hp⟩
      · left; omega

theorem scanned_skip_byte {data : List Nat} {i : Nat} {ws : List Word} (h : Scanned data i ws)
    (hi : i < data.length) (hp : is_printable (byte_at data i) = false) :
    Scanned data (i + 1) ws := by
  refine ⟨by omega, Or.inr (Or.inl (by simpa using hp)), fun w hw => ?_, h.sorted,
    fun j hj hpj => ?_⟩
  · obtain ⟨a, b, c⟩ := h.runs w hw
    exact ⟨a, b, by push_cast; omega⟩
  · by_cases e : j = i
    · subst e
      rw [hp] at hpj
      cases hpj
    · exact h.covered j (by omega) hpj

theorem scanned_word {data : List Nat} {i i' : Nat} {len : Int} {ws : List Word}
    (h : Scanned data i ws) (hi : i < data.length)
    (hp : is_printable (byte_at data i) = true)
    (hw : word_loop data (data.length - i) i 0 = .ok (i', len)) :
    Scanned data i' (ws ++ [Word.mk i len]) ∧ i < i' := by
  obtain ⟨a, b, c, d, e, f⟩ := word_loop_spec data _ i 0 i' len (le_refl _) (le_of_lt hi) hw
  have hlt : i < i' := by
    by_contra hc
    have : i' = i := by omega
    subst this
    rcases e with e | e
    · omega
    · rw [hp] at e; cases e
  have hlen : len = (i' : Int) - (i : Int) := by omega
  have hl256 : len ≤ MAX_WORD_LEN := f (by unfold MAX_WORD_LEN; omega)
  have hrun : IsMaximalRun data (Word.mk i len) := by
    refine ⟨by simp only; omega, by simp only; omega, fun j h1 h2 => ?_, ?_, ?_⟩
    · simp only at h1 h2
      exact d j h1 (by omega)
    · simp only
      rcases h.boundary with h0 | h0 | h0 | h0
      · exact Or.inl h0
      · exact Or.inr h0
      · omega
      · rw [hp] at h0; cases h0
    · simp only
      have e2 : i + len.toNat = i' := by omega
      rw [e2]
      rcases e with e | e
      · left; omega
      · right; exact e
  refine ⟨⟨b, ?_, fun w hw' => ?_, ?_, fun j hj hpj => ?_⟩, hlt⟩
  · rcases e with e | e
    · exact Or.inr (Or.inr (Or.inl e))
    · exact Or.inr (Or.inr (Or.inr e))
  · rcases List.mem_append.1 hw' with hw' | hw'
    · obtain ⟨x, y, z⟩ := h.runs w hw'
      exact ⟨x, y, by omega⟩
    · rw [List.mem_singleton] at hw'
      subst hw'
      exact ⟨hrun, hl256, by simp only; omega⟩
  · rw [List.pairwise_append]
    refine ⟨h.sorted, List.pairwise_singleton _ _, fun x hx y hy => ?_⟩
    rw [List.mem_singleton] at hy
    subst hy
    exact (h.runs x hx).2.2
  · by_cases c2 : j < i
    · obtain ⟨w, hw1, hw2⟩ := h.covered j c2 hpj
      exact ⟨w, List.mem_append_left _ hw1, hw2⟩
    · exact ⟨Word.mk i len, List.mem_append_right _ (List.mem_singleton.2 rfl),
        by simp only; omega, by simp only; omega⟩

theorem skip_separators_spec {data : List Nat} {ws : List Word} :
    ∀ fuel i, Scanned data i ws →
      Scanned data (skip_separators data fuel i) ws ∧ i ≤ skip_separators data fuel i ∧
      (data.length - i ≤ fuel → skip_separators data fuel i < data.length →
        is_separator (byte_at data (skip_separators data fuel i)) = false)
  | 0, i, h => by
    rw [skip_separators]
    exact ⟨h, le_refl _, fun h1 h2 => by omega⟩
  | fuel + 1, i, h => by
    rw [skip_separators]
    by_cases c : i < data.length ∧ is_separator (byte_at data i) = true
    · rw [if_pos c]
      obtain ⟨a, b, d⟩ := skip_separators_spec fuel (i + 1)
        (scanned_skip_byte h c.1 (separator_not_printable _ c.2))
      exact ⟨a, by omega, fun h1 h2 => d (by omega) h2⟩
    · rw [if_neg c]
      refine ⟨h, le_refl _, fun _ h2 => ?_⟩
      by_contra hs
      exact c ⟨h2, by simpa using hs⟩

theorem paragraph_loop_spec {data : List Nat} (pre : List Word) :
    ∀ fuel i ws i' ws', data.length - i ≤ fuel → Scanned data i (pre ++ ws) →
      paragraph_loop data fuel i ws = .ok (i', ws') →
      Scanned data i' (pre ++ ws') ∧ i ≤ i' ∧ (i < data.length → i < i')
  | 0, i, ws, i', ws', hf, h, hr => by
    rw [paragraph_loop] at hr
    injection hr with hr
    injection hr with h1 h2
    subst h1 h2
    have := h.le
    exact ⟨h, le_refl _, fun hc => by omega⟩
  | fuel + 1, i, ws, i', ws', hf, h, hr => by
    rw [paragraph_loop] at hr
    by_cases c0 : i < data.length
    swap
    · rw [if_neg c0] at hr
      injection hr with hr
      injection hr with h1 h2
      subst h1 h2
      exact ⟨h, le_refl _, fun hc => absurd hc c0⟩
    rw [if_pos c0] at hr
    by_cases c1 : i + 1 < data.length ∧ byte_at data i = 10 ∧ byte_at data (i + 1) = 10
    · rw [if_pos c1] at hr
      injection hr with hr
      injection hr with h1 h2
      subst h1 h2
      have s1 := scanned_skip_byte h c0 (by rw [c1.2.1]; decide)
      have s2 := scanned_skip_byte s1 c1.1 (by rw [c1.2.2]; decide)
      exact ⟨s2, by omega, fun _ => by omega⟩
    rw [if_neg c1] at hr
    by_cases c2 : is_separator (byte_at data i) = true
    · rw [if_pos c2] at hr
      obtain ⟨a, b, _⟩ := paragraph_loop_spec pre fuel (i + 1) ws i' ws' (by omega)
        (scanned_skip_byte h c0 (separator_not_printable _ c2)) hr
      exact ⟨a, by omega, fun _ => by omega⟩
    rw [if_neg c2] at hr
    by_cases c3 : is_printable (byte_at data i) = true
    · rw [if_pos c3] at hr
      cases hw : word_loop data (data.length - i) i 0 with
      | error e =>
        rw [hw] at hr
        cases hr
      | ok r =>
        obtain ⟨i2, len⟩ := r
        rw [hw] at hr
        simp only at hr
        by_cases c4 : (ws ++ [Word.mk i len]).length ≥ MAX_WORDS
        · rw [if_pos c4] at hr
          cases hr
        · rw [if_neg c4] at hr
          obtain ⟨s, hlt⟩ := scanned_word h c0 c3 hw
          rw [List.append_assoc] at s
          obtain ⟨a, b, _⟩ := paragraph_loop_spec pre fuel i2 (ws ++ [Word.mk i len]) i' ws'
            (by omega) s hr
          exact ⟨a, by omega, fun _ => by omega⟩
    · rw [if_neg c3] at hr
      obtain ⟨a, b, _⟩ := paragraph_loop_spec pre fuel (i + 1) ws i' ws' (by omega)
        (scanned_skip_byte h c0 (by simpa using c3)) hr
      exact ⟨a, by omega, fun _ => by omega⟩

theorem all_words_append (ps : List Paragraph) (ws : List Word) :
    all_words (ps ++ [⟨ws⟩]) = all_words ps ++ ws := by
  simp [all_words]

theorem extract_loop_spec {data : List Nat} :
    ∀ fuel i ps ps', data.length - i ≤ fuel → Scanned data i (all_words ps) →
      extract_loop data fuel i ps = .ok ps' → Scanned data data.length (all_words ps')
  | 0, i, ps, ps', hf, h, hr => by
    rw [extract_loop] at hr
    injection hr with hr
    subst hr
    have := h.le
    have e : i = data.length := by omega
    rw [← e]
    exact h
  | fuel + 1, i, ps, ps', hf, h, hr => by
    rw [extract_loop] at hr
    have hle := h.le
    by_cases c0 : i < data.length
    swap
    · rw [if_neg c0] at hr
      injection hr with hr
      subst hr
      have e : i = data.length := by omega
      rw [← e]
      exact h
    rw [if_pos c0] at hr
    obtain ⟨s1, hge, _⟩ := skip_separators_spec (data.length - i) i h
    simp only at hr
    by_cases c1 : skip_separators data (data.length - i) i ≥ data.length
    · rw [if_pos c1] at hr
      injection hr with hr
      subst hr
      have := s1.le
      have e : skip_separators data (data.length - i) i = data.length := by omega
      rw [← e]
      exact s1
    rw [if_neg c1] at hr
    cases hp : paragraph_loop data (data.length - skip_separators data (data.length - i) i)
        (skip_separators data (data.length - i) i) [] with
    | error e =>
      rw [hp] at hr
      cases hr
    | ok r =>
      obtain ⟨i2, ws⟩ := r
      rw [hp] at hr
      simp only at hr
      have s1' : Scanned data (skip_separators data (data.length - i) i) (all_words ps ++ []) := by
        rw [List.append_nil]; exact s1
      obtain ⟨s2, _, hlt⟩ := paragraph_loop_spec (all_words ps) _ _ [] i2 ws (le_refl _) s1' hp
      have hlt' := hlt (by omega)
      by_cases c2 : (if ws.length > 0 then ps ++ [Paragraph.mk ws] else ps).length ≥ 1000
      · rw [if_pos c2] at hr
        cases hr
      · rw [if_neg c2] at hr
        refine extract_loop_spec fuel i2 _ ps' (by omega) ?_ hr
        by_cases c3 : ws.length > 0
        · rw [if_pos c3, all_words_append]
          exact s2
        · rw [if_neg c3]
          have : ws = [] := List.length_eq_zero.1 (by omega)
          rw [this, List.append_nil] at s2
          exact s2

theorem scanned_start (data : List Nat) : Scanned data 0 (all_words []) :=
  ⟨Nat.zero_le _, Or.inl rfl, fun w hw => by simp [all_words] at hw,
    by simp [all_words], fun j hj => by omega⟩

/-- Two maximal runs that share a byte are the same span. -/
theorem maximal_run_unique {data : List Nat} {w r : Word} (hw : IsMaximalRun data w)
    (hr : IsMaximalRun data r) (h1 : w.start ≤ r.start)
    (h2 : (r.start : Int) < (w.start : Int) + w.len) : w = r := by
  obtain ⟨w1, w2, w3, w4, w5⟩ := hw
  obtain ⟨r1, r2, r3, r4, r5⟩ := hr
  have hs : w.start = r.start := by
    by_contra hne
    rcases r4 with r4 | r4
    · omega
    · have := w3 (r.start - 1) (by omega) (by omega)
      rw [this] at r4
      cases r4
  have hl : w.len = r.len := by
    rcases lt_trichotomy w.len r.len with hlt | heq | hgt
    · rcases w5 with w5 | w5
      · omega
      · have := r3 (w.start + w.len.toNat) (by omega) (by omega)
        rw [this] at w5
        cases w5
    · exact heq
    · rcases r5 with r5 | r5
      · omega
      · have := w3 (r.start + r.len.toNat) (by omega) (by omega)
        rw [this] at r5
        cases r5
  cases w
  cases r
  simp only at hs hl
  subst hs hl
  rfl

/-- C10: when `extract_paragraphs` succeeds on a buffer, the words it
returns, taken in order across the paragraphs, are exactly the maximal runs
of printable bytes (bytes in 33..126 or at least 0xA0) of the buffer, each
span covering its whole run, listed in buffer order without overlap;
consequently every word has a length between 1 and `MAX_WORD_LEN = 256` and
holds neither a separator nor a control byte. -/
theorem extract_paragraphs_words_are_maximal_runs (data : List Nat)
    (paragraphs : List Paragraph) (h : extract_paragraphs data = .ok paragraphs) :
    (∀ w, w ∈ all_words paragraphs ↔ IsMaximalRun data w) ∧
    (all_words paragraphs).Pairwise (fun a b => (a.start : Int) + a.len ≤ (b.start : Int)) ∧
    (∀ w ∈ all_words paragraphs, 1 ≤ w.len ∧ w.len ≤ 256 ∧
      ∀ j : Nat, w.start ≤ j → (j : Int) < (w.start : Int) + w.len →
        is_separator (byte_at data j) = false ∧
        ((33 ≤ byte_at data j ∧ byte_at data j ≤ 126) ∨ 160 ≤ byte_at data j)) := by
  have hs := extract_loop_spec data.length 0 [] paragraphs (by omega) (scanned_start data) h
  refine ⟨fun w => ⟨fun hw => (hs.runs w hw).1, fun hr => ?_⟩, hs.sorted, fun w hw => ?_⟩
  · obtain ⟨r1, r2, r3, _, _⟩ := hr
    have hp := r3 w.start (le_refl _) (by omega)
    obtain ⟨v, hv, hv1, hv2⟩ := hs.covered w.start (by omega) hp
    have := maximal_run_unique (hs.runs v hv).1 ⟨r1, r2, r3, ‹_›, ‹_›⟩ hv1 hv2
    rw [← this]
    exact hv
  · obtain ⟨⟨r1, r2, r3, _, _⟩, hlen, _⟩ := hs.runs w hw
    refine ⟨r1, hlen, fun j h1 h2 => ?_⟩
    have hp := r3 j h1 h2
    refine ⟨?_, printable_range _ hp⟩
    by_contra hsep
    have := separator_not_printable _ (by simpa using hsep)
    rw [hp] at this
    cases this

theorem extract_paragraphs_words_are_maximal_runs_witness :
    (∀ w, w ∈ all_words [⟨[⟨0, 2⟩, ⟨3, 1⟩]⟩, ⟨[⟨6, 1⟩]⟩] ↔
      IsMaximalRun [97, 98, 32, 99, 10, 10, 100] w) ∧
    (all_words [⟨[⟨0, 2⟩, ⟨3, 1⟩]⟩, ⟨[⟨6, 1⟩]⟩]).Pairwise
      (fun a b => (a.start : Int) + a.len ≤ (b.start : Int)) ∧
    (∀ w ∈ all_words [⟨[⟨0, 2⟩, ⟨3, 1⟩]⟩, ⟨[⟨6, 1⟩]⟩], 1 ≤ w.len ∧ w.len ≤ 256 ∧
      ∀ j : Nat, w.start ≤ j → (j : Int) < (w.start : Int) + w.len →
        is_separator (byte_at [97, 98, 32, 99, 10, 10, 100] j) = false ∧
        ((33 ≤ byte_at [97, 98, 32, 99, 10, 10, 100] j ∧
            byte_at [97, 98, 32, 99, 10, 10, 100] j ≤ 126) ∨
          160 ≤ byte_at [97, 98, 32, 99, 10, 10, 100] j)) :=
  extract_paragraphs_words_are_maximal_runs [97, 98, 32, 99, 10, 10, 100]
    [⟨[⟨0, 2⟩, ⟨3, 1⟩]⟩, ⟨[⟨6, 1⟩]⟩] rfl

/-! ## The driver loop -/

theorem check_widths_ok (M : Int) :
    ∀ ws : List Word, (∀ w ∈ ws, w.len ≤ M) → check_widths M ws = .ok ()
  | [], _ => rfl
  | w :: ws, h => by
    rw [check_widths, if_neg (by have := h w (List.mem_cons_self _ _); omega)]
    exact check_widths_ok M ws (fun x hx => h x (List.mem_cons_of_mem _ hx))

theorem check_widths_error (M : Int) :
    ∀ ws : List Word, (∃ w ∈ ws, M < w.len) →
      check_widths M ws = .error (Fatal.word_wider_than_target M)
  | [], h => by
    obtain ⟨w, hw, _⟩ := h
    simp at hw
  | w :: ws, h => by
    rw [check_widths]
    by_cases c : w.len > M
    · rw [if_pos c]
    · rw [if_neg c]
      apply check_widths_error M ws
      obtain ⟨x, hx, hlt⟩ := h
      rcases List.mem_cons.1 hx with rfl | hx
      · omega
      · exact ⟨x, hx, hlt⟩

/-- On a solved table whose rows are all valid the walk of
`write_paragraph` never meets `next_break[i] ≤ i`. -/
theorem write_paragraph_loop_ok {p : Paragraph} {M : Int} {nb0 : Nat → Int} {t : Tables}
    (hs : Solved p M nb0 0 t) (hall : ∀ j, j ≤ p.word_count → t.valid j = 1)
    (data : List Nat) :
    ∀ fuel i out, ∃ out', write_paragraph_loop data p M t.next_break fuel i out = .ok out'
  | 0, i, out => ⟨out, rfl⟩
  | fuel + 1, i, out => by
    rw [write_paragraph_loop]
    by_cases c : i < p.word_count
    · rw [if_pos c]
      rcases (hs.rows i (Nat.zero_le _) c).2 with ⟨a, _⟩ | ⟨_, ks, b, _, d, _⟩
      · have := hall i (by omega)
        omega
      · rw [if_neg (by omega)]
        exact write_paragraph_loop_ok hs hall data fuel _ _
    · rw [if_neg c]
      exact ⟨out, rfl⟩

/-- C9, as stated, fails: on the document `a`, blank line, `bbb` with
`M = 2` the run ends with the error on the word `bbb`, but only after the
optimizer has been run on the first paragraph and the bytes `a\n\n` have
been written to the output. -/
theorem wide_word_after_partial_output :
    (main_run [97, 10, 10, 98, 98, 98] 2 (fun _ => 0)).2
      = some (Fatal.word_wider_than_target 2) ∧
    (main_run [97, 10, 10, 98, 98, 98] 2 (fun _ => 0)).1.optimized = 1 ∧
    (main_run [97, 10, 10, 98, 98, 98] 2 (fun _ => 0)).1.out = [97, 10, 10] :=
  ⟨by decide, by decide, by decide⟩

/-- C9 (amended): the width check is made paragraph by paragraph.  When
the paragraphs `pre` have no word longer than `M` and the next paragraph
`q` has one, the run ends with the "word too long for the target width"
error in the state reached after treating `pre` alone: the optimizer has
been run on exactly the paragraphs of `pre` (not on `q` nor on any later
paragraph) and the output holds what was written for them; when `pre` is
empty the optimizer has not been run and nothing has been written. -/
theorem wide_word_stops_run (data : List Nat) (M : Int) (para_count : Nat)
    (pre : List Paragraph) (q : Paragraph) (post : List Paragraph) (p_idx : Nat) (r : Run)
    (hM1 : 1 ≤ M) (hM : M ≤ 10000)
    (hpre : ∀ p ∈ pre, 1 ≤ p.word_count ∧ p.word_count < 1000000 ∧
      ∀ w ∈ p.words, 1 ≤ w.len ∧ w.len ≤ M)
    (hq : ∃ w ∈ q.words, M < w.len) :
    ∃ r', main_loop data M para_count pre p_idx r = (r', none) ∧
      main_loop data M para_count (pre ++ q :: post) p_idx r
        = (r', some (Fatal.word_wider_than_target M)) ∧
      r'.optimized = r.optimized + pre.length ∧
      (pre = [] → r' = r) := by
  induction pre generalizing p_idx r with
  | nil =>
    refine ⟨r, rfl, ?_, rfl, fun _ => rfl⟩
    rw [List.nil_append, main_loop, check_widths_error M q.words hq]
  | cons p pre ih =>
    obtain ⟨hn1, hn, hw⟩ := hpre p (List.mem_cons_self _ _)
    have H := inRange_of_fits hn1 hn hM1 hM hw
    have hfit : ∀ w ∈ p.words, w.len ≤ M := fun w h => (hw w h).2
    have hs := justify_tables_solved H r.next_break
    have hall := solved_all_valid hfit hs
    have hj := justify_paragraph_of_valid r.next_break hn1 (hall p.word_count 0 (by omega))
    obtain ⟨out', ho⟩ := write_paragraph_loop_ok hs
      (fun j hj => hall (p.word_count - j) j (by omega)) data p.word_count 0 r.out
    obtain ⟨r', h1, h2, h3, _⟩ := ih (p_idx + 1)
      { out := if (p_idx : Int) < (para_count : Int) - 1 then out' ++ [10, 10] else out',
        total_cost := wrap64 (r.total_cost + (justify_tables p M r.next_break).dp 0),
        next_break := (justify_tables p M r.next_break).next_break,
        optimized := r.optimized + 1 }
      (fun x hx => hpre x (List.mem_cons_of_mem _ hx))
    refine ⟨r', ?_, ?_, ?_, fun h => by cases h⟩
    · rw [main_loop, check_widths_ok M p.words hfit, hj]
      simp only [write_paragraph, ho]
      exact h1
    · rw [List.cons_append, main_loop, check_widths_ok M p.words hfit, hj]
      simp only [write_paragraph, ho]
      exact h2
    · rw [h3]
      simp only [List.length_cons]
      omega

theorem wide_word_stops_run_witness :
    ∃ r', main_loop [97, 10, 10, 98, 98, 98] 2 2 [⟨[⟨0, 1⟩]⟩] 0 ⟨[], 0, fun _ => 0, 0⟩
        = (r', none) ∧
      main_loop [97, 10, 10, 98, 98, 98] 2 2 ([⟨[⟨0, 1⟩]⟩] ++ ⟨[⟨3, 3⟩]⟩ :: []) 0
          ⟨[], 0, fun _ => 0, 0⟩
        = (r', some (Fatal.word_wider_than_target 2)) ∧
      r'.optimized = (⟨[], 0, fun _ => 0, 0⟩ : Run).optimized + [(⟨[⟨0, 1⟩]⟩ : Paragraph)].length ∧
      ([(⟨[⟨0, 1⟩]⟩ : Paragraph)] = [] → r' = ⟨[], 0, fun _ => 0, 0⟩) :=
  wide_word_stops_run [97, 10, 10, 98, 98, 98] 2 2 [⟨[⟨0, 1⟩]⟩] ⟨[⟨3, 3⟩]⟩ [] 0
    ⟨[], 0, fun _ => 0, 0⟩ (by decide) (by decide) (by decide) (by decide)

/-! ## The iteration bounds are enough

The loops of the embedding carry a bound on their number of iterations.
The bounds used by `justify_tables` and `write_paragraph` are never
reached before the loop condition fails: a larger bound gives the same
result. -/

theorem inner_loop_fuel (n : Nat) (M : Int) (ps : Nat → Int) (i : Nat) :
    ∀ f1 f2 k t, n - k ≤ f1 → n - k ≤ f2 →
      inner_loop n M ps i f1 k t = inner_loop n M ps i f2 k t
  | 0, 0, _, _, _, _ => rfl
  | 0, f2 + 1, k, t, h1, _ => by
    rw [inner_loop, inner_loop, if_neg (by omega)]
  | f1 + 1, 0, k, t, _, h2 => by
    rw [inner_loop, inner_loop, if_neg (by omega)]
  | f1 + 1, f2 + 1, k, t, h1, h2 => by
    rw [inner_loop, inner_loop]
    by_cases c : k < n
    · rw [if_pos c, if_pos c]
      simp only [inner_loop_fuel n M ps i f1 f2 (k + 1) _ (by omega) (by omega)]
    · rw [if_neg c, if_neg c]

theorem write_paragraph_loop_fuel (data : List Nat) (p : Paragraph) (M : Int) (nb : Nat → Int) :
    ∀ f1 f2 i out, p.word_count - i ≤ f1 → p.word_count - i ≤ f2 →
      write_paragraph_loop data p M nb f1 i out = write_paragraph_loop data p M nb f2 i out
  | 0, 0, _, _, _, _ => rfl
  | 0, f2 + 1, i, out, h1, _ => by
    rw [write_paragraph_loop, write_paragraph_loop, if_neg (by omega)]
  | f1 + 1, 0, i, out, _, h2 => by
    rw [write_paragraph_loop, write_paragraph_loop, if_neg (by omega)]
  | f1 + 1, f2 + 1, i, out, h1, h2 => by
    rw [write_paragraph_loop, write_paragraph_loop]
    by_cases c : i < p.word_count
    · rw [if_pos c, if_pos c]
      by_cases c2 : nb i ≤ (i : Int)
      · rw [if_pos c2, if_pos c2]
      · rw [if_neg c2, if_neg c2]
        exact write_paragraph_loop_fuel data p M nb f1 f2 _ _ (by omega) (by omega)
    · rw [if_neg c, if_neg c]

/-! ## The saturating cube -/

theorem cube_exact_of_small {x : Int} (h1 : -2097151 ≤ x) (h2 : x ≤ 2097151) :
    0 ≤ x * x ∧ x * x ≤ 4398042316801 ∧
    -9223358842721533951 ≤ x * x * x ∧ x * x * x ≤ 9223358842721533951 := by
  have hsq : x * x ≤ 2097151 * 2097151 := by
    rcases le_total 0 x with h0 | h0
    · exact mul_le_mul h2 h2 h0 (by norm_num)
    · have : x * x = (-x) * (-x) := by ring
      rw [this]
      exact mul_le_mul (by omega) (by omega) (by omega) (by norm_num)
  have hsq0 : 0 ≤ x * x := mul_self_nonneg x
  refine ⟨hsq0, by omega, ?_, ?_⟩
  · rcases le_total 0 x with h0 | h0
    · have : 0 ≤ x * x * x := mul_nonneg hsq0 h0
      omega
    · have h3 : x * x * (-x) ≤ (2097151 * 2097151) * 2097151 :=
        mul_le_mul hsq (by omega) (by omega) (by norm_num)
      have : x * x * (-x) = -(x * x * x) := by ring
      omega
  · rcases le_total 0 x with h0 | h0
    · have h3 : x * x * x ≤ (2097151 * 2097151) * 2097151 :=
        mul_le_mul hsq h2 h0 (by norm_num)
      omega
    · have : 0 ≤ x * x * (-x) := mul_nonneg hsq0 (by omega)
      have : x * x * (-x) = -(x * x * x) := by ring
      omega

/-- C16: for every `x`, when `|x| ≤ 2,097,151` the function `cube` returns
exactly `x*x*x`, and then both products `x*x` and `x*x*x` lie within the
signed 64-bit range, so that the 64-bit multiplications do not wrap; for
every other `x` it returns the sentinel `LLONG_MAX`. -/
theorem cube_exact_or_saturated (x : Int) :
    ((-2097151 ≤ x ∧ x ≤ 2097151) →
      cube x = x * x * x ∧
      -9223372036854775808 ≤ x * x ∧ x * x ≤ 9223372036854775807 ∧
      -9223372036854775808 ≤ x * x * x ∧ x * x * x ≤ 9223372036854775807) ∧
    (¬ (-2097151 ≤ x ∧ x ≤ 2097151) → cube x = LLONG_MAX) := by
  constructor
  · rintro ⟨h1, h2⟩
    obtain ⟨a, b, c, d⟩ := cube_exact_of_small h1 h2
    refine ⟨?_, by omega, by omega, by omega, by omega⟩
    unfold cube
    rw [if_neg (by omega), wrap64_of_range (x := x * x) (by omega) (by omega),
      wrap64_of_range (by omega) (by omega)]
  · intro h
    unfold cube
    rw [if_pos (by omega)]

theorem cube_exact_or_saturated_witness :
    ((-2097151 ≤ (-2097151 : Int) ∧ (-2097151 : Int) ≤ 2097151) →
      cube (-2097151) = -2097151 * -2097151 * -2097151 ∧
      -9223372036854775808 ≤ (-2097151 : Int) * -2097151 ∧
      (-2097151 : Int) * -2097151 ≤ 9223372036854775807 ∧
      -9223372036854775808 ≤ (-2097151 : Int) * -2097151 * -2097151 ∧
      (-2097151 : Int) * -2097151 * -2097151 ≤ 9223372036854775807) ∧
    (¬ (-2097151 ≤ (-2097151 : Int) ∧ (-2097151 : Int) ≤ 2097151) →
      cube (-2097151) = LLONG_MAX) :=
  cube_exact_or_saturated (-2097151)

/-! ## Prefix sums and `delta`, for word lengths in the range of `int` -/

theorem len_int_bounds {p : Paragraph}
    (hint : ∀ w ∈ p.words, -2147483648 ≤ w.len ∧ w.len ≤ 2147483647) (i : Nat) :
    -2147483648 ≤ p.len i ∧ p.len i ≤ 2147483647 := by
  unfold Paragraph.len
  by_cases h : i < p.words.length
  · simp only [List.getElem?_eq_getElem h]
    exact hint _ (List.getElem_mem _)
  · have h' : p.words.length ≤ i := by omega
    simp only [List.getElem?_eq_none h']
    omega

theorem len_sum_int_bounds {p : Paragraph}
    (hint : ∀ w ∈ p.words, -2147483648 ≤ w.len ∧ w.len ≤ 2147483647) :
    ∀ k, k ≤ p.word_count →
      -((k : Int) * 2147483648) ≤ len_sum p k ∧ len_sum p k ≤ (k : Int) * 2147483648
  | 0, _ => by simp [len_sum_zero]
  | k + 1, h => by
    have ih := len_sum_int_bounds hint k (by omega)
    have hb := len_int_bounds hint k
    rw [len_sum_succ p k (by omega)]
    push_cast
    omega

theorem prefix_loop_int {p : Paragraph} (hn : p.word_count < 1000000)
    (hint : ∀ w ∈ p.words, -2147483648 ≤ w.len ∧ w.len ≤ 2147483647) :
    ∀ cnt i ps, 1 ≤ i → i + cnt ≤ p.word_count →
      (∀ j, j < i → ps j = len_sum p (j + 1)) →
      ∀ j, j < i + cnt → prefix_loop p cnt i ps j = len_sum p (j + 1)
  | 0, i, ps, _, _, hps, j, hj => by simpa [prefix_loop] using hps j (by omega)
  | cnt + 1, i, ps, hi, hle, hps, j, hj => by
    rw [prefix_loop]
    apply prefix_loop_int hn hint cnt (i + 1) _ (by omega) (by omega) _ j (by omega)
    intro j' hj'
    unfold set_at
    by_cases e : j' = i
    · subst e
      have h1 := hps (j' - 1) (by omega)
      have e1 : j' - 1 + 1 = j' := by omega
      rw [e1] at h1
      have hb := len_int_bounds hint j'
      have hs := len_sum_int_bounds hint j' (by omega)
      rw [if_pos rfl, h1, wrap64_of_range (by omega) (by omega), len_sum_succ p j' (by omega)]
    · rw [if_neg e]
      exact hps j' (by omega)

theorem build_prefix_sum_int {p : Paragraph} (hn : p.word_count < 1000000)
    (hint : ∀ w ∈ p.words, -2147483648 ≤ w.len ∧ w.len ≤ 2147483647) (j : Nat)
    (hj : j < p.word_count) : build_prefix_sum p j = len_sum p (j + 1) := by
  unfold build_prefix_sum
  apply prefix_loop_int hn hint (p.word_count - 1) 1 _ (le_refl _) (by omega) _ j (by omega)
  intro j' hj'
  have : j' = 0 := by omega
  subst this
  simp [set_at, len_sum_succ p 0 (by omega), len_sum_zero]

theorem delta_eq_line_len_int {p : Paragraph} (hn : p.word_count < 1000000)
    (hint : ∀ w ∈ p.words, -2147483648 ≤ w.len ∧ w.len ≤ 2147483647) (i k : Nat)
    (hik : i ≤ k) (hk : k < p.word_count) :
    delta i k (build_prefix_sum p) = line_len p i k := by
  unfold delta line_len
  have hk1 := len_sum_int_bounds hint (k + 1) (by omega)
  have hi1 := len_sum_int_bounds hint i (by omega)
  rw [build_prefix_sum_int hn hint k hk]
  by_cases h0 : i > 0
  · have e1 : i - 1 + 1 = i := by omega
    rw [if_pos h0, build_prefix_sum_int hn hint (i - 1) (by omega), e1,
      wrap64_of_range (x := len_sum p (k + 1) - len_sum p i)
        (by push_cast at *; omega) (by push_cast at *; omega),
      wrap64_of_range (by push_cast at *; omega) (by push_cast at *; omega)]
  · have e0 : i = 0 := by omega
    subst e0
    rw [if_neg h0, len_sum_zero] at *
    rw [wrap64_of_range (x := len_sum p (k + 1) - 0)
        (by push_cast at *; omega) (by push_cast at *; omega),
      wrap64_of_range (by push_cast at *; omega) (by push_cast at *; omega)]

theorem line_len_step (p : Paragraph) (i k : Nat) (hk : k + 1 < p.word_count) :
    line_len p i (k + 1) = line_len p i k + p.len (k + 1) + 1 := by
  unfold line_len
  rw [len_sum_succ p (k + 1) hk]
  push_cast
  omega

theorem line_len_lt_of_pos {p : Paragraph} (hpos : ∀ w ∈ p.words, 1 ≤ w.len) (i k : Nat) :
    ∀ d, k + d + 1 < p.word_count → line_len p i k < line_len p i (k + d + 1)
  | 0, h => by
    rw [line_len_step p i k h]
    have : 1 ≤ p.len (k + 1) := by
      unfold Paragraph.len
      unfold Paragraph.word_count at h
      simp only [List.getElem?_eq_getElem h]
      exact hpos _ (List.getElem_mem _)
    omega
  | d + 1, h => by
    have ih := line_len_lt_of_pos hpos i k d (by omega)
    have e : k + (d + 1) + 1 = (k + d + 1) + 1 := by omega
    rw [e, line_len_step p i (k + d + 1) (by omega)]
    have : 1 ≤ p.len (k + d + 1 + 1) := by
      unfold Paragraph.len
      unfold Paragraph.word_count at h
      have h' : k + d + 1 + 1 < p.words.length := by omega
      simp only [List.getElem?_eq_getElem h']
      exact hpos _ (List.getElem_mem _)
    omega

/-- C17: for the array `prefix_sum` that `justify_paragraph` builds (word
lengths in the range of `int`, fewer than `MAX_WORDS` words) and every
`0 ≤ i ≤ k < n`, `delta(i, k, prefix_sum)` is the sum of the lengths of the
words `i..k` plus `k - i`, the number of gaps between them; when the word
lengths are at least 1 it is strictly increasing in `k` for fixed `i`, so
that once `delta(i, k) > M` every later line end is infeasible as well. -/
theorem delta_is_natural_length (p : Paragraph) (hn : p.word_count < 1000000)
    (hint : ∀ w ∈ p.words, -2147483648 ≤ w.len ∧ w.len ≤ 2147483647) (i k : Nat)
    (hik : i ≤ k) (hk : k < p.word_count) :
    delta i k (build_prefix_sum p) = ((p.lens.drop i).take (k + 1 - i)).sum + ((k : Int) - (i : Int)) ∧
    ((∀ w ∈ p.words, 1 ≤ w.len) →
      (∀ k', k < k' → k' < p.word_count →
        delta i k (build_prefix_sum p) < delta i k' (build_prefix_sum p)) ∧
      (∀ M : Int, delta i k (build_prefix_sum p) > M →
        ∀ k', k ≤ k' → k' < p.word_count → delta i k' (build_prefix_sum p) > M)) := by
  have hstrict : (∀ w ∈ p.words, 1 ≤ w.len) → ∀ k', k < k' → k' < p.word_count →
      delta i k (build_prefix_sum p) < delta i k' (build_prefix_sum p) := by
    intro hpos k' h1 h2
    rw [delta_eq_line_len_int hn hint i k hik hk,
      delta_eq_line_len_int hn hint i k' (by omega) h2]
    have := line_len_lt_of_pos hpos i k (k' - k - 1) (by omega)
    have e : k + (k' - k - 1) + 1 = k' := by omega
    rw [e] at this
    exact this
  refine ⟨?_, fun hpos => ⟨hstrict hpos, fun M hM k' h1 h2 => ?_⟩⟩
  · rw [delta_eq_line_len_int hn hint i k hik hk]
    have h := natural_length_take_drop p i (k + 1 - i) (by omega) (by omega)
    have e : i + (k + 1 - i) - 1 = k := by omega
    rw [e] at h
    rw [← h]
    unfold natural_length
    have hlen : ((p.lens.drop i).take (k + 1 - i)).length = k + 1 - i := by
      rw [List.length_take, List.length_drop, lens_length]; omega
    rw [hlen]
    omega
  · by_cases e : k' = k
    · subst e; exact hM
    · have := hstrict hpos k' (by omega) h2
      omega

theorem delta_is_natural_length_witness :
    delta 1 2 (build_prefix_sum ⟨[⟨0, 3⟩, ⟨4, 5⟩, ⟨10, 2⟩, ⟨13, 4⟩]⟩)
      = ((List.drop 1 (Paragraph.lens ⟨[⟨0, 3⟩, ⟨4, 5⟩, ⟨10, 2⟩, ⟨13, 4⟩]⟩)).take (2 + 1 - 1)).sum
        + (((2 : Nat) : Int) - ((1 : Nat) : Int)) ∧
    ((∀ w ∈ [(⟨0, 3⟩ : Word), ⟨4, 5⟩, ⟨10, 2⟩, ⟨13, 4⟩], 1 ≤ w.len) →
      (∀ k', 2 < k' → k' < 4 →
        delta 1 2 (build_prefix_sum ⟨[⟨0, 3⟩, ⟨4, 5⟩, ⟨10, 2⟩, ⟨13, 4⟩]⟩)
          < delta 1 k' (build_prefix_sum ⟨[⟨0, 3⟩, ⟨4, 5⟩, ⟨10, 2⟩, ⟨13, 4⟩]⟩)) ∧
      (∀ M : Int, delta 1 2 (build_prefix_sum ⟨[⟨0, 3⟩, ⟨4, 5⟩, ⟨10, 2⟩, ⟨13, 4⟩]⟩) > M →
        ∀ k', 2 ≤ k' → k' < 4 →
          delta 1 k' (build_prefix_sum ⟨[⟨0, 3⟩, ⟨4, 5⟩, ⟨10, 2⟩, ⟨13, 4⟩]⟩) > M)) :=
  delta_is_natural_length ⟨[⟨0, 3⟩, ⟨4, 5⟩, ⟨10, 2⟩, ⟨13, 4⟩]⟩ (by decide) (by decide) 1 2
    (by decide) (by decide)

/-! ## The optimizer is a function of the word lengths and the width -/

theorem len_congr {p1 p2 : Paragraph} (hl : p1.lens = p2.lens) : p1.len = p2.len := by
  funext i
  have h1 : ∀ p : Paragraph, p.len i = (p.lens[i]?).getD 0 := by
    intro p
    unfold Paragraph.len Paragraph.lens
    rw [List.getElem?_map]
    cases p.words[i]? <;> rfl
  rw [h1 p1, h1 p2, hl]

theorem word_count_congr {p1 p2 : Paragraph} (hl : p1.lens = p2.lens) :
    p1.word_count = p2.word_count := by
  rw [← lens_length p1, ← lens_length p2, hl]

theorem prefix_loop_congr {p1 p2 : Paragraph} (hl : p1.len = p2.len) :
    ∀ cnt i ps, prefix_loop p1 cnt i ps = prefix_loop p2 cnt i ps
  | 0, _, _ => rfl
  | cnt + 1, i, ps => by
    rw [prefix_loop, prefix_loop, hl]
    exact prefix_loop_congr hl cnt (i + 1) _

theorem build_prefix_sum_congr {p1 p2 : Paragraph} (hl : p1.lens = p2.lens) :
    build_prefix_sum p1 = build_prefix_sum p2 := by
  unfold build_prefix_sum
  rw [word_count_congr hl, len_congr hl]
  exact prefix_loop_congr (len_congr hl) _ _ _

theorem inner_loop_same (n : Nat) (M : Int) (ps : Nat → Int) (i : Nat) :
    ∀ fuel k t1 t2, SameTables n t1 t2 →
      SameTables n (inner_loop n M ps i fuel k t1) (inner_loop n M ps i fuel k t2)
  | 0, _, _, _, h => h
  | fuel + 1, k, t1, t2, h => by
    obtain ⟨h1, h2, h3⟩ := h
    rw [inner_loop, inner_loop, ← h1, ← h2]
    by_cases c0 : k < n
    swap
    · rw [if_neg c0, if_neg c0]; exact ⟨h1, h2, h3⟩
    rw [if_pos c0, if_pos c0]
    have hupd : ∀ v : Int, SameTables n
        { dp := set_at t1.dp i v, valid := set_at t1.valid i 1,
          next_break := set_at t1.next_break i ((k : Int) + 1) }
        { dp := set_at t1.dp i v, valid := set_at t1.valid i 1,
          next_break := set_at t2.next_break i ((k : Int) + 1) } := by
      intro v
      refine ⟨rfl, rfl, fun j hj => ?_⟩
      simp only [set_at]
      split
      · rfl
      · exact h3 j hj
    simp only
    split_ifs <;>
      first
        | exact ⟨h1, h2, h3⟩
        | exact inner_loop_same n M ps i fuel (k + 1) t1 t2 ⟨h1, h2, h3⟩
        | exact inner_loop_same n M ps i fuel (k + 1) _ _ (hupd _)

theorem outer_loop_same (n : Nat) (M : Int) (ps : Nat → Int) :
    ∀ i t1 t2, SameTables n t1 t2 →
      SameTables n (outer_loop n M ps i t1) (outer_loop n M ps i t2)
  | 0, _, _, h => h
  | i + 1, t1, t2, h => by
    rw [outer_loop, outer_loop]
    exact outer_loop_same n M ps i _ _ (inner_loop_same n M ps i _ _ t1 t2 h)

theorem justify_tables_same {p1 p2 : Paragraph} (hl : p1.lens = p2.lens) (M : Int)
    (nb1 nb2 : Nat → Int) :
    SameTables p1.word_count (justify_tables p1 M nb1) (justify_tables p2 M nb2) := by
  unfold justify_tables
  rw [← word_count_congr hl, ← build_prefix_sum_congr hl]
  apply outer_loop_same
  have hs1 := init_loop_spec (p1.word_count + 1) 0
    { dp := fun _ => 0, valid := fun _ => 0, next_break := nb1 }
  have hs2 := init_loop_spec (p1.word_count + 1) 0
    { dp := fun _ => 0, valid := fun _ => 0, next_break := nb2 }
  have hdp : (init_loop (p1.word_count + 1) 0
        { dp := fun _ => 0, valid := fun _ => 0, next_break := nb1 }).dp
      = (init_loop (p1.word_count + 1) 0
        { dp := fun _ => 0, valid := fun _ => 0, next_break := nb2 }).dp := by
    funext j
    rw [(hs1 j).1, (hs2 j).1]
  have hv : (init_loop (p1.word_count + 1) 0
        { dp := fun _ => 0, valid := fun _ => 0, next_break := nb1 }).valid
      = (init_loop (p1.word_count + 1) 0
        { dp := fun _ => 0, valid := fun _ => 0, next_break := nb2 }).valid := by
    funext j
    rw [(hs1 j).2.1, (hs2 j).2.1]
  refine ⟨by simp only [hdp], by simp only [hv], fun j hj => ?_⟩
  simp only
  have hc : 0 ≤ j ∧ j < 0 + (p1.word_count + 1) := by omega
  rw [(hs1 j).2.2, (hs2 j).2.2, if_pos hc, if_pos hc]

/-- C15: the optimizer is a function of the word lengths and of the width.
For two paragraphs (of at least one word) with the same sequence of word
lengths, whatever their bytes and offsets, and whatever the `next_break`
buffers hold before the calls, the two runs of `justify_paragraph` with the
same `M` either both end with the infeasibility error or both return, with
the same cost and the same entries `next_break[0..n]`. -/
theorem justify_paragraph_depends_on_lengths_only (p1 p2 : Paragraph) (M : Int)
    (nb1 nb2 : Nat → Int) (hl : p1.lens = p2.lens) (hn : 1 ≤ p1.word_count) :
    (justify_paragraph p1 M nb1 = .error Fatal.cannot_justify ∧
      justify_paragraph p2 M nb2 = .error Fatal.cannot_justify) ∨
    ∃ cost r1 r2, justify_paragraph p1 M nb1 = .ok (cost, r1) ∧
      justify_paragraph p2 M nb2 = .ok (cost, r2) ∧
      ∀ j, j ≤ p1.word_count → r1 j = r2 j := by
  obtain ⟨h1, h2, h3⟩ := justify_tables_same hl M nb1 nb2
  have hn2 : 1 ≤ p2.word_count := by rw [← word_count_congr hl]; exact hn
  by_cases hv : (justify_tables p1 M nb1).valid 0 = 0
  · left
    exact ⟨justify_paragraph_of_invalid nb1 hn hv,
      justify_paragraph_of_invalid nb2 hn2 (by rw [← h2]; exact hv)⟩
  · right
    refine ⟨(justify_tables p1 M nb1).dp 0, (justify_tables p1 M nb1).next_break,
      (justify_tables p2 M nb2).next_break, ?_, ?_, h3⟩
    · unfold justify_paragraph
      rw [if_neg (by omega)]
      simp only [if_neg hv]
    · have hv2 : ¬ (justify_tables p2 M nb2).valid 0 = 0 := by rw [← h2]; exact hv
      unfold justify_paragraph
      rw [if_neg (by omega)]
      simp only [if_neg hv2, h1]

theorem justify_paragraph_depends_on_lengths_only_witness :
    (justify_paragraph ⟨[⟨0, 3⟩, ⟨4, 3⟩, ⟨8, 2⟩]⟩ 7 (fun _ => 0) = .error Fatal.cannot_justify ∧
      justify_paragraph ⟨[⟨5, 3⟩, ⟨40, 3⟩, ⟨90, 2⟩]⟩ 7 (fun j => (j : Int) + 9)
        = .error Fatal.cannot_justify) ∨
    ∃ cost r1 r2, justify_paragraph ⟨[⟨0, 3⟩, ⟨4, 3⟩, ⟨8, 2⟩]⟩ 7 (fun _ => 0) = .ok (cost, r1) ∧
      justify_paragraph ⟨[⟨5, 3⟩, ⟨40, 3⟩, ⟨90, 2⟩]⟩ 7 (fun j => (j : Int) + 9) = .ok (cost, r2) ∧
      ∀ j, j ≤ 3 → r1 j = r2 j :=
  justify_paragraph_depends_on_lengths_only ⟨[⟨0, 3⟩, ⟨4, 3⟩, ⟨8, 2⟩]⟩
    ⟨[⟨5, 3⟩, ⟨40, 3⟩, ⟨90, 2⟩]⟩ 7 (fun _ => 0) (fun j => (j : Int) + 9) (by decide) (by decide)

/-- C19: for a paragraph and width on which `justify_paragraph` succeeds
with every word length in `1..M`, the returned table satisfies
`i < next_break[i] ≤ n` for every `i` in `0..n-1` and `next_break[n] = n`;
hence `write_paragraph` on that table never reaches its error
`next_break[i] ≤ i`, moves forward at every line, and is over after at most
`n` turns of its loop: it returns, and allowing more than `n` turns gives
the same output. -/
theorem next_break_advances (data out : List Nat) (p : Paragraph) (M : Int) (nb : Nat → Int)
    (hn1 : 1 ≤ p.word_count) (hn : p.word_count < 1000000) (hM1 : 1 ≤ M) (hM : M ≤ 10000)
    (hw : ∀ w ∈ p.words, 1 ≤ w.len ∧ w.len ≤ M) :
    ∃ cost nb', justify_paragraph p M nb = .ok (cost, nb') ∧
      (∀ i, i < p.word_count → (i : Int) < nb' i ∧ nb' i ≤ (p.word_count : Int)) ∧
      nb' p.word_count = (p.word_count : Int) ∧
      ∃ out', write_paragraph data out p M nb' = .ok out' ∧
        ∀ fuel, p.word_count ≤ fuel → write_paragraph_loop data p M nb' fuel 0 out = .ok out' := by
  have H := inRange_of_fits hn1 hn hM1 hM hw
  have hfit : ∀ w ∈ p.words, w.len ≤ M := fun w h => (hw w h).2
  have hs := justify_tables_solved H nb
  have hall := solved_all_valid hfit hs
  obtain ⟨out', ho⟩ := write_paragraph_loop_ok hs
    (fun j hj => hall (p.word_count - j) j (by omega)) data p.word_count 0 out
  refine ⟨_, _, justify_paragraph_of_valid nb hn1 (hall p.word_count 0 (by omega)),
    fun i hi => ?_, hs.last.2.2, out', ho, fun fuel hf => ?_⟩
  · rcases (hs.rows i (Nat.zero_le _) hi).2 with ⟨a, _⟩ | ⟨_, ks, b, c, d, _⟩
    · have := hall (p.word_count - i) i (by omega)
      omega
    · omega
  · rw [write_paragraph_loop_fuel data p M _ fuel p.word_count 0 out (by omega) (by omega)]
    exact ho

theorem next_break_advances_witness :
    ∃ cost nb', justify_paragraph ⟨[⟨0, 3⟩, ⟨4, 3⟩, ⟨8, 3⟩]⟩ 8 (fun _ => 0) = .ok (cost, nb') ∧
      (∀ i : Nat, i < 3 → (i : Int) < nb' i ∧ nb' i ≤ 3) ∧
      nb' 3 = 3 ∧
      ∃ out', write_paragraph [97, 97, 97, 32, 98, 98, 98, 32, 99, 99, 99] []
          ⟨[⟨0, 3⟩, ⟨4, 3⟩, ⟨8, 3⟩]⟩ 8 nb' = .ok out' ∧
        ∀ fuel, 3 ≤ fuel →
          write_paragraph_loop [97, 97, 97, 32, 98, 98, 98, 32, 99, 99, 99]
            ⟨[⟨0, 3⟩, ⟨4, 3⟩, ⟨8, 3⟩]⟩ 8 nb' fuel 0 [] = .ok out' :=
  next_break_advances [97, 97, 97, 32, 98, 98, 98, 32, 99, 99, 99] []
    ⟨[⟨0, 3⟩, ⟨4, 3⟩, ⟨8, 3⟩]⟩ 8 (fun _ => 0)
    (by decide) (by decide) (by decide) (by decide) (by decide)

/-! ## No saturation under the input limits -/

theorem justify_tables_eq_outer (p : Paragraph) (M : Int) (nb : Nat → Int) :
    justify_tables p M nb =
      outer_loop p.word_count M (build_prefix_sum p) p.word_count (initial_tables p nb) := rfl

theorem initial_tables_solved {p : Paragraph} (M : Int) (nb0 : Nat → Int) :
    Solved p M nb0 p.word_count (initial_tables p nb0) := by
  unfold initial_tables
  have hs := init_loop_spec (p.word_count + 1) 0
    { dp := fun _ => 0, valid := fun _ => 0, next_break := nb0 }
  refine ⟨fun j hj => ?_, ?_, fun j h1 h2 => by omega, fun j h1 h2 => ?_, fun j hj => ?_⟩
  · obtain ⟨a, b, c⟩ := hs j
    have hc : 0 ≤ j ∧ j < 0 + (p.word_count + 1) := by omega
    have hne : j ≠ p.word_count := by omega
    simp only [set_at, if_neg hne]
    rw [a, b, c, if_pos hc, if_pos hc, if_pos hc]
    exact ⟨rfl, rfl, rfl⟩
  · obtain ⟨a, b, c⟩ := hs p.word_count
    have hc : 0 ≤ p.word_count ∧ p.word_count < 0 + (p.word_count + 1) := by omega
    refine ⟨by simp [set_at], by simp [set_at], ?_⟩
    simp only
    rw [c, if_pos hc]
  · have e : j = p.word_count := by omega
    subst e
    simp [set_at]
  · obtain ⟨a, b, c⟩ := hs j
    have hc : ¬ (0 ≤ j ∧ j < 0 + (p.word_count + 1)) := by omega
    simp only
    rw [c, if_neg hc]

/-- The inner loop of row `i` writes row `i` only. -/
theorem inner_loop_frame (n : Nat) (M : Int) (ps : Nat → Int) (i : Nat) :
    ∀ fuel k t j, j ≠ i →
      (inner_loop n M ps i fuel k t).dp j = t.dp j ∧
      (inner_loop n M ps i fuel k t).valid j = t.valid j ∧
      (inner_loop n M ps i fuel k t).next_break j = t.next_break j
  | 0, _, _, _, _ => ⟨rfl, rfl, rfl⟩
  | fuel + 1, k, t, j, hj => by
    have ih := fun t' => inner_loop_frame n M ps i fuel (k + 1) t' j hj
    have hupd : ∀ v w : Int,
        (inner_loop n M ps i fuel (k + 1)
          { dp := set_at t.dp i v, valid := set_at t.valid i 1,
            next_break := set_at t.next_break i w }).dp j = t.dp j ∧
        (inner_loop n M ps i fuel (k + 1)
          { dp := set_at t.dp i v, valid := set_at t.valid i 1,
            next_break := set_at t.next_break i w }).valid j = t.valid j ∧
        (inner_loop n M ps i fuel (k + 1)
          { dp := set_at t.dp i v, valid := set_at t.valid i 1,
            next_break := set_at t.next_break i w }).next_break j = t.next_break j := by
      intro v w
      obtain ⟨a, b, c⟩ := ih ⟨set_at t.dp i v, set_at t.valid i 1, set_at t.next_break i w⟩
      rw [a, b, c]
      simp only [set_at, if_neg hj]
      exact ⟨trivial, trivial, trivial⟩
    rw [inner_loop]
    simp only
    split_ifs <;>
      first
        | exact ⟨rfl, rfl, rfl⟩
        | exact ih t
        | exact hupd _ _

theorem inner_loop_saturates_false {p : Paragraph} {M : Int} (H : InRange p M) (i : Nat)
    (T : Tables) (hT : TailOK p i T) :
    ∀ fuel k t, i ≤ k → (∀ j, j ≠ i → t.dp j = T.dp j ∧ t.valid j = T.valid j) →
      inner_loop_saturates p.word_count M (build_prefix_sum p) i fuel k t = false
  | 0, _, _, _, _ => rfl
  | fuel + 1, k, t, hik, hfr => by
    rw [inner_loop_saturates]
    by_cases hk : k < p.word_count
    swap
    · rw [if_neg hk]
    rw [if_pos hk]
    simp only [delta_eq_line_len H i k hik hk]
    by_cases c1 : line_len p i k > M
    · rw [if_pos c1]
    rw [if_neg c1]
    obtain ⟨f1, f2⟩ := hfr (k + 1) (by omega)
    obtain ⟨tv, tdp⟩ := hT (k + 1) (by omega) (by omega)
    by_cases c2 : t.valid (k + 1) = 0
    · rw [if_pos c2]
      exact inner_loop_saturates_false H i T hT fuel (k + 1) t (by omega) hfr
    rw [if_neg c2]
    have hv1 : T.valid (k + 1) = 1 := by omega
    obtain ⟨d0, d1⟩ := tdp hv1
    rw [← f1] at d0 d1
    have hn := H.n_lt
    have hpos := line_len_pos H i k hik hk
    have hM := H.M_le
    obtain ⟨p0, p1⟩ := line_penalty_bounds H i k hik hk (by omega)
    have hpen : (if k = p.word_count - 1 then 0 else cube (wrap64 (M - line_len p i k)))
        = line_penalty p M i k := by
      have := penalty_eq_line_penalty H i k hik hk (by omega)
      unfold penalty at this
      rw [delta_eq_line_len H i k hik hk] at this
      exact this
    rw [hpen]
    push_cast at d1
    have e1 : wrap64 (LLONG_MAX - t.dp (k + 1)) = LLONG_MAX - t.dp (k + 1) := by
      unfold LLONG_MAX
      exact wrap64_of_range (by omega) (by omega)
    have e2 : wrap64 (line_penalty p M i k + t.dp (k + 1)) = line_penalty p M i k + t.dp (k + 1) :=
      wrap64_of_range (by omega) (by omega)
    rw [if_neg (by omega), if_neg (by unfold LLONG_MAX; omega), e1, e2,
      if_neg (by simp), if_neg (by unfold LLONG_MAX; omega), if_neg (by simp)]
    apply inner_loop_saturates_false H i T hT fuel (k + 1) _ (by omega)
    intro j hj
    obtain ⟨a, b, _⟩ := inner_loop_frame p.word_count M (build_prefix_sum p) i 1 k t j hj
    rw [a, b]
    exact hfr j hj

theorem outer_loop_saturates_false {p : Paragraph} {M : Int} (H : InRange p M)
    (nb0 : Nat → Int) :
    ∀ i t, i ≤ p.word_count → Solved p M nb0 i t →
      outer_loop_saturates p.word_count M (build_prefix_sum p) i t = false
  | 0, _, _, _ => rfl
  | i + 1, t, hi, h => by
    rw [outer_loop_saturates]
    have hT : TailOK p i t := fun j h1 h2 => h.bounds j (by omega) h2
    rw [inner_loop_saturates_false H i t hT (p.word_count - i) i t (le_refl _)
      (fun _ _ => ⟨rfl, rfl⟩), Bool.false_or]
    exact outer_loop_saturates_false H nb0 i _ (by omega) (solved_step H nb0 i t (by omega) h)

theorem pow3_le_of_le {x M : Int} (h0 : 0 ≤ x) (h1 : x ≤ M) : 0 ≤ x ^ 3 ∧ x ^ 3 ≤ M ^ 3 :=
  ⟨pow_nonneg h0 3, pow_le_pow_left₀ h0 h1 3⟩

theorem line_penalty_le_cube {p : Paragraph} {M : Int} (H : InRange p M) (i k : Nat)
    (hik : i ≤ k) (hk : k < p.word_count) (hd : line_len p i k ≤ M) :
    0 ≤ line_penalty p M i k ∧ line_penalty p M i k ≤ M ^ 3 := by
  unfold line_penalty
  have hpos := line_len_pos H i k hik hk
  have hM : 0 ≤ M ^ 3 := pow_nonneg (by have := H.M_pos; omega) 3
  split
  · exact ⟨le_refl _, hM⟩
  · exact pow3_le_of_le (by omega) (by omega)

/-- Every valid entry of a solved table is at most `M^3` per remaining word. -/
theorem solved_dp_le {p : Paragraph} {M : Int} (H : InRange p M) {nb0 : Nat → Int} {t : Tables}
    (hs : Solved p M nb0 0 t) :
    ∀ d j, j + d = p.word_count → t.valid j = 1 →
      t.dp j ≤ ((p.word_count : Int) - (j : Int)) * M ^ 3 := by
  intro d
  induction d using Nat.strong_induction_on with
  | _ d ih =>
    intro j hj hv
    by_cases hjn : j = p.word_count
    · subst hjn
      rw [hs.last.2.1]
      simp
    rcases (hs.rows j (Nat.zero_le _) (by omega)).2 with ⟨a, _⟩ | ⟨_, ks, b, c, _, e, f, g, _⟩
    · omega
    have h1 := ih (p.word_count - (ks + 1)) (by omega) (ks + 1) (by omega) f
    obtain ⟨_, h2⟩ := line_penalty_le_cube H j ks b c e
    have hM : 0 ≤ M ^ 3 := pow_nonneg (by have := H.M_pos; omega) 3
    have h3 : ((p.word_count : Int) - ((ks + 1 : Nat) : Int)) * M ^ 3 + M ^ 3
        = ((p.word_count : Int) - (ks : Int)) * M ^ 3 := by push_cast; ring
    have h4 : ((p.word_count : Int) - (ks : Int)) * M ^ 3
        ≤ ((p.word_count : Int) - (j : Int)) * M ^ 3 :=
      mul_le_mul_of_nonneg_right (by omega) hM
    rw [g]
    unfold cand
    omega

/-- C18: under the input limits (`1 ≤ M ≤ 10000`, `1 ≤ n < 1,000,000`, every
word length in `1..M`) no turn of the loops of `justify_paragraph` takes a
saturation branch (`penalty < 0`, `future_cost == LLONG_MAX`,
`penalty > LLONG_MAX - future_cost`) or computes a 64-bit sum that differs
from the exact one.  In the resulting tables every entry is valid with
`0 ≤ dp[j] ≤ n * M^3 ≤ 10^18 < LLONG_MAX`, and for every feasible line
`i..k` the penalty is non-negative and below `LLONG_MAX` and the candidate
total `penalty + dp[k+1]` lies between 0 and `n * M^3`. -/
theorem no_saturation_under_limits (p : Paragraph) (M : Int) (nb : Nat → Int)
    (hn1 : 1 ≤ p.word_count) (hn : p.word_count < 1000000) (hM1 : 1 ≤ M) (hM : M ≤ 10000)
    (hw : ∀ w ∈ p.words, 1 ≤ w.len ∧ w.len ≤ M) :
    justify_saturates p M nb = false ∧
    (p.word_count : Int) * M ^ 3 ≤ 1000000000000000000 ∧
    (1000000000000000000 : Int) < LLONG_MAX ∧
    (∀ j, j ≤ p.word_count →
      (justify_tables p M nb).valid j = 1 ∧ 0 ≤ (justify_tables p M nb).dp j ∧
      (justify_tables p M nb).dp j ≤ (p.word_count : Int) * M ^ 3) ∧
    (∀ i k, i ≤ k → k < p.word_count → delta i k (build_prefix_sum p) ≤ M →
      0 ≤ penalty p.word_count M (build_prefix_sum p) i k ∧
      penalty p.word_count M (build_prefix_sum p) i k < LLONG_MAX ∧
      0 ≤ penalty p.word_count M (build_prefix_sum p) i k + (justify_tables p M nb).dp (k + 1) ∧
      penalty p.word_count M (build_prefix_sum p) i k + (justify_tables p M nb).dp (k + 1)
        ≤ (p.word_count : Int) * M ^ 3 ∧
      wrap64 (penalty p.word_count M (build_prefix_sum p) i k
          + (justify_tables p M nb).dp (k + 1))
        = penalty p.word_count M (build_prefix_sum p) i k
          + (justify_tables p M nb).dp (k + 1)) := by
  have H := inRange_of_fits hn1 hn hM1 hM hw
  have hfit : ∀ w ∈ p.words, w.len ≤ M := fun w h => (hw w h).2
  have hs := justify_tables_solved H nb
  have hall := solved_all_valid hfit hs
  have hM3 : 0 ≤ M ^ 3 ∧ M ^ 3 ≤ 1000000000000 := pow3_small (by omega) hM
  have hbig : (p.word_count : Int) * M ^ 3 ≤ 1000000000000000000 := by
    have : (p.word_count : Int) * M ^ 3 ≤ 1000000 * 1000000000000 :=
      mul_le_mul (by omega) hM3.2 hM3.1 (by norm_num)
    omega
  have hdp : ∀ j, j ≤ p.word_count →
      (justify_tables p M nb).valid j = 1 ∧ 0 ≤ (justify_tables p M nb).dp j ∧
      (justify_tables p M nb).dp j ≤ ((p.word_count : Int) - (j : Int)) * M ^ 3 := by
    intro j hj
    have hv := hall (p.word_count - j) j (by omega)
    exact ⟨hv, ((hs.bounds j (Nat.zero_le _) hj).2 hv).1,
      solved_dp_le H hs (p.word_count - j) j (by omega) hv⟩
  have hmono : ∀ j : Nat, ((p.word_count : Int) - (j : Int)) * M ^ 3
      ≤ (p.word_count : Int) * M ^ 3 :=
    fun j => mul_le_mul_of_nonneg_right (by omega) hM3.1
  refine ⟨outer_loop_saturates_false H nb p.word_count _ (le_refl _)
    (initial_tables_solved M nb), hbig, by unfold LLONG_MAX; norm_num,
    fun j hj => ?_, fun i k hik hk hd => ?_⟩
  · obtain ⟨a, b, c⟩ := hdp j hj
    exact ⟨a, b, le_trans c (hmono j)⟩
  · rw [delta_eq_line_len H i k hik hk] at hd
    rw [penalty_eq_line_penalty H i k hik hk hd]
    obtain ⟨p0, p1⟩ := line_penalty_le_cube H i k hik hk hd
    obtain ⟨_, d0, d1⟩ := hdp (k + 1) (by omega)
    have h3 : ((p.word_count : Int) - ((k + 1 : Nat) : Int)) * M ^ 3 + M ^ 3
        = ((p.word_count : Int) - (k : Int)) * M ^ 3 := by push_cast; ring
    have h4 := hmono k
    have hL : (1000000000000000000 : Int) < LLONG_MAX := by unfold LLONG_MAX; norm_num
    refine ⟨p0, by omega, by omega, by omega, wrap64_of_range (by omega) ?_⟩
    unfold LLONG_MAX at hL
    omega

theorem no_saturation_under_limits_witness :
    justify_saturates ⟨[⟨0, 3⟩, ⟨4, 3⟩, ⟨8, 3⟩]⟩ 8 (fun _ => 0) = false ∧
    ((3 : Nat) : Int) * (8 : Int) ^ 3 ≤ 1000000000000000000 ∧
    (1000000000000000000 : Int) < LLONG_MAX ∧
    (∀ j, j ≤ 3 →
      (justify_tables ⟨[⟨0, 3⟩, ⟨4, 3⟩, ⟨8, 3⟩]⟩ 8 (fun _ => 0)).valid j = 1 ∧
      0 ≤ (justify_tables ⟨[⟨0, 3⟩, ⟨4, 3⟩, ⟨8, 3⟩]⟩ 8 (fun _ => 0)).dp j ∧
      (justify_tables ⟨[⟨0, 3⟩, ⟨4, 3⟩, ⟨8, 3⟩]⟩ 8 (fun _ => 0)).dp j
        ≤ ((3 : Nat) : Int) * (8 : Int) ^ 3) ∧
    (∀ i k, i ≤ k → k < 3 → delta i k (build_prefix_sum ⟨[⟨0, 3⟩, ⟨4, 3⟩, ⟨8, 3⟩]⟩) ≤ 8 →
      0 ≤ penalty 3 8 (build_prefix_sum ⟨[⟨0, 3⟩, ⟨4, 3⟩, ⟨8, 3⟩]⟩) i k ∧
      penalty 3 8 (build_prefix_sum ⟨[⟨0, 3⟩, ⟨4, 3⟩, ⟨8, 3⟩]⟩) i k < LLONG_MAX ∧
      0 ≤ penalty 3 8 (build_prefix_sum ⟨[⟨0, 3⟩, ⟨4, 3⟩, ⟨8, 3⟩]⟩) i k
        + (justify_tables ⟨[⟨0, 3⟩, ⟨4, 3⟩, ⟨8, 3⟩]⟩ 8 (fun _ => 0)).dp (k + 1) ∧
      penalty 3 8 (build_prefix_sum ⟨[⟨0, 3⟩, ⟨4, 3⟩, ⟨8, 3⟩]⟩) i k
          + (justify_tables ⟨[⟨0, 3⟩, ⟨4, 3⟩, ⟨8, 3⟩]⟩ 8 (fun _ => 0)).dp (k + 1)
        ≤ ((3 : Nat) : Int) * (8 : Int) ^ 3 ∧
      wrap64 (penalty 3 8 (build_prefix_sum ⟨[⟨0, 3⟩, ⟨4, 3⟩, ⟨8, 3⟩]⟩) i k
          + (justify_tables ⟨[⟨0, 3⟩, ⟨4, 3⟩, ⟨8, 3⟩]⟩ 8 (fun _ => 0)).dp (k + 1))
        = penalty 3 8 (build_prefix_sum ⟨[⟨0, 3⟩, ⟨4, 3⟩, ⟨8, 3⟩]⟩) i k
          + (justify_tables ⟨[⟨0, 3⟩, ⟨4, 3⟩, ⟨8, 3⟩]⟩ 8 (fun _ => 0)).dp (k + 1)) :=
  no_saturation_under_limits ⟨[⟨0, 3⟩, ⟨4, 3⟩, ⟨8, 3⟩]⟩ 8 (fun _ => 0)
    (by decide) (by decide) (by decide) (by decide) (by decide)

set_option maxRecDepth 100000 in
/-- The observer does report a saturation when there is one: outside the
input limits, with `M = 3,000,000`, the first line `i = 0, k = 0` has a
padding deficit above 2,097,151, its penalty is the sentinel, and the test
`penalty > LLONG_MAX - future_cost` succeeds. -/
theorem justify_saturates_outside_limits :
    justify_saturates ⟨[⟨0, 1⟩, ⟨2, 2999999⟩, ⟨3000002, 2999999⟩, ⟨6000002, 3000000⟩]⟩
      3000000 (fun _ => 0) = true := by
  decide

/-! ## Errors of the tokenizer -/

theorem word_loop_error (data : List Nat) :
    ∀ fuel i len e, word_loop data fuel i len = .error e →
      e = Fatal.word_too_long ∧
      ∃ i', i ≤ i' ∧ i' < data.length ∧
        (∀ j, i ≤ j → j ≤ i' → is_printable (byte_at data j) = true) ∧
        len + ((i' : Int) - (i : Int)) + 1 > MAX_WORD_LEN
  | 0, i, len, e, h => by
    rw [word_loop] at h
    cases h
  | fuel + 1, i, len, e, h => by
    rw [word_loop] at h
    by_cases c : i < data.length ∧ is_printable (byte_at data i) = true
    · rw [if_pos c] at h
      by_cases c2 : len + 1 > MAX_WORD_LEN
      · rw [if_pos c2] at h
        injection h with h
        exact ⟨h.symm, i, le_refl _, c.1,
          fun j h1 h2 => by have : j = i := by omega
                            rw [this]; exact c.2,
          by omega⟩
      · rw [if_neg c2] at h
        obtain ⟨he, i', a, b, d, f⟩ := word_loop_error data fuel (i + 1) (len + 1) e h
        refine ⟨he, i', by omega, b, fun j h1 h2 => ?_, by push_cast at f; omega⟩
        by_cases ej : j = i
        · rw [ej]; exact c.2
        · exact d j (by omega) h2
    · rw [if_neg c] at h
      cases h

theorem paragraph_loop_error (data : List Nat) :
    ∀ fuel i ws e, paragraph_loop data fuel i ws = .error e →
      (e = Fatal.word_too_long ∧ HasLongRun data) ∨ e = Fatal.too_many_words
  | 0, i, ws, e, h => by
    rw [paragraph_loop] at h
    cases h
  | fuel + 1, i, ws, e, h => by
    rw [paragraph_loop] at h
    by_cases c0 : i < data.length
    swap
    · rw [if_neg c0] at h
      cases h
    rw [if_pos c0] at h
    by_cases c1 : i + 1 < data.length ∧ byte_at data i = 10 ∧ byte_at data (i + 1) = 10
    · rw [if_pos c1] at h
      cases h
    rw [if_neg c1] at h
    by_cases c2 : is_separator (byte_at data i) = true
    · rw [if_pos c2] at h
      exact paragraph_loop_error data fuel (i + 1) ws e h
    rw [if_neg c2] at h
    by_cases c3 : is_printable (byte_at data i) = true
    · rw [if_pos c3] at h
      cases hw : word_loop data (data.length - i) i 0 with
      | error e' =>
        rw [hw] at h
        simp only at h
        injection h with h
        subst h
        obtain ⟨he, i', a, b, d, f⟩ := word_loop_error data _ i 0 e' hw
        left
        refine ⟨he, i, ?_, fun j h1 h2 => d j h1 ?_⟩
        · unfold MAX_WORD_LEN at f
          omega
        · unfold MAX_WORD_LEN at f
          omega
      | ok r =>
        obtain ⟨i2, len⟩ := r
        rw [hw] at h
        simp only at h
        by_cases c4 : (ws ++ [Word.mk i len]).length ≥ MAX_WORDS
        · rw [if_pos c4] at h
          injection h with h
          exact Or.inr h.symm
        · rw [if_neg c4] at h
          exact paragraph_loop_error data fuel i2 _ e h
    · rw [if_neg c3] at h
      exact paragraph_loop_error data fuel (i + 1) ws e h

theorem extract_loop_error (data : List Nat) :
    ∀ fuel i ps e, extract_loop data fuel i ps = .error e →
      (e = Fatal.word_too_long ∧ HasLongRun data) ∨ e = Fatal.too_many_words ∨
        e = Fatal.too_many_paragraphs
  | 0, i, ps, e, h => by
    rw [extract_loop] at h
    cases h
  | fuel + 1, i, ps, e, h => by
    rw [extract_loop] at h
    by_cases c0 : i < data.length
    swap
    · rw [if_neg c0] at h
      cases h
    rw [if_pos c0] at h
    simp only at h
    by_cases c1 : skip_separators data (data.length - i) i ≥ data.length
    · rw [if_pos c1] at h
      cases h
    rw [if_neg c1] at h
    cases hp : paragraph_loop data (data.length - skip_separators data (data.length - i) i)
        (skip_separators data (data.length - i) i) [] with
    | error e' =>
      rw [hp] at h
      simp only at h
      injection h with h
      subst h
      rcases paragraph_loop_error data _ _ _ e' hp with h1 | h1
      · exact Or.inl h1
      · exact Or.inr (Or.inl h1)
    | ok r =>
      obtain ⟨i2, ws⟩ := r
      rw [hp] at h
      simp only at h
      by_cases c2 : (if ws.length > 0 then ps ++ [Paragraph.mk ws] else ps).length ≥ 1000
      · rw [if_pos c2] at h
        injection h with h
        exact Or.inr (Or.inr h.symm)
      · rw [if_neg c2] at h
        exact extract_loop_error data fuel i2 _ e h

/-- A buffer with a run of 257 printable bytes is not accepted. -/
theorem long_run_not_accepted (data : List Nat) (hl : HasLongRun data)
    (ps : List Paragraph) : extract_paragraphs data ≠ .ok ps := by
  intro h
  have hs := extract_loop_spec data.length 0 [] ps (by omega) (scanned_start data) h
  obtain ⟨s, hs1, hs2⟩ := hl
  obtain ⟨w, hw, hw1, hw2⟩ := hs.covered s (by omega) (hs2 s (le_refl _) (by omega))
  obtain ⟨⟨r1, r2, r3, r4, r5⟩, hlen, _⟩ := hs.runs w hw
  unfold MAX_WORD_LEN at hlen
  rcases r5 with r5 | r5
  · omega
  · have := hs2 (w.start + w.len.toNat) (by omega) (by omega)
    rw [this] at r5
    cases r5

set_option maxRecDepth 1000000 in
theorem run_of_256_accepted :
    extract_paragraphs (List.replicate 256 97) = .ok [⟨[⟨0, 256⟩]⟩] := by
  rfl

set_option maxRecDepth 1000000 in
theorem run_of_257_rejected :
    extract_paragraphs (List.replicate 257 97) = .error Fatal.word_too_long := by
  rfl

/-- C12: for a buffer on which `extract_paragraphs` does not stop on a
word-count or paragraph-count limit, it fails with the word-length error
if and only if the buffer holds a run of consecutive printable bytes longer
than `MAX_WORD_LEN = 256`; a buffer made of a run of exactly 256 printable
bytes is accepted as one word, a run of 257 is rejected. -/
theorem word_length_error_iff_long_run (data : List Nat)
    (h1 : extract_paragraphs data ≠ .error Fatal.too_many_words)
    (h2 : extract_paragraphs data ≠ .error Fatal.too_many_paragraphs) :
    (extract_paragraphs data = .error Fatal.word_too_long ↔ HasLongRun data) ∧
    extract_paragraphs (List.replicate 256 97) = .ok [⟨[⟨0, 256⟩]⟩] ∧
    extract_paragraphs (List.replicate 257 97) = .error Fatal.word_too_long := by
  refine ⟨⟨fun h => ?_, fun hl => ?_⟩, run_of_256_accepted, run_of_257_rejected⟩
  · rcases extract_loop_error data data.length 0 [] _ h with ⟨_, hl⟩ | hc | hc
    · exact hl
    · cases hc
    · cases hc
  · cases hr : extract_paragraphs data with
    | ok ps => exact absurd hr (long_run_not_accepted data hl ps)
    | error e =>
      rcases extract_loop_error data data.length 0 [] e hr with ⟨he, _⟩ | he | he
      · rw [he]
      · rw [he] at hr; exact absurd hr h1
      · rw [he] at hr; exact absurd hr h2

theorem word_length_error_iff_long_run_witness :
    (extract_paragraphs [97, 98, 32, 99] = .error Fatal.word_too_long ↔
      HasLongRun [97, 98, 32, 99]) ∧
    extract_paragraphs (List.replicate 256 97) = .ok [⟨[⟨0, 256⟩]⟩] ∧
    extract_paragraphs (List.replicate 257 97) = .error Fatal.word_too_long :=
  word_length_error_iff_long_run [97, 98, 32, 99]
    (fun h => Except.noConfusion h) (fun h => Except.noConfusion h)

/-! ## Paragraph boundaries -/

theorem word_loop_stop (data : List Nat) (i i' : Nat) (len : Int) (hi : i < data.length)
    (hp : is_printable (byte_at data i) = true)
    (hw : word_loop data (data.length - i) i 0 = .ok (i', len)) :
    (Word.mk i len).stop = i' ∧ i < i' := by
  obtain ⟨a, _, c, _, e, _⟩ := word_loop_spec data _ i 0 i' len (le_refl _) (le_of_lt hi) hw
  have hlt : i < i' := by
    by_contra hc
    have : i' = i := by omega
    subst this
    rcases e with e | e
    · omega
    · rw [hp] at e; cases e
  unfold Word.stop
  simp only
  omega

theorem paragraph_loop_groups (data : List Nat) (i0 : Nat) :
    ∀ fuel i ws i' ws', paragraph_loop data fuel i ws = .ok (i', ws') →
      data.length - i ≤ fuel → i ≤ data.length → i0 ≤ i →
      ws.Chain' (NoBlankBetween data) →
      (∀ a ∈ ws.getLast?, a.stop ≤ i ∧ NoBlankFrom data a.stop i) →
      (∀ b ∈ ws, i0 ≤ b.start) → ws.length < MAX_WORDS →
      ws'.Chain' (NoBlankBetween data) ∧ (∀ b ∈ ws', i0 ≤ b.start) ∧
      (i ≤ i' ∧ (i < data.length → i < i')) ∧
      ws'.length < MAX_WORDS ∧
      (data.length ≤ i' ∨
        (2 ≤ i' ∧ byte_at data (i' - 2) = 10 ∧ byte_at data (i' - 1) = 10 ∧
          ∀ a ∈ ws'.getLast?, a.stop ≤ i' - 2))
  | 0, i, ws, i', ws', h, hf, hi, h0, hc, hl, hb, hs => by
    rw [paragraph_loop] at h
    injection h with h
    injection h with h1 h2
    subst h1 h2
    exact ⟨hc, hb, ⟨le_refl _, fun h => by omega⟩, hs, Or.inl (by omega)⟩
  | fuel + 1, i, ws, i', ws', h, hf, hi, h0, hc, hl, hb, hs => by
    rw [paragraph_loop] at h
    by_cases c0 : i < data.length
    swap
    · rw [if_neg c0] at h
      injection h with h
      injection h with h1 h2
      subst h1 h2
      exact ⟨hc, hb, ⟨le_refl _, fun h => by omega⟩, hs, Or.inl (by omega)⟩
    rw [if_pos c0] at h
    by_cases c1 : i + 1 < data.length ∧ byte_at data i = 10 ∧ byte_at data (i + 1) = 10
    · rw [if_pos c1] at h
      injection h with h
      injection h with h1 h2
      subst h1 h2
      refine ⟨hc, hb, ⟨by omega, fun _ => by omega⟩, hs,
        Or.inr ⟨by omega, ?_, ?_, fun a ha => ?_⟩⟩
      · have e : i + 2 - 2 = i := by omega
        rw [e]; exact c1.2.1
      · have e : i + 2 - 1 = i + 1 := by omega
        rw [e]; exact c1.2.2
      · have := (hl a ha).1
        omega
    rw [if_neg c1] at h
    have hskip : ∀ a ∈ ws.getLast?, a.stop ≤ i + 1 ∧ NoBlankFrom data a.stop (i + 1) := by
      intro a ha
      obtain ⟨x, y⟩ := hl a ha
      refine ⟨by omega, fun j h1 h2 => ?_⟩
      by_cases e : j = i
      · subst e; exact c1
      · exact y j h1 (by omega)
    by_cases c2 : is_separator (byte_at data i) = true
    · rw [if_pos c2] at h
      obtain ⟨r1, r2, r3, r4, r5⟩ := paragraph_loop_groups data i0 fuel (i + 1) ws i' ws' h
        (by omega) (by omega) (by omega) hc hskip hb hs
      exact ⟨r1, r2, ⟨by omega, fun _ => by omega⟩, r4, r5⟩
    rw [if_neg c2] at h
    by_cases c3 : is_printable (byte_at data i) = true
    · rw [if_pos c3] at h
      cases hw : word_loop data (data.length - i) i 0 with
      | error e =>
        rw [hw] at h
        cases h
      | ok r =>
        obtain ⟨i2, len⟩ := r
        rw [hw] at h
        simp only at h
        by_cases c4 : (ws ++ [Word.mk i len]).length ≥ MAX_WORDS
        · rw [if_pos c4] at h
          cases h
        · rw [if_neg c4] at h
          obtain ⟨hstop, hle⟩ := word_loop_stop data i i2 len c0 c3 hw
          have hi2 := (word_loop_spec data _ i 0 i2 len (le_refl _) hi hw).2.1
          have hlen1 : (ws ++ [Word.mk i len]).length < MAX_WORDS := by omega
          suffices hsuff : ws'.Chain' (NoBlankBetween data) ∧ (∀ b ∈ ws', i0 ≤ b.start) ∧
              (i2 ≤ i' ∧ (i2 < data.length → i2 < i')) ∧ ws'.length < MAX_WORDS ∧
              (data.length ≤ i' ∨
                (2 ≤ i' ∧ byte_at data (i' - 2) = 10 ∧ byte_at data (i' - 1) = 10 ∧
                  ∀ a ∈ ws'.getLast?, a.stop ≤ i' - 2)) by
            obtain ⟨r1, r2, r3, r4, r5⟩ := hsuff
            exact ⟨r1, r2, ⟨by omega, fun _ => by omega⟩, r4, r5⟩
          refine paragraph_loop_groups data i0 fuel i2 _ i' ws' h (by omega) hi2 (by omega)
            ?_ ?_ ?_ hlen1
          · rw [List.chain'_append]
            refine ⟨hc, List.chain'_singleton _, fun a ha b hb' => ?_⟩
            simp only [List.head?_cons, Option.mem_def, Option.some.injEq] at hb'
            subst hb'
            obtain ⟨x, y⟩ := hl a ha
            rintro ⟨j, j1, j2, j3, j4⟩
            simp only at j2
            exact y j j1 (by omega) ⟨by omega, j3, j4⟩
          · intro a ha
            rw [List.getLast?_concat] at ha
            simp only [Option.mem_def, Option.some.injEq] at ha
            subst ha
            rw [hstop]
            exact ⟨le_refl _, fun j h1 h2 => by omega⟩
          · intro b hb'
            rcases List.mem_append.1 hb' with hb' | hb'
            · exact hb b hb'
            · rw [List.mem_singleton] at hb'
              subst hb'
              exact h0
    · rw [if_neg c3] at h
      obtain ⟨r1, r2, r3, r4, r5⟩ := paragraph_loop_groups data i0 fuel (i + 1) ws i' ws' h
        (by omega) (by omega) (by omega) hc hskip hb hs
      exact ⟨r1, r2, ⟨by omega, fun _ => by omega⟩, r4, r5⟩

theorem skip_separators_ge (data : List Nat) :
    ∀ fuel i, i ≤ skip_separators data fuel i ∧
      (i ≤ data.length → skip_separators data fuel i ≤ data.length)
  | 0, i => ⟨le_refl _, fun h => h⟩
  | fuel + 1, i => by
    rw [skip_separators]
    split
    · rename_i c
      obtain ⟨a, b⟩ := skip_separators_ge data fuel (i + 1)
      exact ⟨by omega, fun _ => b (by omega)⟩
    · exact ⟨le_refl _, fun h => h⟩

theorem extract_loop_groups (data : List Nat) :
    ∀ fuel i ps ps', extract_loop data fuel i ps = .ok ps' → data.length - i ≤ fuel →
      i ≤ data.length → ps.length < 1000 → GroupedUpTo data ps i →
      ps'.length < 1000 ∧ ∃ i', GroupedUpTo data ps' i'
  | 0, i, ps, ps', h, _, _, hlen, hg => by
    rw [extract_loop] at h
    injection h with h
    subst h
    exact ⟨hlen, i, hg⟩
  | fuel + 1, i, ps, ps', h, hf, hi, hlen, hg => by
    rw [extract_loop] at h
    by_cases c0 : i < data.length
    swap
    · rw [if_neg c0] at h
      injection h with h
      subst h
      exact ⟨hlen, i, hg⟩
    rw [if_pos c0] at h
    simp only at h
    obtain ⟨hge, hle⟩ := skip_separators_ge data (data.length - i) i
    by_cases c1 : skip_separators data (data.length - i) i ≥ data.length
    · rw [if_pos c1] at h
      injection h with h
      subst h
      exact ⟨hlen, i, hg⟩
    rw [if_neg c1] at h
    cases hp : paragraph_loop data (data.length - skip_separators data (data.length - i) i)
        (skip_separators data (data.length - i) i) [] with
    | error e =>
      rw [hp] at h
      cases h
    | ok r =>
      obtain ⟨i2, ws⟩ := r
      rw [hp] at h
      simp only at h
      obtain ⟨g1, g2, ⟨_, g3⟩, g4, g5⟩ := paragraph_loop_groups data
        (skip_separators data (data.length - i) i) _ _ [] i2 ws hp (le_refl _) (hle (by omega))
        (le_refl _) List.chain'_nil (fun a ha => by simp at ha) (fun b hb => by simp at hb)
        (by unfold MAX_WORDS; simp)
      by_cases c2 : (if ws.length > 0 then ps ++ [Paragraph.mk ws] else ps).length ≥ 1000
      · rw [if_pos c2] at h
        cases h
      · rw [if_neg c2] at h
        have g3' := g3 (by omega)
        have hi2 : i2 ≤ data.length ∨ data.length < i2 := le_or_lt _ _
        have hnext : ∀ (qs : List Paragraph), qs.length < 1000 → GroupedUpTo data qs i2 →
            extract_loop data fuel i2 qs = .ok ps' → ps'.length < 1000 ∧
              ∃ i', GroupedUpTo data ps' i' := by
          intro qs hq hgq hr
          rcases hi2 with hi2 | hi2
          · exact extract_loop_groups data fuel i2 qs ps' hr (by omega) hi2 hq hgq
          · have : extract_loop data fuel i2 qs = .ok qs := by
              cases fuel with
              | zero => rfl
              | succ f => rw [extract_loop, if_neg (by omega)]
            rw [this] at hr
            injection hr with hr
            subst hr
            exact ⟨hq, i2, hgq⟩
        by_cases c3 : ws.length > 0
        · rw [if_pos c3] at h c2
          refine hnext _ (by omega) ?_ h
          have hne : ws ≠ [] := by
            intro e; rw [e] at c3; simp at c3
          refine ⟨fun p hp' => ?_, fun p hp' => ?_, fun p hp' => ?_, ?_, fun p hp' a ha => ?_⟩
          · rcases List.mem_append.1 hp' with hp' | hp'
            · exact hg.nonempty p hp'
            · rw [List.mem_singleton] at hp'; subst hp'; exact hne
          · rcases List.mem_append.1 hp' with hp' | hp'
            · exact hg.small p hp'
            · rw [List.mem_singleton] at hp'; subst hp'; exact g4
          · rcases List.mem_append.1 hp' with hp' | hp'
            · exact hg.within p hp'
            · rw [List.mem_singleton] at hp'; subst hp'; exact g1
          · rw [List.chain'_append]
            refine ⟨hg.between, List.chain'_singleton _, fun x hx y hy a ha b hb => ?_⟩
            simp only [List.head?_cons, Option.mem_def, Option.some.injEq] at hy
            subst hy
            simp only at hb
            have hbm : b ∈ ws := List.mem_of_mem_head? hb
            have hbs := g2 b hbm
            rcases hg.pending x hx a ha with hp1 | ⟨j, j1, j2, j3, j4⟩
            · omega
            · exact ⟨j, j1, by omega, j3, j4⟩
          · rw [List.getLast?_concat] at hp'
            simp only [Option.mem_def, Option.some.injEq] at hp'
            subst hp'
            simp only at ha
            rcases g5 with g5 | ⟨k1, k2, k3, k4⟩
            · exact Or.inl g5
            · refine Or.inr ⟨i2 - 2, k4 a ha, by omega, k2, ?_⟩
              have e : i2 - 2 + 1 = i2 - 1 := by omega
              rw [e]; exact k3
        · rw [if_neg c3] at h c2
          refine hnext ps hlen ?_ h
          refine ⟨hg.nonempty, hg.small, hg.within, hg.between, fun p hp' a ha => ?_⟩
          rcases hg.pending p hp' a ha with hp1 | ⟨j, j1, j2, j3, j4⟩
          · omega
          · exact Or.inr ⟨j, j1, by omega, j3, j4⟩

theorem extract_paragraphs_grouped (data : List Nat) (ps : List Paragraph)
    (h : extract_paragraphs data = .ok ps) :
    ps.length < 1000 ∧ ∃ i, GroupedUpTo data ps i := by
  refine extract_loop_groups data data.length 0 [] ps h (by omega) (Nat.zero_le _)
    (by simp) ?_
  exact ⟨fun p hp => by simp at hp, fun p hp => by simp at hp, fun p hp => by simp at hp,
    List.chain'_nil, fun p hp => by simp at hp⟩

/-- Two neighbours in the sequence of all the words of a document are
either neighbours in one paragraph, or the last word of a paragraph and the
first word of the next one. -/
theorem all_words_adjacent :
    ∀ (ps : List Paragraph), (∀ p ∈ ps, p.words ≠ []) →
      ∀ (l1 : List Word) (a b : Word) (l2 : List Word), all_words ps = l1 ++ a :: b :: l2 →
      (∃ p ∈ ps, ∃ m1 m2, p.words = m1 ++ a :: b :: m2) ∨
      (∃ Q1 p q Q2, ps = Q1 ++ p :: q :: Q2 ∧ a ∈ p.words.getLast? ∧ b ∈ q.words.head?)
  | [], _, l1, a, b, l2, h => by
    simp [all_words] at h
  | p :: ps, hne, l1, a, b, l2, h => by
    have hcons : all_words (p :: ps) = p.words ++ all_words ps := by simp [all_words]
    have ih := all_words_adjacent ps (fun q hq => hne q (List.mem_cons_of_mem _ hq))
    rw [hcons] at h
    rcases List.append_eq_append_iff.1 h with ⟨t, h1, h2⟩ | ⟨t, h1, h2⟩
    · -- l1 = p.words ++ t
      rcases ih t a b l2 h2 with ⟨q, hq, m1, m2, hm⟩ | ⟨Q1, x, y, Q2, hq, ha, hb⟩
      · exact Or.inl ⟨q, List.mem_cons_of_mem _ hq, m1, m2, hm⟩
      · exact Or.inr ⟨p :: Q1, x, y, Q2, by rw [hq]; rfl, ha, hb⟩
    · -- p.words = l1 ++ t
      cases t with
      | nil =>
        simp only [List.nil_append] at h2
        rcases ih [] a b l2 (by simpa using h2.symm) with ⟨q, hq, m1, m2, hm⟩ |
          ⟨Q1, x, y, Q2, hq, ha, hb⟩
        · exact Or.inl ⟨q, List.mem_cons_of_mem _ hq, m1, m2, hm⟩
        · exact Or.inr ⟨p :: Q1, x, y, Q2, by rw [hq]; rfl, ha, hb⟩
      | cons c t =>
        simp only [List.cons_append, List.cons.injEq] at h2
        obtain ⟨hc, h3⟩ := h2
        subst hc
        cases t with
        | nil =>
          simp only [List.nil_append] at h3
          cases ps with
          | nil => simp [all_words] at h3
          | cons q qs =>
            have hq := hne q (by simp)
            have hcq : all_words (q :: qs) = q.words ++ all_words qs := by simp [all_words]
            rw [hcq] at h3
            cases hqw : q.words with
            | nil => exact absurd hqw hq
            | cons d qw =>
              rw [hqw] at h3
              simp only [List.cons_append, List.cons.injEq] at h3
              refine Or.inr ⟨[], p, q, qs, rfl, ?_, ?_⟩
              · rw [h1, List.getLast?_concat]; rfl
              · rw [hqw, h3.1]; rfl
        | cons d t =>
          simp only [List.cons_append, List.cons.injEq] at h3
          obtain ⟨hd, h4⟩ := h3
          subst hd
          exact Or.inl ⟨p, List.mem_cons_self _ _, l1, t, h1⟩

theorem chain_adjacent {R : Word → Word → Prop} {m1 m2 : List Word} {a b : Word}
    (h : (m1 ++ a :: b :: m2).Chain' R) : R a b := by
  rw [List.chain'_split] at h
  exact (List.chain'_cons.1 h.2).1

/-- C11: when `extract_paragraphs` succeeds, every paragraph returned holds
at least one word, and two consecutive words of the buffer are placed in
different paragraphs if and only if the bytes between them contain two
consecutive line-feed bytes: consecutive words of one paragraph have no such
pair between them, and between the last word of a paragraph and the first
word of the next one there is one. -/
theorem paragraph_break_iff_blank_line (data : List Nat) (ps : List Paragraph)
    (h : extract_paragraphs data = .ok ps) :
    (∀ p ∈ ps, 1 ≤ p.word_count) ∧
    (∀ l1 a b l2, all_words ps = l1 ++ a :: b :: l2 →
      ((¬ ∃ p ∈ ps, a ∈ p.words ∧ b ∈ p.words) ↔ HasBlankLine data a.stop b.start)) ∧
    (∀ p ∈ ps, p.words.Chain' (NoBlankBetween data)) ∧
    ps.Chain' (BlankBetween data) := by
  obtain ⟨_, i, hg⟩ := extract_paragraphs_grouped data ps h
  have hs := extract_loop_spec data.length 0 [] ps (by omega) (scanned_start data) h
  refine ⟨fun p hp => ?_, fun l1 a b l2 hab => ?_, hg.within, hg.between⟩
  · have := hg.nonempty p hp
    unfold Paragraph.word_count
    cases hw : p.words with
    | nil => exact absurd hw this
    | cons _ _ => simp
  · have hlen : ∀ w ∈ all_words ps, 1 ≤ w.len := fun w hw => (hs.runs w hw).1.1
    have hsorted := hs.sorted
    unfold all_words at hsorted
    rw [List.pairwise_flatten, List.pairwise_map] at hsorted
    have hpair := hsorted.2
    have hmem : ∀ p ∈ ps, ∀ w ∈ p.words, w ∈ all_words ps := fun p hp w hw =>
      List.mem_flatten.2 ⟨p.words, List.mem_map.2 ⟨p, hp, rfl⟩, hw⟩
    have hirr : ∀ w ∈ all_words ps, ¬ ((w.start : Int) + w.len ≤ (w.start : Int)) :=
      fun w hw => by have := hlen w hw; omega
    rcases all_words_adjacent ps hg.nonempty l1 a b l2 hab with
      ⟨p, hp, m1, m2, hm⟩ | ⟨Q1, p, q, Q2, hq, ha, hb⟩
    · have hR : NoBlankBetween data a b := chain_adjacent (by rw [← hm]; exact hg.within p hp)
      constructor
      · intro hno
        exact absurd ⟨p, hp, by rw [hm]; simp, by rw [hm]; simp⟩ hno
      · intro hbl
        exact absurd hbl hR
    · have hB : BlankBetween data p q := by
        have hc := hg.between
        rw [hq, List.chain'_split] at hc
        exact (List.chain'_cons.1 hc.2).1
      have hbl := hB a ha b hb
      refine ⟨fun _ => hbl, fun _ => ?_⟩
      rintro ⟨z, hz, haz, hbz⟩
      have hap : a ∈ p.words := List.mem_of_mem_getLast? ha
      have hbq : b ∈ q.words := List.mem_of_mem_head? hb
      have hpm : p ∈ ps := by rw [hq]; simp
      have hqm : q ∈ ps := by rw [hq]; simp
      rw [hq, List.pairwise_append] at hpair
      obtain ⟨_, h2, h3⟩ := hpair
      rw [List.pairwise_cons] at h2
      obtain ⟨hpq, h4⟩ := h2
      rw [List.pairwise_cons] at h4
      obtain ⟨hqq, _⟩ := h4
      rw [hq] at hz
      rcases List.mem_append.1 hz with hz1 | hz1
      · exact hirr a (hmem p hpm a hap) (h3 z hz1 p (by simp) a haz a hap)
      · rcases List.mem_cons.1 hz1 with rfl | hz2
        · exact hirr b (hmem q hqm b hbq) (hpq q (by simp) b hbz b hbq)
        · rcases List.mem_cons.1 hz2 with rfl | hz3
          · exact hirr a (hmem p hpm a hap) (hpq z (by simp) a hap a haz)
          · exact hirr b (hmem q hqm b hbq) (hqq z hz3 b hbq b hbz)

theorem paragraph_break_iff_blank_line_witness :
    (∀ p ∈ [(⟨[⟨0, 2⟩, ⟨3, 1⟩]⟩ : Paragraph), ⟨[⟨6, 1⟩]⟩], 1 ≤ p.word_count) ∧
    (∀ l1 a b l2, all_words [⟨[⟨0, 2⟩, ⟨3, 1⟩]⟩, ⟨[⟨6, 1⟩]⟩] = l1 ++ a :: b :: l2 →
      ((¬ ∃ p ∈ [(⟨[⟨0, 2⟩, ⟨3, 1⟩]⟩ : Paragraph), ⟨[⟨6, 1⟩]⟩], a ∈ p.words ∧ b ∈ p.words) ↔
        HasBlankLine [97, 98, 32, 99, 10, 10, 100] a.stop b.start)) ∧
    (∀ p ∈ [(⟨[⟨0, 2⟩, ⟨3, 1⟩]⟩ : Paragraph), ⟨[⟨6, 1⟩]⟩],
      p.words.Chain' (NoBlankBetween [97, 98, 32, 99, 10, 10, 100])) ∧
    [(⟨[⟨0, 2⟩, ⟨3, 1⟩]⟩ : Paragraph), ⟨[⟨6, 1⟩]⟩].Chain'
      (BlankBetween [97, 98, 32, 99, 10, 10, 100]) :=
  paragraph_break_iff_blank_line [97, 98, 32, 99, 10, 10, 100]
    [⟨[⟨0, 2⟩, ⟨3, 1⟩]⟩, ⟨[⟨6, 1⟩]⟩] rfl

/-! ## The tokenizer on a text made of words and gaps -/

theorem byte_at_append_right (pre post : List Nat) (j : Nat) :
    byte_at (pre ++ post) (pre.length + j) = byte_at post j := by
  unfold byte_at
  rw [List.getD_append_right _ _ _ _ (by omega)]
  congr 1
  omega

theorem byte_at_append_head (pre : List Nat) (x : Nat) (post : List Nat) :
    byte_at (pre ++ x :: post) pre.length = x := by
  have := byte_at_append_right pre (x :: post) 0
  rw [Nat.add_zero] at this
  rw [this]
  rfl

theorem byte_at_append_second (pre : List Nat) (x y : Nat) (post : List Nat) :
    byte_at (pre ++ x :: y :: post) (pre.length + 1) = y := by
  rw [byte_at_append_right]
  rfl

theorem word_loop_word :
    ∀ (w pre post : List Nat) (len0 : Int) (fuel : Nat),
      (∀ b ∈ w, is_printable b = true) → (∀ b ∈ post.head?, is_printable b = false) →
      len0 + w.length ≤ MAX_WORD_LEN → w.length ≤ fuel →
      word_loop (pre ++ w ++ post) fuel pre.length len0
        = .ok (pre.length + w.length, len0 + w.length)
  | [], pre, post, len0, fuel, _, hpost, _, _ => by
    simp only [List.append_nil, List.length_nil, Nat.add_zero, Nat.cast_zero, add_zero]
    cases fuel with
    | zero => rfl
    | succ f =>
      rw [word_loop, if_neg]
      rintro ⟨h1, h2⟩
      cases post with
      | nil => simp at h1
      | cons x post =>
        rw [byte_at_append_head] at h2
        have := hpost x (by simp)
        rw [h2] at this
        cases this
  | b :: w, pre, post, len0, fuel, hw, hpost, hlen, hf => by
    cases fuel with
    | zero => simp at hf
    | succ f =>
      have hb : is_printable b = true := hw b (List.mem_cons_self _ _)
      have e1 : pre ++ b :: w ++ post = pre ++ b :: (w ++ post) := by simp
      rw [word_loop, e1, byte_at_append_head, if_pos ⟨by simp, hb⟩]
      simp only [List.length_cons, Nat.cast_add, Nat.cast_one] at hlen hf ⊢
      rw [if_neg (by omega)]
      have ih := word_loop_word w (pre ++ [b]) post (len0 + 1) f
        (fun x hx => hw x (List.mem_cons_of_mem _ hx)) hpost (by omega) (by omega)
      have e2 : pre ++ [b] ++ w ++ post = pre ++ b :: (w ++ post) := by simp
      rw [e2] at ih
      simp only [List.length_append, List.length_singleton] at ih
      rw [ih]
      congr 2 <;> omega

theorem paragraph_loop_end (data : List Nat) (fuel i : Nat) (ws : List Word)
    (h : data.length ≤ i) : paragraph_loop data fuel i ws = .ok (i, ws) := by
  cases fuel with
  | zero => rfl
  | succ f => rw [paragraph_loop, if_neg (by omega)]

theorem paragraph_loop_spaces :
    ∀ (k : Nat) (pre post : List Nat) (fuel : Nat) (ws : List Word),
      paragraph_loop (pre ++ List.replicate k 32 ++ post) (fuel + k) pre.length ws
        = paragraph_loop (pre ++ List.replicate k 32 ++ post) fuel (pre.length + k) ws
  | 0, _, _, _, _ => rfl
  | k + 1, pre, post, fuel, ws => by
    have e1 : pre ++ List.replicate (k + 1) 32 ++ post
        = pre ++ 32 :: (List.replicate k 32 ++ post) := by
      simp [List.replicate_succ]
    have e2 : pre ++ List.replicate (k + 1) 32 ++ post
        = (pre ++ [32]) ++ List.replicate k 32 ++ post := by
      simp [List.replicate_succ]
    have e3 : fuel + (k + 1) = (fuel + k) + 1 := by omega
    rw [e3, paragraph_loop]
    have hb : byte_at (pre ++ List.replicate (k + 1) 32 ++ post) pre.length = 32 := by
      rw [e1, byte_at_append_head]
    rw [if_pos (by simp), hb, if_neg (by simp), if_pos (by decide)]
    have ih := paragraph_loop_spaces k (pre ++ [32]) post fuel ws
    rw [← e2] at ih
    simp only [List.length_append, List.length_singleton] at ih
    rw [ih]
    congr 1
    omega

theorem paragraph_loop_newline (pre post : List Nat) (fuel : Nat) (ws : List Word)
    (hpost : ∀ b ∈ post.head?, b ≠ 10) :
    paragraph_loop (pre ++ [10] ++ post) (fuel + 1) pre.length ws
      = paragraph_loop (pre ++ [10] ++ post) fuel (pre.length + 1) ws := by
  have e1 : pre ++ [10] ++ post = pre ++ 10 :: post := by simp
  rw [paragraph_loop, e1, byte_at_append_head, if_pos (by simp), if_neg, if_pos (by decide)]
  rintro ⟨h1, _, h3⟩
  cases post with
  | nil => simp at h1
  | cons x post =>
    rw [byte_at_append_second] at h3
    exact hpost x (by simp) h3

theorem paragraph_loop_blank (pre post : List Nat) (fuel : Nat) (ws : List Word) :
    paragraph_loop (pre ++ [10, 10] ++ post) (fuel + 1) pre.length ws
      = .ok (pre.length + 2, ws) := by
  have e1 : pre ++ [10, 10] ++ post = pre ++ 10 :: 10 :: post := by simp
  rw [paragraph_loop, e1, byte_at_append_head, byte_at_append_second, if_pos (by simp),
    if_pos ⟨by simp, rfl, rfl⟩]

theorem tokens_text_cons (t : Token) (rest : List Token) :
    tokens_text (t :: rest) = t.word ++ t.gap ++ tokens_text rest := by
  simp [tokens_text]

theorem tokens_text_nil : tokens_text [] = [] := rfl

theorem cleanTokens_cons {t : Token} {rest : List Token} (h : CleanTokens (t :: rest)) :
    CleanWord t.word ∧ CleanTokens rest ∧ (rest ≠ [] → IsGap t.gap) ∧
      (t.gap = [] ∨ IsGap t.gap) := by
  cases rest with
  | nil => exact ⟨h.1, trivial, fun hn => absurd rfl hn, h.2⟩
  | cons u rest => exact ⟨h.1, h.2.2, fun _ => h.2.1, Or.inr h.2.1⟩

theorem cleanTokens_head {toks : List Token} (h : CleanTokens toks) :
    ∀ b ∈ (tokens_text toks).head?, is_printable b = true := by
  cases toks with
  | nil => intro b hb; simp [tokens_text] at hb
  | cons t rest =>
    obtain ⟨⟨hne, _, hp⟩, _⟩ := cleanTokens_cons h
    intro b hb
    rw [tokens_text_cons] at hb
    cases hw : t.word with
    | nil => exact absurd hw hne
    | cons x w =>
      rw [hw] at hb
      simp only [List.cons_append, List.head?_cons, Option.mem_def, Option.some.injEq] at hb
      subst hb
      exact hp x (by rw [hw]; simp)

theorem isGap_head {g : List Nat} (h : IsGap g) :
    ∃ x rest, g = x :: rest ∧ is_printable x = false := by
  rcases h with rfl | rfl | ⟨hne, hall⟩
  · exact ⟨10, [], rfl, by decide⟩
  · exact ⟨10, [10], rfl, by decide⟩
  · cases g with
    | nil => exact absurd rfl hne
    | cons x rest =>
      have := hall x (by simp)
      subst this
      exact ⟨32, rest, rfl, by decide⟩

theorem spaces_eq_replicate {g : List Nat} (hall : ∀ b ∈ g, b = 32) :
    g = List.replicate g.length 32 :=
  List.eq_replicate_iff.2 ⟨rfl, hall⟩

/-- On a text made of clean tokens, the paragraph loop of the tokenizer
does what `scan_para` tells. -/
theorem paragraph_loop_tokens :
    ∀ (toks : List Token) (pre : List Nat) (ws : List Word) (fuel : Nat),
      CleanTokens toks → (tokens_text toks).length ≤ fuel →
      paragraph_loop (pre ++ tokens_text toks) fuel pre.length ws
        = (scan_para pre.length ws toks).map (fun r => (r.1, r.2.1))
  | [], pre, ws, fuel, _, _ => by
    rw [tokens_text_nil, List.append_nil, paragraph_loop_end _ _ _ _ (le_refl _)]
    rfl
  | t :: rest, pre, ws, fuel, hc, hf => by
    obtain ⟨⟨hne, hlen, hp⟩, hrest, hgap, hgap'⟩ := cleanTokens_cons hc
    rw [tokens_text_cons] at hf ⊢
    simp only [List.length_append] at hf
    have hwpos : 1 ≤ t.word.length := by
      cases hw : t.word with
      | nil => exact absurd hw hne
      | cons _ _ => simp
    obtain ⟨f, rfl⟩ : ∃ f, fuel = f + 1 := ⟨fuel - 1, by omega⟩
    -- the head of the text after the word is not printable
    have hpost : ∀ b ∈ (t.gap ++ tokens_text rest).head?, is_printable b = false := by
      intro b hb
      rcases hgap' with hg | hg
      · cases rest with
        | nil => rw [hg, tokens_text_nil] at hb; simp at hb
        | cons u rest' =>
          obtain ⟨x, r, hx, hx2⟩ := isGap_head (hgap (by simp))
          rw [hg] at hx
          cases hx
      · obtain ⟨x, r, hx, hx2⟩ := isGap_head hg
        rw [hx] at hb
        simp only [List.cons_append, List.head?_cons, Option.mem_def, Option.some.injEq] at hb
        subst hb
        exact hx2
    have e0 : pre ++ (t.word ++ t.gap ++ tokens_text rest)
        = pre ++ t.word ++ (t.gap ++ tokens_text rest) := by simp
    have hword := word_loop_word t.word pre (t.gap ++ tokens_text rest) 0
      ((pre ++ t.word ++ (t.gap ++ tokens_text rest)).length - pre.length) hp hpost
      (by unfold MAX_WORD_LEN; omega) (by simp only [List.length_append]; omega)
    -- first byte of the word
    obtain ⟨x, w', hxw⟩ : ∃ x w', t.word = x :: w' := by
      cases hw : t.word with
      | nil => exact absurd hw hne
      | cons x w' => exact ⟨x, w', rfl⟩
    have hx : is_printable x = true := hp x (by rw [hxw]; simp)
    have hbyte : byte_at (pre ++ t.word ++ (t.gap ++ tokens_text rest)) pre.length = x := by
      rw [hxw]
      have : pre ++ x :: w' ++ (t.gap ++ tokens_text rest)
          = pre ++ x :: (w' ++ (t.gap ++ tokens_text rest)) := by simp
      rw [this, byte_at_append_head]
    have hnsep : ¬ is_separator x = true := by
      intro hs
      have := separator_not_printable x hs
      rw [hx] at this
      cases this
    have hn10 : x ≠ 10 := by
      rintro rfl
      exact absurd hx (by decide)
    rw [e0, paragraph_loop, if_pos (by simp only [List.length_append]; omega), hbyte,
      if_neg (fun h => hn10 h.2.1), if_neg hnsep, if_pos hx, hword]
    simp only [zero_add]
    rw [scan_para]
    by_cases c4 : (ws ++ [Word.mk pre.length (t.word.length : Int)]).length ≥ MAX_WORDS
    · rw [if_pos c4, if_pos c4]
      rfl
    rw [if_neg c4, if_neg c4]
    -- the gap
    have e1 : pre ++ t.word ++ (t.gap ++ tokens_text rest)
        = (pre ++ t.word) ++ t.gap ++ tokens_text rest := by simp
    have hl1 : (pre ++ t.word).length = pre.length + t.word.length := by simp
    rw [e1, ← hl1]
    by_cases cb : t.gap = [10, 10]
    · rw [if_pos cb, cb]
      obtain ⟨f', rfl⟩ : ∃ f', f = f' + 1 := ⟨f - 1, by rw [cb] at hf; simp at hf; omega⟩
      rw [paragraph_loop_blank]
      rfl
    rw [if_neg cb]
    have hmain : ∀ f2, (tokens_text rest).length ≤ f2 →
        paragraph_loop ((pre ++ t.word) ++ t.gap ++ tokens_text rest) f2
          ((pre ++ t.word).length + t.gap.length) (ws ++ [Word.mk pre.length (t.word.length : Int)])
        = (scan_para ((pre ++ t.word).length + t.gap.length)
            (ws ++ [Word.mk pre.length (t.word.length : Int)]) rest).map
              (fun r => (r.1, r.2.1)) := by
      intro f2 hf2
      have ih := paragraph_loop_tokens rest (pre ++ t.word ++ t.gap)
        (ws ++ [Word.mk pre.length (t.word.length : Int)]) f2 hrest hf2
      simp only [List.length_append] at ih ⊢
      exact ih
    rcases hgap' with hg | hg
    · -- no gap: the text ends here
      rw [hg] at hmain ⊢
      simp only [List.append_nil, List.length_nil, Nat.add_zero] at hmain ⊢
      cases rest with
      | nil =>
        rw [tokens_text_nil, List.append_nil]
        rw [paragraph_loop_end _ _ _ _ (le_refl _)]
        rfl
      | cons u rest' =>
        obtain ⟨x', r, hx', _⟩ := isGap_head (hgap (by simp))
        rw [hg] at hx'
        cases hx'
    · rcases hg with hg | hg | ⟨hgne, hall⟩
      · -- one line feed
        rw [hg] at hf hmain ⊢
        simp only [List.length_singleton] at hf hmain ⊢
        obtain ⟨f', rfl⟩ : ∃ f', f = f' + 1 := ⟨f - 1, by omega⟩
        rw [paragraph_loop_newline _ _ _ _ (fun b hb => by
          have := cleanTokens_head hrest b hb
          rintro rfl
          exact absurd this (by decide))]
        exact hmain f' (by omega)
      · exact absurd hg cb
      · -- spaces
        have hrep := spaces_eq_replicate hall
        have hk : 1 ≤ t.gap.length := by
          cases hgg : t.gap with
          | nil => exact absurd hgg hgne
          | cons _ _ => simp
        obtain ⟨f', hf'⟩ : ∃ f', f = f' + t.gap.length := ⟨f - t.gap.length, by omega⟩
        rw [hf']
        have hsp := paragraph_loop_spaces t.gap.length (pre ++ t.word) (tokens_text rest) f'
          (ws ++ [Word.mk pre.length (t.word.length : Int)])
        rw [← hrep] at hsp
        rw [hsp]
        exact hmain f' (by omega)
theorem skip_separators_printable (data : List Nat) (fuel i : Nat)
    (h : is_printable (byte_at data i) = true) : skip_separators data fuel i = i := by
  cases fuel with
  | zero => rfl
  | succ f =>
    rw [skip_separators, if_neg]
    rintro ⟨_, hs⟩
    have := separator_not_printable _ hs
    rw [h] at this
    cases this

theorem tokens_text_append (a b : List Token) :
    tokens_text (a ++ b) = tokens_text a ++ tokens_text b := by
  simp [tokens_text]

/-- What `scan_para` leaves: the tokens not yet read are clean and start at
the offset returned. -/
theorem scan_para_rest :
    ∀ (toks : List Token) (pre : List Nat) (ws : List Word) (off : Nat) (ws' : List Word)
      (rest : List Token),
      CleanTokens toks → scan_para pre.length ws toks = .ok (off, ws', rest) →
      ∃ pre', pre ++ tokens_text toks = pre' ++ tokens_text rest ∧ pre'.length = off ∧
        CleanTokens rest ∧ rest.length ≤ toks.length ∧ (toks ≠ [] → rest.length < toks.length)
  | [], pre, ws, off, ws', rest, _, h => by
    rw [scan_para] at h
    cases h
    exact ⟨pre, rfl, rfl, trivial, le_refl _, fun hn => absurd rfl hn⟩
  | t :: toks, pre, ws, off, ws', rest, hc, h => by
    obtain ⟨_, hrest, _, _⟩ := cleanTokens_cons hc
    rw [scan_para] at h
    by_cases c4 : (ws ++ [Word.mk pre.length (t.word.length : Int)]).length ≥ MAX_WORDS
    · rw [if_pos c4] at h
      cases h
    rw [if_neg c4] at h
    by_cases cb : t.gap = [10, 10]
    · rw [if_pos cb] at h
      cases h
      refine ⟨pre ++ t.word ++ t.gap, ?_, ?_, hrest, by simp, fun _ => by simp⟩
      · rw [tokens_text_cons]
        simp
      · rw [cb]
        simp
        omega
    · rw [if_neg cb] at h
      have e : pre.length + t.word.length + t.gap.length = (pre ++ t.word ++ t.gap).length := by
        simp only [List.length_append]
      rw [e] at h
      obtain ⟨pre', h1, h2, h3, h4, _⟩ := scan_para_rest toks (pre ++ t.word ++ t.gap) _ off ws'
        rest hrest h
      refine ⟨pre', ?_, h2, h3, by simp; omega, fun _ => by simp; omega⟩
      rw [← h1, tokens_text_cons]
      simp

/-- On a text made of clean tokens, the outer loop of the tokenizer does
what `scan_doc` tells. -/
theorem extract_loop_tokens :
    ∀ (fuel : Nat) (toks : List Token) (pre : List Nat) (ps : List Paragraph),
      CleanTokens toks →
      extract_loop (pre ++ tokens_text toks) fuel pre.length ps
        = scan_doc fuel pre.length ps toks
  | 0, _, _, _, _ => by
    rw [extract_loop, scan_doc]
  | fuel + 1, [], pre, ps, _ => by
    rw [extract_loop, tokens_text_nil, List.append_nil, if_neg (by omega), scan_doc]
  | fuel + 1, t :: toks, pre, ps, hc => by
    obtain ⟨⟨hne, _, hp⟩, _, _, _⟩ := cleanTokens_cons hc
    have hhead := cleanTokens_head hc
    obtain ⟨x, w', hxw⟩ : ∃ x w', t.word = x :: w' := by
      cases hw : t.word with
      | nil => exact absurd hw hne
      | cons x w' => exact ⟨x, w', rfl⟩
    have htext : tokens_text (t :: toks) = x :: (w' ++ t.gap ++ tokens_text toks) := by
      rw [tokens_text_cons, hxw]
      simp
    have hbyte : byte_at (pre ++ tokens_text (t :: toks)) pre.length = x := by
      rw [htext, byte_at_append_head]
    have hx : is_printable x = true := hp x (by rw [hxw]; simp)
    have hlt : pre.length < (pre ++ tokens_text (t :: toks)).length := by
      rw [htext]
      simp
    rw [extract_loop, if_pos hlt]
    simp only []
    rw [skip_separators_printable _ _ _ (by rw [hbyte]; exact hx), if_neg (by omega)]
    have hfuel : (pre ++ tokens_text (t :: toks)).length - pre.length
        = (tokens_text (t :: toks)).length := by
      simp
    rw [hfuel, paragraph_loop_tokens (t :: toks) pre [] _ hc (le_refl _), scan_doc]
    cases hsp : scan_para pre.length [] (t :: toks) with
    | error e => rfl
    | ok r =>
      obtain ⟨off, ws, rest⟩ := r
      obtain ⟨pre', h1, h2, h3, _, _⟩ := scan_para_rest (t :: toks) pre [] off ws rest hc hsp
      simp only [Except.map]
      by_cases c : (if ws.length > 0 then ps ++ [Paragraph.mk ws] else ps).length ≥ 1000
      · rw [if_pos c, if_pos c]
      · rw [if_neg c, if_neg c, h1, ← h2]
        exact extract_loop_tokens fuel rest pre' _ h3

theorem extract_paragraphs_tokens (toks : List Token) (hc : CleanTokens toks) :
    extract_paragraphs (tokens_text toks) = scan_doc (tokens_text toks).length 0 [] toks := by
  have := extract_loop_tokens (tokens_text toks).length toks [] [] hc
  simpa [extract_paragraphs] using this

/-! ## The count limits of the tokenizer -/

theorem tokens_text_replicate (w g : List Nat) :
    ∀ k, tokens_text (List.replicate k (Token.mk w g)) = (List.replicate k (w ++ g)).flatten
  | 0 => rfl
  | k + 1 => by
    rw [List.replicate_succ, tokens_text_cons, tokens_text_replicate w g k, List.replicate_succ,
      List.flatten_cons]

theorem cleanTokens_replicate (w g : List Nat) (hw : CleanWord w) (hg : IsGap g) :
    ∀ k, CleanTokens (List.replicate k (Token.mk w g))
  | 0 => trivial
  | 1 => ⟨hw, Or.inr hg⟩
  | k + 2 => ⟨hw, hg, cleanTokens_replicate w g hw hg (k + 1)⟩

theorem cleanWord_a : CleanWord [97] :=
  ⟨by simp, by simp, fun b hb => by
    rw [List.mem_singleton] at hb
    subst hb
    decide⟩

theorem isGap_space : IsGap [32] := Or.inr (Or.inr ⟨by simp, fun b hb => by simpa using hb⟩)

theorem isGap_blank : IsGap [10, 10] := Or.inr (Or.inl rfl)

/-- A run of `k` one-letter words separated by spaces is refused as soon as
the words already stored and the `k` new ones reach `MAX_WORDS`. -/
theorem scan_para_words_rejected :
    ∀ (k off : Nat) (cur : List Word), cur.length < MAX_WORDS → MAX_WORDS ≤ cur.length + k →
      scan_para off cur (List.replicate k (Token.mk [97] [32])) = .error Fatal.too_many_words
  | 0, _, _, h1, h2 => by omega
  | k + 1, off, cur, h1, h2 => by
    rw [List.replicate_succ, scan_para]
    by_cases c : (cur ++ [Word.mk off (([97] : List Nat).length : Int)]).length ≥ MAX_WORDS
    · rw [if_pos c]
    · rw [if_neg c, if_neg (by simp)]
      apply scan_para_words_rejected k
      · simp only [List.length_append, List.length_singleton] at c ⊢
        omega
      · simp only [List.length_append, List.length_singleton]
        omega

/-- Below the limit the run is stored whole. -/
theorem scan_para_words_accepted :
    ∀ (k off : Nat) (cur : List Word), cur.length + k < MAX_WORDS →
      ∃ off' ws, scan_para off cur (List.replicate k (Token.mk [97] [32])) = .ok (off', ws, []) ∧
        ws.length = cur.length + k
  | 0, off, cur, _ => ⟨off, cur, rfl, rfl⟩
  | k + 1, off, cur, h => by
    rw [List.replicate_succ, scan_para, if_neg (by
      simp only [List.length_append, List.length_singleton]
      omega), if_neg (by simp)]
    obtain ⟨off', ws, h1, h2⟩ := scan_para_words_accepted k (off + ([97] : List Nat).length
      + ([32] : List Nat).length) (cur ++ [Word.mk off (([97] : List Nat).length : Int)]) (by
        simp only [List.length_append, List.length_singleton]
        omega)
    refine ⟨off', ws, h1, ?_⟩
    rw [h2]
    simp only [List.length_append, List.length_singleton]
    omega

theorem scan_para_one_word (off : Nat) (rest : List Token) :
    scan_para off [] (Token.mk [97] [10, 10] :: rest)
      = .ok (off + 1 + 2, [Word.mk off 1], rest) := by
  rw [scan_para, if_neg (by unfold MAX_WORDS; simp), if_pos rfl]
  rfl

/-- A document of `k` one-word paragraphs is refused as soon as the paragraphs
already stored and the `k` new ones reach 1000. -/
theorem scan_doc_paragraphs_rejected :
    ∀ (k fuel off : Nat) (ps : List Paragraph), ps.length < 1000 → 1000 ≤ ps.length + k →
      k ≤ fuel →
      scan_doc fuel off ps (List.replicate k (Token.mk [97] [10, 10]))
        = .error Fatal.too_many_paragraphs
  | 0, _, _, _, h1, h2, _ => by omega
  | k + 1, 0, _, _, _, _, h3 => by omega
  | k + 1, fuel + 1, off, ps, h1, h2, h3 => by
    rw [List.replicate_succ, scan_doc, scan_para_one_word]
    simp only [List.length_singleton, gt_iff_lt, Nat.lt_one_iff, Nat.pos_of_ne_zero, if_true]
    by_cases c : (ps ++ [Paragraph.mk [Word.mk off 1]]).length ≥ 1000
    · rw [if_pos c]
    · rw [if_neg c]
      apply scan_doc_paragraphs_rejected k
      · simp only [List.length_append, List.length_singleton] at c ⊢
        omega
      · simp only [List.length_append, List.length_singleton]
        omega
      · omega

/-- Below the limit every paragraph is stored. -/
theorem scan_doc_paragraphs_accepted :
    ∀ (k fuel off : Nat) (ps : List Paragraph), ps.length + k < 1000 → k ≤ fuel →
      ∃ ps', scan_doc fuel off ps (List.replicate k (Token.mk [97] [10, 10])) = .ok ps' ∧
        ps'.length = ps.length + k
  | 0, 0, _, ps, _, _ => ⟨ps, rfl, rfl⟩
  | 0, fuel + 1, _, ps, _, _ => ⟨ps, rfl, rfl⟩
  | k + 1, 0, _, _, _, h3 => by omega
  | k + 1, fuel + 1, off, ps, h1, h3 => by
    rw [List.replicate_succ, scan_doc, scan_para_one_word]
    simp only [List.length_singleton, Nat.zero_lt_one, if_true, gt_iff_lt]
    rw [if_neg (by
      simp only [List.length_append, List.length_singleton]
      omega)]
    obtain ⟨ps', h1', h2'⟩ := scan_doc_paragraphs_accepted k fuel (off + 1 + 2)
      (ps ++ [Paragraph.mk [Word.mk off 1]]) (by
        simp only [List.length_append, List.length_singleton]
        omega) (by omega)
    refine ⟨ps', h1', ?_⟩
    rw [h2']
    simp only [List.length_append, List.length_singleton]
    omega

theorem flatten_replicate_length (l : List Nat) :
    ∀ k, (List.replicate k l).flatten.length = k * l.length
  | 0 => by simp
  | k + 1 => by
    rw [List.replicate_succ, List.flatten_cons, List.length_append, flatten_replicate_length l k]
    ring

theorem words_rejected_from (k : Nat) (hk : MAX_WORDS ≤ k) :
    extract_paragraphs (List.replicate k [97, 32]).flatten = .error Fatal.too_many_words := by
  have e := tokens_text_replicate [97] [32] k
  have hc := cleanTokens_replicate [97] [32] cleanWord_a isGap_space k
  have hT := extract_paragraphs_tokens _ hc
  rw [e] at hT
  have e2 : ([97] ++ [32] : List Nat) = [97, 32] := rfl
  rw [e2] at hT
  rw [hT, flatten_replicate_length]
  obtain ⟨k', rfl⟩ : ∃ k', k = k' + 1 := ⟨k - 1, by unfold MAX_WORDS at hk; omega⟩
  have e3 : (k' + 1) * ([97, 32] : List Nat).length = (2 * k' + 1) + 1 := by
    simp only [List.length_cons, List.length_nil]
    omega
  rw [e3]
  have hs := scan_para_words_rejected (k' + 1) 0 [] (by unfold MAX_WORDS; simp) (by simpa using hk)
  rw [List.replicate_succ] at hs ⊢
  rw [scan_doc, hs]

theorem words_accepted_below (k : Nat) (hk1 : 1 ≤ k) (hk : k < MAX_WORDS) :
    ∃ p, extract_paragraphs (List.replicate k [97, 32]).flatten = .ok [p] ∧ p.word_count = k := by
  have e := tokens_text_replicate [97] [32] k
  have hc := cleanTokens_replicate [97] [32] cleanWord_a isGap_space k
  have hT := extract_paragraphs_tokens _ hc
  rw [e] at hT
  have e2 : ([97] ++ [32] : List Nat) = [97, 32] := rfl
  rw [e2] at hT
  rw [hT, flatten_replicate_length]
  obtain ⟨k', rfl⟩ : ∃ k', k = k' + 1 := ⟨k - 1, by omega⟩
  have e3 : (k' + 1) * ([97, 32] : List Nat).length = (2 * k' + 1) + 1 := by
    simp only [List.length_cons, List.length_nil]
    omega
  rw [e3]
  obtain ⟨off', ws, hs, hl⟩ := scan_para_words_accepted (k' + 1) 0 [] (by simpa using hk)
  rw [List.replicate_succ] at hs ⊢
  rw [scan_doc, hs]
  have hpos : ws.length > 0 := by
    rw [hl]
    simp
  simp only [if_pos hpos, List.nil_append, List.length_singleton]
  rw [if_neg (by omega)]
  refine ⟨Paragraph.mk ws, ?_, by simpa [Paragraph.word_count] using hl⟩
  cases (2 * k' + 1) <;> rfl

theorem paragraphs_rejected_from (k : Nat) (hk : 1000 ≤ k) :
    extract_paragraphs (List.replicate k [97, 10, 10]).flatten
      = .error Fatal.too_many_paragraphs := by
  have e := tokens_text_replicate [97] [10, 10] k
  have hc := cleanTokens_replicate [97] [10, 10] cleanWord_a isGap_blank k
  have hT := extract_paragraphs_tokens _ hc
  rw [e] at hT
  have e2 : ([97] ++ [10, 10] : List Nat) = [97, 10, 10] := rfl
  rw [e2] at hT
  rw [hT, flatten_replicate_length]
  exact scan_doc_paragraphs_rejected k _ 0 [] (by simp) (by simpa using hk) (by
    simp only [List.length_cons, List.length_nil]
    omega)

theorem paragraphs_accepted_below (k : Nat) (hk : k < 1000) :
    ∃ ps, extract_paragraphs (List.replicate k [97, 10, 10]).flatten = .ok ps ∧
      ps.length = k := by
  have e := tokens_text_replicate [97] [10, 10] k
  have hc := cleanTokens_replicate [97] [10, 10] cleanWord_a isGap_blank k
  have hT := extract_paragraphs_tokens _ hc
  rw [e] at hT
  have e2 : ([97] ++ [10, 10] : List Nat) = [97, 10, 10] := rfl
  rw [e2] at hT
  rw [hT, flatten_replicate_length]
  obtain ⟨ps, h1, h2⟩ := scan_doc_paragraphs_accepted k (k * ([97, 10, 10] : List Nat).length) 0 []
    (by simpa using hk) (by
      simp only [List.length_cons, List.length_nil]
      omega)
  exact ⟨ps, h1, by simpa using h2⟩

/-! ## When the count limits stop the tokenizer -/

/-- The paragraph loop stops on the word count only when the words of the
paragraph being read, none separated from the next by a blank line, are
`MAX_WORDS`. -/
theorem paragraph_loop_too_many (data : List Nat) (pre : List Word) :
    ∀ fuel i ws, paragraph_loop data fuel i ws = .error Fatal.too_many_words →
      data.length - i ≤ fuel → Scanned data i (pre ++ ws) →
      ws.Chain' (NoBlankBetween data) →
      (∀ a ∈ ws.getLast?, a.stop ≤ i ∧ NoBlankFrom data a.stop i) →
      ws.length < MAX_WORDS →
      ∃ ws' i', ws'.length = MAX_WORDS ∧ Scanned data i' (pre ++ ws') ∧
        ws'.Chain' (NoBlankBetween data)
  | 0, i, ws, h, _, _, _, _, _ => by
    rw [paragraph_loop] at h
    cases h
  | fuel + 1, i, ws, h, hf, hs, hc, hl, hn => by
    rw [paragraph_loop] at h
    by_cases c0 : i < data.length
    swap
    · rw [if_neg c0] at h
      cases h
    rw [if_pos c0] at h
    by_cases c1 : i + 1 < data.length ∧ byte_at data i = 10 ∧ byte_at data (i + 1) = 10
    · rw [if_pos c1] at h
      cases h
    rw [if_neg c1] at h
    have hskip : ∀ a ∈ ws.getLast?, a.stop ≤ i + 1 ∧ NoBlankFrom data a.stop (i + 1) := by
      intro a ha
      obtain ⟨x, y⟩ := hl a ha
      refine ⟨by omega, fun j h1 h2 => ?_⟩
      by_cases e : j = i
      · subst e; exact c1
      · exact y j h1 (by omega)
    by_cases c2 : is_separator (byte_at data i) = true
    · rw [if_pos c2] at h
      exact paragraph_loop_too_many data pre fuel (i + 1) ws h (by omega)
        (scanned_skip_byte hs c0 (separator_not_printable _ c2)) hc hskip hn
    rw [if_neg c2] at h
    by_cases c3 : is_printable (byte_at data i) = true
    · rw [if_pos c3] at h
      cases hw : word_loop data (data.length - i) i 0 with
      | error e =>
        rw [hw] at h
        have := (word_loop_error data _ i 0 e hw).1
        rw [this] at h
        cases h
      | ok r =>
        obtain ⟨i2, len⟩ := r
        rw [hw] at h
        simp only at h
        obtain ⟨s, hlt⟩ := scanned_word hs c0 c3 hw
        rw [List.append_assoc] at s
        obtain ⟨hstop, _⟩ := word_loop_stop data i i2 len c0 c3 hw
        have hchain : (ws ++ [Word.mk i len]).Chain' (NoBlankBetween data) := by
          rw [List.chain'_append]
          refine ⟨hc, List.chain'_singleton _, fun a ha b hb' => ?_⟩
          simp only [List.head?_cons, Option.mem_def, Option.some.injEq] at hb'
          subst hb'
          obtain ⟨x, y⟩ := hl a ha
          rintro ⟨j, j1, j2, j3, j4⟩
          simp only at j2
          exact y j j1 (by omega) ⟨by omega, j3, j4⟩
        by_cases c4 : (ws ++ [Word.mk i len]).length ≥ MAX_WORDS
        · refine ⟨ws ++ [Word.mk i len], i2, ?_, s, hchain⟩
          simp only [List.length_append, List.length_singleton] at c4 ⊢
          omega
        · rw [if_neg c4] at h
          refine paragraph_loop_too_many data pre fuel i2 _ h (by omega) s hchain ?_ (by omega)
          intro a ha
          rw [List.getLast?_concat] at ha
          simp only [Option.mem_def, Option.some.injEq] at ha
          subst ha
          rw [hstop]
          exact ⟨le_refl _, fun j h1 h2 => by omega⟩
    · rw [if_neg c3] at h
      exact paragraph_loop_too_many data pre fuel (i + 1) ws h (by omega)
        (scanned_skip_byte hs c0 (by simpa using c3)) hc hskip hn

/-- One turn of the outer loop of the tokenizer keeps the grouping
invariant: the paragraph read, when it has a word, is appended. -/
theorem grouped_step (data : List Nat) (ps : List Paragraph) (i i1 i2 : Nat) (ws : List Word)
    (hg : GroupedUpTo data ps i) (hge : i ≤ i1) (hi1 : i1 < data.length)
    (hp : paragraph_loop data (data.length - i1) i1 [] = .ok (i2, ws)) :
    GroupedUpTo data (if ws.length > 0 then ps ++ [Paragraph.mk ws] else ps) i2 := by
  obtain ⟨g1, g2, ⟨_, g3⟩, g4, g5⟩ := paragraph_loop_groups data i1 _ _ [] i2 ws hp (le_refl _)
    (le_of_lt hi1) (le_refl _) List.chain'_nil (fun a ha => by simp at ha)
    (fun b hb => by simp at hb) (by unfold MAX_WORDS; simp)
  have g3' := g3 hi1
  by_cases c3 : ws.length > 0
  · rw [if_pos c3]
    have hne : ws ≠ [] := by
      intro e; rw [e] at c3; simp at c3
    refine ⟨fun p hp' => ?_, fun p hp' => ?_, fun p hp' => ?_, ?_, fun p hp' a ha => ?_⟩
    · rcases List.mem_append.1 hp' with hp' | hp'
      · exact hg.nonempty p hp'
      · rw [List.mem_singleton] at hp'; subst hp'; exact hne
    · rcases List.mem_append.1 hp' with hp' | hp'
      · exact hg.small p hp'
      · rw [List.mem_singleton] at hp'; subst hp'; exact g4
    · rcases List.mem_append.1 hp' with hp' | hp'
      · exact hg.within p hp'
      · rw [List.mem_singleton] at hp'; subst hp'; exact g1
    · rw [List.chain'_append]
      refine ⟨hg.between, List.chain'_singleton _, fun x hx y hy a ha b hb => ?_⟩
      simp only [List.head?_cons, Option.mem_def, Option.some.injEq] at hy
      subst hy
      simp only at hb
      have hbm : b ∈ ws := List.mem_of_mem_head? hb
      have hbs := g2 b hbm
      rcases hg.pending x hx a ha with hp1 | ⟨j, j1, j2, j3, j4⟩
      · omega
      · exact ⟨j, j1, by omega, j3, j4⟩
    · rw [List.getLast?_concat] at hp'
      simp only [Option.mem_def, Option.some.injEq] at hp'
      subst hp'
      simp only at ha
      rcases g5 with g5 | ⟨k1, k2, k3, k4⟩
      · exact Or.inl g5
      · refine Or.inr ⟨i2 - 2, k4 a ha, by omega, k2, ?_⟩
        have e : i2 - 2 + 1 = i2 - 1 := by omega
        rw [e]; exact k3
  · rw [if_neg c3]
    refine ⟨hg.nonempty, hg.small, hg.within, hg.between, fun p hp' a ha => ?_⟩
    rcases hg.pending p hp' a ha with hp1 | ⟨j, j1, j2, j3, j4⟩
    · omega
    · exact Or.inr ⟨j, j1, by omega, j3, j4⟩

/-- The outer loop stops on a count limit only when the limit is reached:
`MAX_WORDS` words in a paragraph, or 1000 paragraphs stored. -/
theorem extract_loop_limit (data : List Nat) :
    ∀ fuel i ps e, extract_loop data fuel i ps = .error e → data.length - i ≤ fuel →
      ps.length < 1000 → Scanned data i (all_words ps) → GroupedUpTo data ps i →
      (e = Fatal.too_many_words →
        ∃ pre ws i', ws.length = MAX_WORDS ∧ Scanned data i' (pre ++ ws) ∧
          ws.Chain' (NoBlankBetween data)) ∧
      (e = Fatal.too_many_paragraphs →
        ∃ ps' i', ps'.length = 1000 ∧ Scanned data i' (all_words ps') ∧
          GroupedUpTo data ps' i')
  | 0, i, ps, e, h, _, _, _, _ => by
    rw [extract_loop] at h
    cases h
  | fuel + 1, i, ps, e, h, hf, hlen, hs, hg => by
    rw [extract_loop] at h
    by_cases c0 : i < data.length
    swap
    · rw [if_neg c0] at h
      cases h
    rw [if_pos c0] at h
    simp only at h
    obtain ⟨s1, hge, _⟩ := skip_separators_spec (data.length - i) i hs
    by_cases c1 : skip_separators data (data.length - i) i ≥ data.length
    · rw [if_pos c1] at h
      cases h
    rw [if_neg c1] at h
    have s1' : Scanned data (skip_separators data (data.length - i) i) (all_words ps ++ []) := by
      rw [List.append_nil]; exact s1
    cases hp : paragraph_loop data (data.length - skip_separators data (data.length - i) i)
        (skip_separators data (data.length - i) i) [] with
    | error e' =>
      rw [hp] at h
      simp only at h
      have he : e' = e := by
        injection h
      subst he
      constructor
      · intro he
        subst he
        obtain ⟨ws', i', a, b, c⟩ := paragraph_loop_too_many data (all_words ps) _ _ [] hp
          (le_refl _) s1' List.chain'_nil (fun a ha => by simp at ha)
          (by unfold MAX_WORDS; simp)
        exact ⟨all_words ps, ws', i', a, b, c⟩
      · intro he
        subst he
        rcases paragraph_loop_error data _ _ _ _ hp with ⟨h1, _⟩ | h1 <;> cases h1
    | ok r =>
      obtain ⟨i2, ws⟩ := r
      rw [hp] at h
      simp only at h
      obtain ⟨s2, _, hlt⟩ := paragraph_loop_spec (all_words ps) _ _ [] i2 ws (le_refl _) s1' hp
      have hlt' := hlt (by omega)
      have hg2 := grouped_step data ps i _ i2 ws hg hge (by omega) hp
      have hs2 : Scanned data i2
          (all_words (if ws.length > 0 then ps ++ [Paragraph.mk ws] else ps)) := by
        by_cases c3 : ws.length > 0
        · rw [if_pos c3, all_words_append]
          exact s2
        · rw [if_neg c3]
          have : ws = [] := List.length_eq_zero.1 (by omega)
          rw [this, List.append_nil] at s2
          exact s2
      by_cases c2 : (if ws.length > 0 then ps ++ [Paragraph.mk ws] else ps).length ≥ 1000
      · rw [if_pos c2] at h
        have he : e = Fatal.too_many_paragraphs := by
          injection h with h
          exact h.symm
        subst he
        refine ⟨fun hc => Fatal.noConfusion hc, fun _ => ⟨_, i2, ?_, hs2, hg2⟩⟩
        have hle : (if ws.length > 0 then ps ++ [Paragraph.mk ws] else ps).length
            ≤ ps.length + 1 := by
          split
          · simp
          · omega
        omega
      · rw [if_neg c2] at h
        exact extract_loop_limit data fuel i2 _ e h (by omega) (by omega) hs2 hg2
theorem extract_paragraphs_limit (data : List Nat) (e : Fatal)
    (h : extract_paragraphs data = .error e) :
    (e = Fatal.too_many_words → HasParagraphOf data MAX_WORDS) ∧
    (e = Fatal.too_many_paragraphs → HasParagraphs data 1000) := by
  obtain ⟨h1, h2⟩ := extract_loop_limit data data.length 0 [] e h (by omega) (by simp)
    (scanned_start data)
    ⟨fun p hp => by simp at hp, fun p hp => by simp at hp, fun p hp => by simp at hp,
      List.chain'_nil, fun p hp => by simp at hp⟩
  constructor
  · intro he
    obtain ⟨pre, ws, i', a, b, c⟩ := h1 he
    refine ⟨ws, a, fun w hw => (b.runs w (List.mem_append_right _ hw)).1, ?_, c⟩
    exact b.sorted.sublist (List.sublist_append_right _ _)
  · intro he
    obtain ⟨ps', i', a, b, c⟩ := h2 he
    exact ⟨ps', a, c.nonempty, fun w hw => (b.runs w hw).1, b.sorted, c.between⟩

/-- C13, as stated, fails: a paragraph of exactly `MAX_WORDS` = 1,000,000
words (one million times the letter `a` and a space) is refused with "too
many words", and a document of exactly 1000 paragraphs (a thousand times
the letter `a` and a blank line) is refused with "too many paragraphs". -/
theorem exact_limits_rejected :
    extract_paragraphs (List.replicate 1000000 [97, 32]).flatten
        = .error Fatal.too_many_words ∧
    extract_paragraphs (List.replicate 1000 [97, 10, 10]).flatten
        = .error Fatal.too_many_paragraphs :=
  ⟨words_rejected_from 1000000 (le_refl _), paragraphs_rejected_from 1000 (le_refl _)⟩

/-- C13 (amended): the count limits of the tokenizer are exclusive.
`extract_paragraphs` stops with "too many words" only when some paragraph of
the buffer has at least `MAX_WORDS` = 1,000,000 words, and with "too many
paragraphs" only when the buffer has at least 1000 non-empty paragraphs;
every accepted document has at most 999 paragraphs of 1 to 999,999 words
each; a paragraph of 999,999 words and a document of 999 paragraphs are
accepted. -/
theorem count_limits_are_exclusive (data : List Nat) :
    (extract_paragraphs data = .error Fatal.too_many_words → HasParagraphOf data MAX_WORDS) ∧
    (extract_paragraphs data = .error Fatal.too_many_paragraphs → HasParagraphs data 1000) ∧
    (∀ ps, extract_paragraphs data = .ok ps →
      ps.length ≤ 999 ∧ ∀ p ∈ ps, 1 ≤ p.word_count ∧ p.word_count ≤ 999999) ∧
    (∃ p, extract_paragraphs (List.replicate 999999 [97, 32]).flatten = .ok [p] ∧
      p.word_count = 999999) ∧
    (∃ ps, extract_paragraphs (List.replicate 999 [97, 10, 10]).flatten = .ok ps ∧
      ps.length = 999) := by
  refine ⟨fun h => (extract_paragraphs_limit data _ h).1 rfl,
    fun h => (extract_paragraphs_limit data _ h).2 rfl, fun ps h => ?_,
    words_accepted_below 999999 (by decide) (by decide),
    paragraphs_accepted_below 999 (by decide)⟩
  obtain ⟨h1, i, hg⟩ := extract_paragraphs_grouped data ps h
  refine ⟨by omega, fun p hp => ⟨?_, ?_⟩⟩
  · have := hg.nonempty p hp
    unfold Paragraph.word_count
    cases hw : p.words with
    | nil => exact absurd hw this
    | cons _ _ => simp
  · have := hg.small p hp
    unfold MAX_WORDS at this
    unfold Paragraph.word_count
    omega

theorem count_limits_are_exclusive_witness :
    (extract_paragraphs [97, 32, 98, 10, 10, 99] = .error Fatal.too_many_words →
      HasParagraphOf [97, 32, 98, 10, 10, 99] MAX_WORDS) ∧
    (extract_paragraphs [97, 32, 98, 10, 10, 99] = .error Fatal.too_many_paragraphs →
      HasParagraphs [97, 32, 98, 10, 10, 99] 1000) ∧
    (∀ ps, extract_paragraphs [97, 32, 98, 10, 10, 99] = .ok ps →
      ps.length ≤ 999 ∧ ∀ p ∈ ps, 1 ≤ p.word_count ∧ p.word_count ≤ 999999) ∧
    (∃ p, extract_paragraphs (List.replicate 999999 [97, 32]).flatten = .ok [p] ∧
      p.word_count = 999999) ∧
    (∃ ps, extract_paragraphs (List.replicate 999 [97, 10, 10]).flatten = .ok ps ∧
      ps.length = 999) :=
  count_limits_are_exclusive [97, 32, 98, 10, 10, 99]

/-! ## Reading back a text made of groups of tokens -/

theorem softGap_not_blank {g : List Nat} (h : SoftGap g) : g ≠ [10, 10] := by
  rcases h with rfl | ⟨_, hall⟩
  · simp
  · rintro rfl
    have := hall 10 (by simp)
    omega

theorem softGap_isGap {g : List Nat} (h : SoftGap g) : IsGap g := by
  rcases h with h | h
  · exact Or.inl h
  · exact Or.inr (Or.inr h)

theorem group_ne_nil {term : List Nat} {g : List Token} (h : Group term g) : g ≠ [] := by
  rintro rfl
  exact h

theorem word_bytes_append (pre w post : List Nat) :
    word_bytes (pre ++ w ++ post) (Word.mk pre.length (w.length : Int)) = w := by
  unfold word_bytes
  apply List.ext_getElem
  · simp
  · intro j h1 h2
    simp only [List.length_map, List.length_range, Int.toNat_ofNat] at h1
    simp only [List.getElem_map, List.getElem_range]
    have := byte_at_append_right pre (w ++ post) j
    unfold byte_at at this
    rw [List.append_assoc, this, List.getD_eq_getElem _ _ (by simp; omega),
      List.getElem_append_left h1]

theorem located_length : ∀ (toks : List Token) (off : Nat), (located off toks).length = toks.length
  | [], _ => rfl
  | t :: rest, off => by
    rw [located, List.length_cons, located_length rest, List.length_cons]

theorem word_bytes_located :
    ∀ (toks : List Token) (pre post : List Nat),
      (located pre.length toks).map (word_bytes (pre ++ tokens_text toks ++ post))
        = toks.map Token.word
  | [], _, _ => rfl
  | t :: rest, pre, post => by
    rw [located, List.map_cons, List.map_cons, tokens_text_cons]
    have e1 : pre ++ (t.word ++ t.gap ++ tokens_text rest) ++ post
        = pre ++ t.word ++ (t.gap ++ tokens_text rest ++ post) := by simp
    have e2 : pre ++ (t.word ++ t.gap ++ tokens_text rest) ++ post
        = (pre ++ t.word ++ t.gap) ++ tokens_text rest ++ post := by simp
    have e3 : pre.length + t.word.length + t.gap.length = (pre ++ t.word ++ t.gap).length := by
      simp only [List.length_append]
    congr 1
    · rw [e1, word_bytes_append]
    · rw [e2, e3]
      exact word_bytes_located rest _ post

/-- The paragraph scanner reads a group whole and stops after it. -/
theorem scan_para_group :
    ∀ (g : List Token) (term : List Nat) (rest : List Token) (off : Nat) (cur : List Word),
      Group term g → (term ≠ [10, 10] → rest = []) → cur.length + g.length < MAX_WORDS →
      scan_para off cur (g ++ rest)
        = .ok (off + (tokens_text g).length, cur ++ located off g, rest)
  | [], _, _, _, _, h, _, _ => absurd h (by simp [Group])
  | [t], term, rest, off, cur, h, hr, hn => by
    have hg : t.gap = term := h
    rw [List.singleton_append, scan_para, if_neg (by
      simp only [List.length_append, List.length_singleton] at hn ⊢
      omega)]
    by_cases cb : t.gap = [10, 10]
    · rw [if_pos cb, tokens_text_cons, tokens_text_nil, cb]
      simp [located]
      omega
    · rw [if_neg cb]
      have := hr (by rw [← hg]; exact cb)
      subst this
      rw [scan_para, tokens_text_cons, tokens_text_nil]
      simp [located]
      omega
  | t :: u :: g, term, rest, off, cur, h, hr, hn => by
    obtain ⟨hs, hg⟩ := h
    rw [List.cons_append, scan_para, if_neg (by
      simp only [List.length_append, List.length_singleton, List.length_cons, List.length_nil] at hn ⊢
      omega), if_neg (softGap_not_blank hs)]
    have ih := scan_para_group (u :: g) term rest (off + t.word.length + t.gap.length)
      (cur ++ [Word.mk off (t.word.length : Int)]) hg hr (by
        simp only [List.length_append, List.length_singleton, List.length_cons, List.length_nil] at hn ⊢
        omega)
    rw [ih, tokens_text_cons (t := t)]
    simp only [located, List.length_append, List.append_assoc, List.singleton_append]
    congr 2
    omega

theorem doc_ne_nil {groups : List (List Token)} (h : Doc groups) : groups ≠ [] := by
  rintro rfl
  exact h

/-- The document scanner reads back the groups of a document as paragraphs
whose words are the words of the tokens. -/
theorem scan_doc_groups :
    ∀ (groups : List (List Token)) (fuel : Nat) (pre : List Nat) (ps : List Paragraph),
      Doc groups → (∀ g ∈ groups, g.length < MAX_WORDS) → ps.length + groups.length < 1000 →
      groups.length ≤ fuel →
      ∃ new, scan_doc fuel pre.length ps groups.flatten = .ok (ps ++ new) ∧
        new.map (fun p => p.words.map (word_bytes (pre ++ tokens_text groups.flatten)))
          = groups.map (fun g => g.map Token.word)
  | [], _, _, _, h, _, _, _ => absurd h (by simp [Doc])
  | _ :: _, 0, _, _, _, _, _, hf => by simp at hf
  | [g], fuel + 1, pre, ps, h, hn, hp, hf => by
    have hg : Group [] g := h
    obtain ⟨t, g', rfl⟩ : ∃ t g', g = t :: g' := by
      cases g with
      | nil => exact absurd hg (by simp [Group])
      | cons t g' => exact ⟨t, g', rfl⟩
    have hsp := scan_para_group (t :: g') [] [] pre.length [] hg (fun _ => rfl)
      (by simpa using hn (t :: g') (by simp))
    simp only [List.append_nil] at hsp
    refine ⟨[Paragraph.mk (located pre.length (t :: g'))], ?_, ?_⟩
    · simp only [List.flatten_cons, List.flatten_nil, List.append_nil]
      rw [scan_doc, hsp]
      have hpos : ([] ++ located pre.length (t :: g')).length > 0 := by
        simp [located]
      simp only [if_pos hpos]
      rw [if_neg (by
        simp only [List.length_append, List.length_singleton, List.length_cons,
          List.length_nil] at hp ⊢
        omega)]
      cases fuel <;> simp [scan_doc]
    · simp only [List.flatten_cons, List.flatten_nil, List.append_nil, List.map_cons,
        List.map_nil]
      have := word_bytes_located (t :: g') pre []
      rw [List.append_nil] at this
      rw [this]
      rfl
  | g :: h :: rest, fuel + 1, pre, ps, hd, hn, hp, hf => by
    obtain ⟨hg, hrest⟩ := hd
    obtain ⟨t, g', rfl⟩ : ∃ t g', g = t :: g' := by
      cases g with
      | nil => exact absurd hg (by simp [Group])
      | cons t g' => exact ⟨t, g', rfl⟩
    have hsp := scan_para_group (t :: g') [10, 10] (h :: rest).flatten pre.length [] hg
      (fun hne => absurd rfl hne) (by simpa using hn (t :: g') (by simp))
    have e3 : pre.length + (tokens_text (t :: g')).length
        = (pre ++ tokens_text (t :: g')).length := by
      simp only [List.length_append]
    obtain ⟨new, h1, h2⟩ := scan_doc_groups (h :: rest) fuel (pre ++ tokens_text (t :: g'))
      (ps ++ [Paragraph.mk (located pre.length (t :: g'))]) hrest
      (fun x hx => hn x (List.mem_cons_of_mem _ hx))
      (by
        simp only [List.length_append, List.length_singleton, List.length_cons, List.length_nil] at hp ⊢
        omega)
      (by
        simp only [List.length_cons] at hf ⊢
        omega)
    refine ⟨Paragraph.mk (located pre.length (t :: g')) :: new, ?_, ?_⟩
    · rw [List.flatten_cons, List.cons_append, scan_doc, ← List.cons_append, hsp]
      have hpos : ([] ++ located pre.length (t :: g')).length > 0 := by
        simp [located]
      simp only [if_pos hpos]
      rw [if_neg (by
        simp only [List.length_append, List.length_singleton, List.length_cons,
          List.length_nil] at hp ⊢
        omega)]
      rw [e3, List.nil_append, h1]
      simp
    · rw [List.flatten_cons, tokens_text_append, List.map_cons, List.map_cons]
      congr 1
      · have := word_bytes_located (t :: g') pre (tokens_text (h :: rest).flatten)
        rw [List.append_assoc] at this
        exact this
      · rw [← List.append_assoc]
        exact h2
theorem group_clean :
    ∀ (g : List Token) (term : List Nat) (rest : List Token),
      Group term g → (∀ t ∈ g, CleanWord t.word) → CleanTokens rest →
      (rest ≠ [] → IsGap term) → (term = [] ∨ IsGap term) → CleanTokens (g ++ rest)
  | [], _, _, h, _, _, _, _ => absurd h (by simp [Group])
  | [t], term, rest, h, hw, hr, h1, h2 => by
    have hg : t.gap = term := h
    cases rest with
    | nil => exact ⟨hw t (by simp), by rw [hg]; exact h2⟩
    | cons u r => exact ⟨hw t (by simp), by rw [hg]; exact h1 (by simp), hr⟩
  | t :: u :: g, term, rest, h, hw, hr, h1, h2 => by
    obtain ⟨hs, hg⟩ := h
    exact ⟨hw t (by simp), softGap_isGap hs,
      group_clean (u :: g) term rest hg (fun x hx => hw x (List.mem_cons_of_mem _ hx)) hr h1 h2⟩

theorem doc_clean :
    ∀ (groups : List (List Token)), Doc groups →
      (∀ g ∈ groups, ∀ t ∈ g, CleanWord t.word) → CleanTokens groups.flatten
  | [], h, _ => absurd h (by simp [Doc])
  | [g], h, hw => by
    have hg : Group [] g := h
    have := group_clean g [] [] hg (hw g (by simp)) trivial (fun hn => absurd rfl hn)
      (Or.inl rfl)
    simpa using this
  | g :: h :: rest, hd, hw => by
    obtain ⟨hg, hrest⟩ := hd
    rw [List.flatten_cons]
    exact group_clean g [10, 10] _ hg (hw g (by simp))
      (doc_clean (h :: rest) hrest (fun x hx => hw x (List.mem_cons_of_mem _ hx)))
      (fun _ => Or.inr (Or.inl rfl)) (Or.inr (Or.inr (Or.inl rfl)))

theorem tokens_text_length_ge :
    ∀ toks : List Token, (∀ t ∈ toks, CleanWord t.word) → toks.length ≤ (tokens_text toks).length
  | [], _ => by simp
  | t :: rest, h => by
    have ih := tokens_text_length_ge rest (fun x hx => h x (List.mem_cons_of_mem _ hx))
    have hw : 1 ≤ t.word.length := by
      have := (h t (by simp)).1
      cases hx : t.word with
      | nil => exact absurd hx this
      | cons _ _ => simp
    rw [tokens_text_cons]
    simp only [List.length_append, List.length_cons]
    omega

theorem doc_length_le :
    ∀ (groups : List (List Token)), Doc groups → groups.length ≤ groups.flatten.length
  | [], h => absurd h (by simp [Doc])
  | [g], h => by
    have hg : Group [] g := h
    cases g with
    | nil => exact absurd hg (by simp [Group])
    | cons t g' => simp
  | g :: h :: rest, hd => by
    obtain ⟨hg, hrest⟩ := hd
    have ih := doc_length_le (h :: rest) hrest
    cases g with
    | nil => exact absurd hg (by simp [Group])
    | cons t g' =>
      simp only [List.flatten_cons, List.length_append, List.length_cons] at ih ⊢
      omega

/-- Tokenizing the text of a document made of groups of clean tokens gives
back one paragraph per group, with the words of the group. -/
theorem doc_read_back (groups : List (List Token)) (hd : Doc groups)
    (hw : ∀ g ∈ groups, ∀ t ∈ g, CleanWord t.word)
    (hn : ∀ g ∈ groups, g.length < MAX_WORDS) (hp : groups.length < 1000) :
    ∃ ps, extract_paragraphs (tokens_text groups.flatten) = .ok ps ∧
      ps.map (fun p => p.words.map (word_bytes (tokens_text groups.flatten)))
        = groups.map (fun g => g.map Token.word) := by
  have hc := doc_clean groups hd hw
  have hfl : ∀ t ∈ groups.flatten, CleanWord t.word := by
    intro t ht
    obtain ⟨g, hg, htg⟩ := List.mem_flatten.1 ht
    exact hw g hg t htg
  obtain ⟨new, h1, h2⟩ := scan_doc_groups groups (tokens_text groups.flatten).length [] [] hd hn
    (by simpa using hp)
    (le_trans (doc_length_le groups hd) (tokens_text_length_ge _ hfl))
  refine ⟨new, ?_, by simpa using h2⟩
  rw [extract_paragraphs_tokens _ hc]
  simpa using h1

/-! ## The rendered text as tokens -/

theorem group_append :
    ∀ (a b : List Token) (g term : List Nat),
      Group g a → SoftGap g → Group term b → Group term (a ++ b)
  | [], _, _, _, h, _, _ => absurd h (by simp [Group])
  | [t], b, g, term, ha, hs, hb => by
    have hg : t.gap = g := ha
    cases b with
    | nil => exact absurd hb (by simp [Group])
    | cons u b' => exact ⟨by rw [hg]; exact hs, hb⟩
  | t :: u :: a, b, g, term, ha, hs, hb =>
    ⟨ha.1, group_append (u :: a) b g term ha.2 hs hb⟩

theorem chunk_single (w : List Nat) : Chunk [w] w :=
  fun term => ⟨[Token.mk w term], rfl, rfl, by simp [tokens_text]⟩

theorem chunk_append {W1 W2 : List (List Nat)} {t1 t2 g : List Nat} (h1 : Chunk W1 t1)
    (hg : SoftGap g) (h2 : Chunk W2 t2) : Chunk (W1 ++ W2) (t1 ++ g ++ t2) := by
  intro term
  obtain ⟨a, ha1, ha2, ha3⟩ := h1 g
  obtain ⟨b, hb1, hb2, hb3⟩ := h2 term
  refine ⟨a ++ b, group_append a b g term ha1 hg hb1, by rw [List.map_append, ha2, hb2], ?_⟩
  rw [tokens_text_append, ha3, hb3]
  simp

theorem softGap_space : SoftGap [32] := Or.inr ⟨by simp, fun b hb => by simpa using hb⟩

theorem softGap_spaces (k : Nat) (hk : 1 ≤ k) : SoftGap (List.replicate k 32) :=
  Or.inr ⟨by
    intro h
    have := congrArg List.length h
    simp at this
    omega, fun b hb => (List.mem_replicate.1 hb).2⟩

theorem chunk_intercalate :
    ∀ W : List (List Nat), W ≠ [] → Chunk W (List.intercalate [32] W)
  | [], h => absurd rfl h
  | [w], _ => by
    have : List.intercalate [32] [w] = w := by simp [List.intercalate]
    rw [this]
    exact chunk_single w
  | w :: v :: W, _ => by
    rw [intercalate_cons_cons]
    exact chunk_append (chunk_single w) softGap_space (chunk_intercalate (v :: W) (by simp))

theorem chunk_pieces (f g : Nat → List Nat) (hg : ∀ j, SoftGap (g j)) :
    ∀ c s e, s + (c + 1) = e →
      Chunk ((List.range' s (c + 1)).map f)
        (((List.range' s (c + 1)).map (fun j => f j ++ if j + 1 < e then g j else [])).flatten)
  | 0, s, e, h => by
    have : ¬ (s + 1 < e) := by omega
    simp only [Nat.zero_add, List.range'_one, List.map_cons, List.map_nil, List.flatten_cons,
      List.flatten_nil,
      if_neg this, List.append_nil]
    exact chunk_single (f s)
  | c + 1, s, e, h => by
    have h1 : s + 1 < e := by omega
    rw [List.range'_succ, List.map_cons, List.map_cons, List.flatten_cons, if_pos h1]
    exact chunk_append (chunk_single (f s)) (hg s) (chunk_pieces f g hg c (s + 1) e (by omega))

theorem gap_width_pos (ts : Int) (g j : Nat) (h0 : 0 ≤ ts) : 1 ≤ gap_width ts g j := by
  unfold gap_width
  have := Int.ediv_nonneg h0 (Int.natCast_nonneg g)
  split <;> omega

/-- A justified line is its words with runs of spaces between them. -/
theorem chunk_justified (data : List Nat) (words : List Word) (start w : Nat) (ts : Int)
    (hw : 1 ≤ w) (h0 : 0 ≤ ts) :
    Chunk ((List.range' start w).map (fun j => word_bytes data (word_at words j)))
      (justified_text data words start w ts) := by
  obtain ⟨c, rfl⟩ : ∃ c, w = c + 1 := ⟨w - 1, by omega⟩
  have h := chunk_pieces (fun j => word_bytes data (word_at words (start + j)))
    (fun j => List.replicate (gap_width ts (c + 1 - 1) j).toNat 32)
    (fun j => softGap_spaces _ (by have := gap_width_pos ts (c + 1 - 1) j h0; omega))
    c 0 (c + 1) (by omega)
  have e1 : (List.range' start (c + 1)).map (fun j => word_bytes data (word_at words j))
      = (List.range' 0 (c + 1)).map (fun j => word_bytes data (word_at words (start + j))) := by
    rw [List.range'_eq_map_range, List.range'_eq_map_range, List.map_map, List.map_map]
    apply List.map_congr_left
    intro a _
    simp
  rw [e1]
  unfold justified_text
  rw [List.range_eq_range']
  exact h

theorem drop_map_word_bytes (data : List Nat) (words : List Word) (i : Nat) :
    (words.drop i).map (word_bytes data)
      = (List.range' i (words.length - i)).map (fun j => word_bytes data (word_at words j)) := by
  apply List.ext_getElem
  · simp
  · intro j h1 h2
    simp only [List.length_map, List.length_drop] at h1
    simp only [List.getElem_map, List.getElem_drop, List.getElem_range']
    unfold word_at
    rw [List.getD_eq_getElem _ _ (by omega)]
    simp
theorem check_widths_fits (M : Int) (ws : List Word) (u : Unit)
    (h : check_widths M ws = .ok u) : ∀ w ∈ ws, w.len ≤ M := by
  intro w hw
  by_contra hc
  rw [check_widths_error M ws ⟨w, hw, by omega⟩] at h
  cases h

theorem range_split (a b c : Nat) (h1 : a ≤ b) (h2 : b ≤ c) :
    List.range' a (c - a) = List.range' a (b - a) ++ List.range' b (c - b) := by
  obtain ⟨x, rfl⟩ : ∃ x, b = a + x := ⟨b - a, by omega⟩
  obtain ⟨y, rfl⟩ : ∃ y, c = a + x + y := ⟨c - (a + x), by omega⟩
  have e1 : a + x + y - a = y + x := by omega
  have e2 : a + x - a = x := by omega
  have e3 : a + x + y - (a + x) = y := by omega
  rw [e1, e2, e3, List.range'_append_1]

/-- The walk of `write_paragraph` from word `i` on a solved table writes
the words `i..n-1` with a soft gap between consecutive words. -/
theorem write_paragraph_loop_chunk {p : Paragraph} {M : Int} {nb0 : Nat → Int} {t : Tables}
    (H : InRange p M) (hfit : ∀ w ∈ p.words, w.len ≤ M) (hs : Solved p M nb0 0 t)
    (hall : ∀ j, j ≤ p.word_count → t.valid j = 1) (data : List Nat) :
    ∀ (fuel i : Nat) (out out' : List Nat), i < p.word_count → p.word_count - i ≤ fuel →
      write_paragraph_loop data p M t.next_break fuel i out = .ok out' →
      ∃ text, out' = out ++ text ∧
        Chunk ((List.range' i (p.word_count - i)).map
          (fun j => word_bytes data (word_at p.words j))) text
  | 0, i, _, _, hi, hf, _ => by omega
  | fuel + 1, i, out, out', hi, hf, h => by
    rw [write_paragraph_loop, if_pos hi] at h
    rcases (hs.rows i (Nat.zero_le _) hi).2 with ⟨a, _⟩ | ⟨_, ks, h1, h2, hnb, hl, _⟩
    · have := hall i (by omega)
      omega
    simp only [hnb] at h
    rw [if_neg (by omega)] at h
    have e : ((ks : Int) + 1).toNat = ks + 1 := by omega
    rw [e] at h
    by_cases c : ks + 1 = p.word_count
    · rw [if_neg (by omega), write_paragraph_loop_done _ _ _ _ _ _ _ (by omega)] at h
      cases h
      have hw : write_line data out p M i (ks + 1)
          = out ++ List.intercalate [32] ((p.words.drop i).map (word_bytes data)) := by
        unfold write_line
        rw [if_pos c]
        have hn : p.word_count = p.words.length := rfl
        rw [c, hn]
        exact last_line_loop_eq data p.words _ i out (by omega)
      refine ⟨_, hw, ?_⟩
      have hn : p.word_count = p.words.length := rfl
      rw [hn, ← drop_map_word_bytes]
      apply chunk_intercalate
      intro hnil
      have := congrArg List.length hnil
      simp only [List.length_map, List.length_drop, List.length_nil] at this
      omega
    · have hk : ks + 1 < p.word_count := by omega
      rw [if_pos (by omega), write_line_justified H hfit data out i ks h1 hk hl] at h
      obtain ⟨text, ht1, ht2⟩ := write_paragraph_loop_chunk H hfit hs hall data fuel (ks + 1) _
        out' hk (by omega) h
      refine ⟨justified_text data p.words i (ks + 1 - i) (M - line_len p i ks) ++ [10] ++ text,
        by rw [ht1]; simp, ?_⟩
      have hj := chunk_justified data p.words i (ks + 1 - i) (M - line_len p i ks) (by omega)
        (by omega)
      have hsplit := range_split i (ks + 1) p.word_count (by omega) (by omega)
      rw [hsplit, List.map_append]
      exact chunk_append hj (Or.inl rfl) ht2

/-- The paragraph loop of `main` writes a document: the words of the
paragraphs still to be treated, paragraph by paragraph, a blank line after
each paragraph but the last. -/
theorem main_loop_doc (data : List Nat) (M : Int) (hM1 : 1 ≤ M) (hM : M ≤ 10000) (pc : Nat) :
    ∀ (rest : List Paragraph) (p_idx : Nat) (r r' : Run),
      rest ≠ [] → p_idx + rest.length = pc →
      (∀ p ∈ rest, 1 ≤ p.word_count ∧ p.word_count < 1000000 ∧ ∀ w ∈ p.words, 1 ≤ w.len) →
      main_loop data M pc rest p_idx r = (r', none) →
      ∃ groups, Doc groups ∧
        groups.map (fun g => g.map Token.word) = rest.map (fun p => p.words.map (word_bytes data)) ∧
        r'.out = r.out ++ tokens_text groups.flatten
  | [], _, _, _, hne, _, _, _ => absurd rfl hne
  | p :: rest, p_idx, r, r', _, hlen, hps, h => by
    obtain ⟨hn1, hn, hpos⟩ := hps p (by simp)
    rw [main_loop] at h
    cases hcw : check_widths M p.words with
    | error e =>
      rw [hcw] at h
      cases h
    | ok u =>
      have hfit := check_widths_fits M p.words u hcw
      have H : InRange p M := inRange_of_fits hn1 hn hM1 hM (fun w hw => ⟨hpos w hw, hfit w hw⟩)
      have hs := justify_tables_solved H r.next_break
      have hall : ∀ j, j ≤ p.word_count → (justify_tables p M r.next_break).valid j = 1 :=
        fun j hj => solved_all_valid hfit hs (p.word_count - j) j (by omega)
      have hjp := justify_paragraph_of_valid r.next_break hn1 (hall 0 (by omega))
      rw [hcw, hjp] at h
      simp only [] at h
      cases hwp : write_paragraph data r.out p M (justify_tables p M r.next_break).next_break with
      | error e =>
        rw [hwp] at h
        cases h
      | ok out =>
        rw [hwp] at h
        simp only [] at h
        obtain ⟨text, ht1, ht2⟩ := write_paragraph_loop_chunk H hfit hs hall data p.word_count 0
          r.out out (by omega) (by omega) hwp
        have hW : (List.range' 0 (p.word_count - 0)).map
            (fun j => word_bytes data (word_at p.words j)) = p.words.map (word_bytes data) := by
          have := drop_map_word_bytes data p.words 0
          rw [List.drop_zero] at this
          exact this.symm
        rw [hW] at ht2
        cases rest with
        | nil =>
          have hidx : ¬ ((p_idx : Int) < (pc : Int) - 1) := by
            simp only [List.length_cons, List.length_nil] at hlen
            omega
          rw [if_neg hidx, main_loop] at h
          obtain ⟨toks, hg, hw, htx⟩ := ht2 []
          refine ⟨[toks], hg, by simp [hw], ?_⟩
          have hr : r'.out = out := by
            cases h
            rfl
          rw [hr, ht1]
          simp [htx]
        | cons q rest' =>
          have hidx : (p_idx : Int) < (pc : Int) - 1 := by
            simp only [List.length_cons] at hlen
            omega
          rw [if_pos hidx] at h
          obtain ⟨groups, hd, hgw, hout⟩ := main_loop_doc data M hM1 hM pc (q :: rest')
            (p_idx + 1) _ r' (by simp) (by
              simp only [List.length_cons] at hlen ⊢
              omega) (fun x hx => hps x (List.mem_cons_of_mem _ hx)) h
          obtain ⟨toks, hg, hw, htx⟩ := ht2 [10, 10]
          obtain ⟨g1, gs, rfl⟩ : ∃ g1 gs, groups = g1 :: gs := by
            cases groups with
            | nil => exact absurd hd (by simp [Doc])
            | cons g1 gs => exact ⟨g1, gs, rfl⟩
          refine ⟨toks :: g1 :: gs, ⟨hg, hd⟩, ?_, ?_⟩
          · rw [List.map_cons, hw, hgw]
            rfl
          · rw [List.flatten_cons, tokens_text_append, htx, hout]
            simp [ht1]

/-! ## Justifying preserves the text -/

theorem cleanWord_of_run {data : List Nat} {w : Word} (hr : IsMaximalRun data w)
    (hl : w.len ≤ MAX_WORD_LEN) : CleanWord (word_bytes data w) := by
  obtain ⟨h1, h2, h3, _, _⟩ := hr
  unfold MAX_WORD_LEN at hl
  refine ⟨?_, ?_, ?_⟩
  · intro hnil
    have := congrArg List.length hnil
    rw [word_bytes_length] at this
    simp only [List.length_nil] at this
    omega
  · rw [word_bytes_length]
    omega
  · intro b hb
    unfold word_bytes at hb
    obtain ⟨j, hj, rfl⟩ := List.mem_map.1 hb
    have hj' := List.mem_range.1 hj
    have := h3 (w.start + j) (by omega) (by omega)
    unfold byte_at at this
    exact this

/-- What an accepted document looks like: every paragraph has between one
and `MAX_WORDS - 1` words, every word is a clean word of the buffer, and
there are fewer than 1000 paragraphs. -/
theorem extract_paragraphs_clean (data : List Nat) (ps : List Paragraph)
    (h : extract_paragraphs data = .ok ps) :
    ps.length < 1000 ∧
    ∀ p ∈ ps, 1 ≤ p.word_count ∧ p.word_count < 1000000 ∧
      ∀ w ∈ p.words, 1 ≤ w.len ∧ CleanWord (word_bytes data w) := by
  obtain ⟨hlen, i, hg⟩ := extract_paragraphs_grouped data ps h
  have hs := extract_loop_spec data.length 0 [] ps (by omega) (scanned_start data) h
  refine ⟨hlen, fun p hp => ⟨?_, hg.small p hp, fun w hw => ?_⟩⟩
  · have := hg.nonempty p hp
    unfold Paragraph.word_count
    cases hw : p.words with
    | nil => exact absurd hw this
    | cons _ _ => simp
  · have hmem : w ∈ all_words ps := by
      unfold all_words
      exact List.mem_flatten.2 ⟨p.words, List.mem_map.2 ⟨p, hp, rfl⟩, hw⟩
    obtain ⟨hr, hl, _⟩ := hs.runs w hmem
    exact ⟨hr.1, cleanWord_of_run hr hl⟩

/-- The output of a successful run is a document made of groups of clean
tokens, one group per paragraph of the input, with the words of the
paragraph. -/
theorem main_run_doc (data : List Nat) (M : Int) (nb : Nat → Int) (r : Run)
    (h : main_run data M nb = (r, none)) :
    ∃ ps groups, extract_paragraphs data = .ok ps ∧ 1 ≤ ps.length ∧ Doc groups ∧
      groups.map (fun g => g.map Token.word) = ps.map (fun p => p.words.map (word_bytes data)) ∧
      r.out = tokens_text groups.flatten ∧
      (∀ g ∈ groups, ∀ t ∈ g, CleanWord t.word) ∧
      (∀ g ∈ groups, g.length < MAX_WORDS) ∧ groups.length < 1000 := by
  unfold main_run at h
  by_cases cM : M ≤ 0 ∨ M > MAX_LINE_LEN
  · rw [if_pos cM] at h
    cases h
  rw [if_neg cM] at h
  by_cases c0 : data.length = 0
  · rw [if_pos c0] at h
    cases h
  rw [if_neg c0] at h
  cases hex : extract_paragraphs data with
  | error e =>
    rw [hex] at h
    cases h
  | ok ps =>
    rw [hex] at h
    simp only [] at h
    by_cases cp : ps.length = 0
    · rw [if_pos cp] at h
      cases h
    rw [if_neg cp] at h
    obtain ⟨hlen, hclean⟩ := extract_paragraphs_clean data ps hex
    unfold MAX_LINE_LEN at cM
    obtain ⟨groups, hd, hgw, hout⟩ := main_loop_doc data M (by omega) (by omega) ps.length ps 0
      ⟨[], 0, nb, 0⟩ r (by
        intro hnil
        rw [hnil] at cp
        exact cp rfl) (by omega)
      (fun p hp => ⟨(hclean p hp).1, (hclean p hp).2.1, fun w hw => ((hclean p hp).2.2 w hw).1⟩) h
    have hmem : ∀ g ∈ groups, ∃ p ∈ ps, p.words.map (word_bytes data) = g.map Token.word := by
      intro g hg
      have : g.map Token.word ∈ groups.map (fun g => g.map Token.word) :=
        List.mem_map.2 ⟨g, hg, rfl⟩
      rw [hgw] at this
      obtain ⟨p, hp, hpe⟩ := List.mem_map.1 this
      exact ⟨p, hp, hpe⟩
    refine ⟨ps, groups, rfl, by omega, hd, hgw, by simpa using hout, ?_, ?_, ?_⟩
    · intro g hg t ht
      obtain ⟨p, hp, hpe⟩ := hmem g hg
      have : t.word ∈ g.map Token.word := List.mem_map.2 ⟨t, ht, rfl⟩
      rw [← hpe] at this
      obtain ⟨w, hw, hwe⟩ := List.mem_map.1 this
      rw [← hwe]
      exact ((hclean p hp).2.2 w hw).2
    · intro g hg
      obtain ⟨p, hp, hpe⟩ := hmem g hg
      have := congrArg List.length hpe
      simp only [List.length_map] at this
      have h2 := (hclean p hp).2.1
      unfold Paragraph.word_count at h2
      unfold MAX_WORDS
      omega
    · have := congrArg List.length hgw
      simp only [List.length_map] at this
      omega

/-- C20: justifying preserves the text.  When a run on the buffer `data`
with width `M` succeeds, tokenizing the output succeeds too and gives as
many paragraphs as the input has, and the words of each paragraph of the
output, as byte strings and in order, are the words of the paragraph of the
same rank of the input. -/
theorem justify_preserves_text (data : List Nat) (M : Int) (nb : Nat → Int) (r : Run)
    (h : main_run data M nb = (r, none)) :
    ∃ ps ps', extract_paragraphs data = .ok ps ∧ extract_paragraphs r.out = .ok ps' ∧
      ps'.length = ps.length ∧
      ps'.map (fun p => p.words.map (word_bytes r.out))
        = ps.map (fun p => p.words.map (word_bytes data)) := by
  obtain ⟨ps, groups, hex, _, hd, hgw, hout, hw, hn, hp⟩ := main_run_doc data M nb r h
  obtain ⟨ps', h1, h2⟩ := doc_read_back groups hd hw hn hp
  rw [← hout] at h1 h2
  refine ⟨ps, ps', hex, h1, ?_, by rw [h2, hgw]⟩
  have := congrArg List.length (h2.trans hgw)
  simpa using this

theorem justify_preserves_text_witness :
    main_run [97, 97, 32, 32, 98, 10, 32, 99, 10, 10, 10, 32, 100] 4 (fun _ => 0)
      = (⟨[97, 97, 32, 98, 10, 99, 10, 10, 100], 0,
          (main_run [97, 97, 32, 32, 98, 10, 32, 99, 10, 10, 10, 32, 100] 4
            (fun _ => 0)).1.next_break, 2⟩, none) ∧
    ∃ ps ps', extract_paragraphs [97, 97, 32, 32, 98, 10, 32, 99, 10, 10, 10, 32, 100] = .ok ps ∧
      extract_paragraphs [97, 97, 32, 98, 10, 99, 10, 10, 100] = .ok ps' ∧
      ps'.length = ps.length ∧
      ps'.map (fun p => p.words.map (word_bytes [97, 97, 32, 98, 10, 99, 10, 10, 100]))
        = ps.map (fun p => p.words.map
            (word_bytes [97, 97, 32, 32, 98, 10, 32, 99, 10, 10, 10, 32, 100])) :=
  ⟨rfl, justify_preserves_text [97, 97, 32, 32, 98, 10, 32, 99, 10, 10, 10, 32, 100] 4
    (fun _ => 0) _ rfl⟩

/-! ## Line feeds in a text made of clean tokens -/

theorem byte_at_append_left (pre post : List Nat) (i : Nat) (h : i < pre.length) :
    byte_at (pre ++ post) i = byte_at pre i := by
  unfold byte_at
  rw [List.getD_eq_getElem _ _ (by simp; omega), List.getD_eq_getElem _ _ h,
    List.getElem_append_left h]

theorem byte_at_mem (l : List Nat) (i : Nat) (h : i < l.length) : byte_at l i ∈ l := by
  unfold byte_at
  rw [List.getD_eq_getElem _ _ h]
  exact List.getElem_mem _

theorem byte_at_cons_succ (x : Nat) (l : List Nat) (i : Nat) :
    byte_at (x :: l) (i + 1) = byte_at l i := by
  simp [byte_at]

theorem byte_at_nil (i : Nat) : byte_at [] i = 0 := by
  simp [byte_at]

theorem clean_head_not_lf {toks : List Token} (h : CleanTokens toks) :
    byte_at (tokens_text toks) 0 ≠ 10 := by
  cases hx : tokens_text toks with
  | nil => simp [byte_at]
  | cons x l =>
    have := cleanTokens_head h x (by rw [hx]; simp)
    simp only [byte_at, List.getD_cons_zero]
    rintro rfl
    exact absurd this (by decide)

/-- A text made of clean tokens never holds three line feeds in a row. -/
theorem clean_no_triple : ∀ toks : List Token, CleanTokens toks → NoTripleLF (tokens_text toks)
  | [], _ => by
    intro i
    rw [tokens_text_nil, byte_at_nil]
    omega
  | t :: rest, hc => by
    obtain ⟨⟨_, _, hp⟩, hrest, hgap, hgap'⟩ := cleanTokens_cons hc
    have ih := clean_no_triple rest hrest
    have hR0 := clean_head_not_lf hrest
    intro i
    rw [tokens_text_cons, List.append_assoc]
    by_cases ci : i < t.word.length
    · rw [byte_at_append_left _ _ _ ci]
      have := hp _ (byte_at_mem t.word i ci)
      rintro ⟨h1, _⟩
      rw [h1] at this
      exact absurd this (by decide)
    obtain ⟨i', rfl⟩ : ∃ i', i = t.word.length + i' := ⟨i - t.word.length, by omega⟩
    rw [Nat.add_assoc, Nat.add_assoc, byte_at_append_right, byte_at_append_right,
      byte_at_append_right]
    rcases hgap' with hg | hg | hg | ⟨hne, hall⟩
    · -- no gap: the text ends here
      cases rest with
      | nil =>
        rw [hg, tokens_text_nil, List.append_nil, byte_at_nil]
        omega
      | cons u r =>
        obtain ⟨x, l, hx, _⟩ := isGap_head (hgap (by simp))
        rw [hg] at hx
        cases hx
    · rw [hg]
      cases i' with
      | zero =>
        rintro ⟨_, h2, _⟩
        rw [List.singleton_append, Nat.zero_add, byte_at_cons_succ] at h2
        exact hR0 h2
      | succ j =>
        rw [List.singleton_append, byte_at_cons_succ, Nat.add_right_comm j 1 1,
          byte_at_cons_succ, Nat.add_right_comm j 1 2, byte_at_cons_succ]
        exact ih j
    · rw [hg]
      have e : ([10, 10] : List Nat) ++ tokens_text rest = 10 :: 10 :: tokens_text rest := rfl
      rw [e]
      cases i' with
      | zero =>
        rintro ⟨_, _, h3⟩
        rw [Nat.zero_add, byte_at_cons_succ, byte_at_cons_succ] at h3
        exact hR0 h3
      | succ j =>
        cases j with
        | zero =>
          rintro ⟨_, h2, _⟩
          rw [Nat.zero_add, byte_at_cons_succ, byte_at_cons_succ] at h2
          exact hR0 h2
        | succ j =>
          rw [byte_at_cons_succ, byte_at_cons_succ, Nat.add_right_comm (j + 1) 1 1,
            byte_at_cons_succ, Nat.add_right_comm j 1 1, byte_at_cons_succ,
            Nat.add_right_comm (j + 1) 1 2, byte_at_cons_succ, Nat.add_right_comm j 1 2,
            byte_at_cons_succ]
          exact ih j
    · by_cases cj : i' < t.gap.length
      · rw [byte_at_append_left _ _ _ cj]
        have := hall _ (byte_at_mem t.gap i' cj)
        rintro ⟨h1, _⟩
        omega
      · obtain ⟨j, rfl⟩ : ∃ j, i' = t.gap.length + j := ⟨i' - t.gap.length, by omega⟩
        rw [Nat.add_assoc, Nat.add_assoc, byte_at_append_right, byte_at_append_right,
          byte_at_append_right]
        exact ih j

theorem group_last_byte :
    ∀ (g : List Token) (pre : List Nat), Group [] g → (∀ t ∈ g, CleanWord t.word) →
      ∃ x, (pre ++ tokens_text g).getLast? = some x ∧ is_printable x = true
  | [], _, h, _ => absurd h (by simp [Group])
  | [t], pre, h, hw => by
    have hg : t.gap = [] := h
    obtain ⟨hne, _, hp⟩ := hw t (by simp)
    rw [tokens_text_cons, tokens_text_nil, hg, List.append_nil, List.append_nil,
      List.getLast?_append_of_ne_nil _ hne]
    refine ⟨t.word.getLast hne, List.getLast?_eq_getLast _ hne, hp _ (List.getLast_mem hne)⟩
  | t :: u :: g, pre, h, hw => by
    obtain ⟨_, hg⟩ := h
    obtain ⟨x, h1, h2⟩ := group_last_byte (u :: g) (pre ++ t.word ++ t.gap) hg
      (fun y hy => hw y (List.mem_cons_of_mem _ hy))
    refine ⟨x, ?_, h2⟩
    rw [← h1, tokens_text_cons (t := t)]
    simp

/-- The text of a document ends with a printable byte. -/
theorem doc_last_byte :
    ∀ (groups : List (List Token)) (pre : List Nat), Doc groups →
      (∀ g ∈ groups, ∀ t ∈ g, CleanWord t.word) →
      ∃ x, (pre ++ tokens_text groups.flatten).getLast? = some x ∧ is_printable x = true
  | [], _, h, _ => absurd h (by simp [Doc])
  | [g], pre, h, hw => by
    have hg : Group [] g := h
    have := group_last_byte g pre hg (hw g (by simp))
    simpa using this
  | g :: h :: rest, pre, hd, hw => by
    obtain ⟨_, hrest⟩ := hd
    obtain ⟨x, h1, h2⟩ := doc_last_byte (h :: rest) (pre ++ tokens_text g) hrest
      (fun y hy => hw y (List.mem_cons_of_mem _ hy))
    refine ⟨x, ?_, h2⟩
    rw [← h1, List.flatten_cons, tokens_text_append]
    simp
/-! ## The lines of a rendered paragraph -/

theorem mem_justified_text {data : List Nat} {words : List Word} {start w : Nat} {ts : Int}
    {b : Nat} (h : b ∈ justified_text data words start w ts) :
    b = 32 ∨ ∃ j, j < w ∧ b ∈ word_bytes data (word_at words (start + j)) := by
  unfold justified_text at h
  obtain ⟨l, hl, hb⟩ := List.mem_flatten.1 h
  obtain ⟨j, hj, rfl⟩ := List.mem_map.1 hl
  unfold justified_piece at hb
  rcases List.mem_append.1 hb with hb | hb
  · exact Or.inr ⟨j, List.mem_range.1 hj, hb⟩
  · split at hb
    · exact Or.inl (List.mem_replicate.1 hb).2
    · simp at hb

theorem mem_intercalate_space {b : Nat} :
    ∀ W : List (List Nat), b ∈ List.intercalate [32] W → b = 32 ∨ ∃ w ∈ W, b ∈ w
  | [], h => by simp [List.intercalate] at h
  | [w], h => by
    have e : List.intercalate [32] [w] = w := by simp [List.intercalate]
    rw [e] at h
    exact Or.inr ⟨w, by simp, h⟩
  | w :: v :: W, h => by
    rw [intercalate_cons_cons] at h
    rcases List.mem_append.1 h with h | h
    · rcases List.mem_append.1 h with h | h
      · exact Or.inr ⟨w, by simp, h⟩
      · exact Or.inl (by simpa using h)
    · rcases mem_intercalate_space (v :: W) h with h | ⟨x, hx, hb⟩
      · exact Or.inl h
      · exact Or.inr ⟨x, List.mem_cons_of_mem _ hx, hb⟩

theorem chunk_ne_nil {W : List (List Nat)} {text : List Nat} (h : Chunk W text)
    (hW : ∀ w ∈ W, w ≠ []) : text ≠ [] := by
  obtain ⟨toks, hg, hw, ht⟩ := h []
  rw [List.append_nil] at ht
  cases toks with
  | nil => exact absurd hg (by simp [Group])
  | cons t rest =>
    have hne : t.word ≠ [] := hW _ (by rw [← hw]; simp)
    rw [← ht, tokens_text_cons]
    intro hnil
    have := congrArg List.length hnil
    simp only [List.length_append, List.length_nil] at this
    have : t.word.length = 0 := by omega
    exact hne (List.length_eq_zero.1 this)

theorem word_at_mem (words : List Word) (j : Nat) (h : j < words.length) :
    word_at words j ∈ words := by
  unfold word_at
  rw [List.getD_eq_getElem _ _ h]
  exact List.getElem_mem _

theorem printable_not_lf {b : Nat} (h : is_printable b = true) : b ≠ 10 := by
  rintro rfl
  exact absurd h (by decide)

theorem write_line_last (data out : List Nat) (p : Paragraph) (M : Int) (i k : Nat)
    (hk : k = p.word_count) (hi : i ≤ k) :
    write_line data out p M i k
      = out ++ List.intercalate [32] ((p.words.drop i).map (word_bytes data)) := by
  unfold write_line
  rw [if_pos hk]
  have hn : p.word_count = p.words.length := rfl
  rw [hk, hn]
  exact last_line_loop_eq data p.words _ i out (by omega)

theorem rendered_lines_done (data : List Nat) (p : Paragraph) (M : Int) (nb : Nat → Int)
    (fuel i : Nat) (h : p.word_count ≤ i) : rendered_lines data p M nb fuel i = [] := by
  cases fuel with
  | zero => rfl
  | succ f => rw [rendered_lines, if_neg (by omega)]

theorem rendered_lines_congr (data : List Nat) (p : Paragraph) (M : Int) (nb1 nb2 : Nat → Int)
    (h : ∀ j, j < p.word_count → nb1 j = nb2 j) :
    ∀ fuel i, rendered_lines data p M nb1 fuel i = rendered_lines data p M nb2 fuel i
  | 0, _ => rfl
  | fuel + 1, i => by
    rw [rendered_lines, rendered_lines]
    by_cases c : i < p.word_count
    · rw [if_pos c, if_pos c, h i c, rendered_lines_congr data p M nb1 nb2 h fuel]
    · rw [if_neg c, if_neg c]

/-- The walk of `write_paragraph` from word `i` on a solved table appends
its lines joined by one line feed; there is at least one line, no line is
empty and no line holds a line feed. -/
theorem write_paragraph_loop_lines {p : Paragraph} {M : Int} {nb0 : Nat → Int} {t : Tables}
    (H : InRange p M) (hfit : ∀ w ∈ p.words, w.len ≤ M) (hs : Solved p M nb0 0 t)
    (hall : ∀ j, j ≤ p.word_count → t.valid j = 1) (data : List Nat)
    (hclean : ∀ w ∈ p.words, CleanWord (word_bytes data w)) :
    ∀ (fuel i : Nat) (out out' : List Nat), i < p.word_count → p.word_count - i ≤ fuel →
      write_paragraph_loop data p M t.next_break fuel i out = .ok out' →
      rendered_lines data p M t.next_break fuel i ≠ [] ∧
      out' = out ++ List.intercalate [10] (rendered_lines data p M t.next_break fuel i) ∧
      ∀ line ∈ rendered_lines data p M t.next_break fuel i, line ≠ [] ∧ ∀ b ∈ line, b ≠ 10
  | 0, i, _, _, hi, hf, _ => by omega
  | fuel + 1, i, out, out', hi, hf, h => by
    rw [write_paragraph_loop, if_pos hi] at h
    rcases (hs.rows i (Nat.zero_le _) hi).2 with ⟨a, _⟩ | ⟨_, ks, h1, h2, hnb, hl, _⟩
    · have := hall i (by omega)
      omega
    simp only [hnb] at h
    rw [if_neg (by omega)] at h
    have e : ((ks : Int) + 1).toNat = ks + 1 := by omega
    rw [e] at h
    rw [rendered_lines, if_pos hi]
    simp only [hnb]
    rw [if_neg (by omega), e]
    have hn : p.word_count = p.words.length := rfl
    have hword : ∀ j, j < p.word_count → ∀ b ∈ word_bytes data (word_at p.words j), b ≠ 10 :=
      fun j hj b hb =>
        printable_not_lf ((hclean _ (word_at_mem p.words j (by omega))).2.2 b hb)
    have hwne : ∀ j, j < p.word_count → word_bytes data (word_at p.words j) ≠ [] :=
      fun j hj => (hclean _ (word_at_mem p.words j (by omega))).1
    by_cases c : ks + 1 = p.word_count
    · rw [if_neg (by omega), write_paragraph_loop_done _ _ _ _ _ _ _ (by omega)] at h
      cases h
      rw [rendered_lines_done _ _ _ _ _ _ (by omega)]
      have hw0 := write_line_last data [] p M i (ks + 1) c (by omega)
      rw [List.nil_append] at hw0
      refine ⟨by simp, ?_, ?_⟩
      · rw [write_line_last data out p M i (ks + 1) c (by omega), hw0]
        simp [List.intercalate]
      · intro line hline
        rw [List.mem_singleton] at hline
        subst hline
        rw [hw0]
        constructor
        · have hch : Chunk ((p.words.drop i).map (word_bytes data))
              (List.intercalate [32] ((p.words.drop i).map (word_bytes data))) := by
            apply chunk_intercalate
            intro hnil
            have := congrArg List.length hnil
            simp only [List.length_map, List.length_drop, List.length_nil] at this
            omega
          apply chunk_ne_nil hch
          intro w hw
          obtain ⟨x, hx, rfl⟩ := List.mem_map.1 hw
          exact (hclean x (List.mem_of_mem_drop hx)).1
        · intro b hb
          rcases mem_intercalate_space _ hb with rfl | ⟨w, hw, hbw⟩
          · decide
          · obtain ⟨x, hx, rfl⟩ := List.mem_map.1 hw
            exact printable_not_lf ((hclean x (List.mem_of_mem_drop hx)).2.2 b hbw)
    · have hk : ks + 1 < p.word_count := by omega
      have hw0 := write_line_justified H hfit data [] i ks h1 hk hl
      rw [List.nil_append] at hw0
      rw [if_pos (by omega), write_line_justified H hfit data out i ks h1 hk hl] at h
      obtain ⟨ih1, ih2, ih3⟩ := write_paragraph_loop_lines H hfit hs hall data hclean fuel
        (ks + 1) _ out' hk (by omega) h
      refine ⟨by simp, ?_, ?_⟩
      · rw [hw0, ih2]
        cases hl' : rendered_lines data p M t.next_break fuel (ks + 1) with
        | nil => exact absurd hl' ih1
        | cons l ls =>
          rw [intercalate_cons_cons]
          simp
      · intro line hline
        rcases List.mem_cons.1 hline with rfl | hline
        · rw [hw0]
          constructor
          · have hj := chunk_justified data p.words i (ks + 1 - i) (M - line_len p i ks)
              (by omega) (by omega)
            apply chunk_ne_nil hj
            intro w hw
            obtain ⟨j, hj', rfl⟩ := List.mem_map.1 hw
            have := List.mem_range'_1.1 hj'
            exact hwne j (by omega)
          · intro b hb
            rcases mem_justified_text hb with rfl | ⟨j, hj, hbw⟩
            · decide
            · exact hword (i + j) (by omega) b hbw
        · exact ih3 line hline
/-! ## The layout of the output -/

theorem main_run_ok (data : List Nat) (M : Int) (nb : Nat → Int) (r : Run)
    (h : main_run data M nb = (r, none)) :
    1 ≤ M ∧ M ≤ 10000 ∧ ∃ ps, extract_paragraphs data = .ok ps ∧ ps ≠ [] ∧
      main_loop data M ps.length ps 0 ⟨[], 0, nb, 0⟩ = (r, none) := by
  unfold main_run at h
  by_cases cM : M ≤ 0 ∨ M > MAX_LINE_LEN
  · rw [if_pos cM] at h
    cases h
  rw [if_neg cM] at h
  by_cases c0 : data.length = 0
  · rw [if_pos c0] at h
    cases h
  rw [if_neg c0] at h
  unfold MAX_LINE_LEN at cM
  cases hex : extract_paragraphs data with
  | error e =>
    rw [hex] at h
    cases h
  | ok ps =>
    rw [hex] at h
    simp only [] at h
    by_cases cp : ps.length = 0
    · rw [if_pos cp] at h
      cases h
    rw [if_neg cp] at h
    exact ⟨by omega, by omega, ps, rfl, fun hnil => cp (by rw [hnil]; rfl), h⟩

/-- The paragraph loop of `main` appends the renderings of the paragraphs
still to be treated, joined by a blank line. -/
theorem main_loop_lines (data : List Nat) (M : Int) (hM1 : 1 ≤ M) (hM : M ≤ 10000) (pc : Nat) :
    ∀ (rest : List Paragraph) (p_idx : Nat) (r r' : Run),
      rest ≠ [] → p_idx + rest.length = pc →
      (∀ p ∈ rest, 1 ≤ p.word_count ∧ p.word_count < 1000000 ∧
        ∀ w ∈ p.words, 1 ≤ w.len ∧ CleanWord (word_bytes data w)) →
      main_loop data M pc rest p_idx r = (r', none) →
      r'.out = r.out ++ List.intercalate [10, 10] (rest.map (rendered_paragraph data M)) ∧
      ∀ p ∈ rest, paragraph_lines data M p ≠ [] ∧
        ∀ line ∈ paragraph_lines data M p, line ≠ [] ∧ ∀ b ∈ line, b ≠ 10
  | [], _, _, _, hne, _, _, _ => absurd rfl hne
  | p :: rest, p_idx, r, r', _, hlen, hps, h => by
    obtain ⟨hn1, hn, hpos⟩ := hps p (by simp)
    rw [main_loop] at h
    cases hcw : check_widths M p.words with
    | error e =>
      rw [hcw] at h
      cases h
    | ok u =>
      have hfit := check_widths_fits M p.words u hcw
      have H : InRange p M :=
        inRange_of_fits hn1 hn hM1 hM (fun w hw => ⟨(hpos w hw).1, hfit w hw⟩)
      have hs := justify_tables_solved H r.next_break
      have hall : ∀ j, j ≤ p.word_count → (justify_tables p M r.next_break).valid j = 1 :=
        fun j hj => solved_all_valid hfit hs (p.word_count - j) j (by omega)
      have hjp := justify_paragraph_of_valid r.next_break hn1 (hall 0 (by omega))
      rw [hcw, hjp] at h
      simp only [] at h
      cases hwp : write_paragraph data r.out p M (justify_tables p M r.next_break).next_break with
      | error e =>
        rw [hwp] at h
        cases h
      | ok out =>
        rw [hwp] at h
        simp only [] at h
        obtain ⟨hl1, hl2, hl3⟩ := write_paragraph_loop_lines H hfit hs hall data
          (fun w hw => (hpos w hw).2) p.word_count 0 r.out out (by omega) (by omega) hwp
        have hsame : rendered_lines data p M (justify_tables p M r.next_break).next_break
            p.word_count 0 = paragraph_lines data M p := by
          unfold paragraph_lines
          apply rendered_lines_congr
          intro j hj
          exact (justify_tables_same (rfl : p.lens = p.lens) M r.next_break (fun _ => 0)).2.2 j
            (by omega)
        rw [hsame] at hl1 hl2 hl3
        cases rest with
        | nil =>
          have hidx : ¬ ((p_idx : Int) < (pc : Int) - 1) := by
            simp only [List.length_cons, List.length_nil] at hlen
            omega
          rw [if_neg hidx, main_loop] at h
          have hr : r'.out = out := by
            cases h
            rfl
          refine ⟨?_, ?_⟩
          · rw [hr, hl2]
            simp [List.intercalate, rendered_paragraph]
          · intro q hq
            rw [List.mem_singleton] at hq
            subst hq
            exact ⟨hl1, hl3⟩
        | cons q rest' =>
          have hidx : (p_idx : Int) < (pc : Int) - 1 := by
            simp only [List.length_cons] at hlen
            omega
          rw [if_pos hidx] at h
          obtain ⟨ih1, ih2⟩ := main_loop_lines data M hM1 hM pc (q :: rest')
            (p_idx + 1) _ r' (by simp) (by
              simp only [List.length_cons] at hlen ⊢
              omega) (fun x hx => hps x (List.mem_cons_of_mem _ hx)) h
          refine ⟨?_, ?_⟩
          · rw [ih1]
            simp only [List.map_cons]
            rw [intercalate_cons_cons, hl2]
            simp [rendered_paragraph]
          · intro x hx
            rcases List.mem_cons.1 hx with rfl | hx
            · exact ⟨hl1, hl3⟩
            · exact ih2 x hx

/-- C14: the layout of the output of a successful run.  The output is the
renderings of the paragraphs of the document, in order, joined by the two
bytes LF LF, each rendering being the lines of the paragraph joined by one
LF; every paragraph has a line, no line is empty and no line holds a LF; the
output is not empty, does not end with a LF, and never holds three LF in a
row. -/
theorem output_layout (data : List Nat) (M : Int) (nb : Nat → Int) (r : Run)
    (h : main_run data M nb = (r, none)) :
    ∃ ps, extract_paragraphs data = .ok ps ∧ 1 ≤ ps.length ∧
      r.out = List.intercalate [10, 10] (ps.map (rendered_paragraph data M)) ∧
      (∀ p ∈ ps, rendered_paragraph data M p = List.intercalate [10] (paragraph_lines data M p) ∧
        paragraph_lines data M p ≠ [] ∧
        ∀ line ∈ paragraph_lines data M p, line ≠ [] ∧ ∀ b ∈ line, b ≠ 10) ∧
      r.out ≠ [] ∧ (∀ b ∈ r.out.getLast?, b ≠ 10) ∧ NoTripleLF r.out := by
  obtain ⟨hM1, hM, ps, hex, hne, hloop⟩ := main_run_ok data M nb r h
  obtain ⟨hlen, hclean⟩ := extract_paragraphs_clean data ps hex
  obtain ⟨h1, h2⟩ := main_loop_lines data M hM1 hM ps.length ps 0 _ r hne (by omega) hclean hloop
  obtain ⟨ps2, groups, hex2, _, hd, hgw, hout, hw, _, _⟩ := main_run_doc data M nb r h
  obtain ⟨x, hx1, hx2⟩ := doc_last_byte groups [] hd hw
  rw [List.nil_append, ← hout] at hx1
  refine ⟨ps, hex, ?_, by simpa using h1, fun p hp => ⟨rfl, h2 p hp⟩, ?_, ?_, ?_⟩
  · cases ps with
    | nil => exact absurd rfl hne
    | cons _ _ => simp
  · intro hnil
    rw [hnil] at hx1
    simp at hx1
  · intro b hb
    rw [hx1] at hb
    simp only [Option.mem_def, Option.some.injEq] at hb
    subst hb
    exact printable_not_lf hx2
  · rw [hout]
    exact clean_no_triple _ (doc_clean groups hd hw)

theorem output_layout_witness :
    main_run [97, 97, 32, 32, 98, 10, 32, 99, 10, 10, 10, 32, 100] 4 (fun _ => 0)
      = (⟨[97, 97, 32, 98, 10, 99, 10, 10, 100], 0,
          (main_run [97, 97, 32, 32, 98, 10, 32, 99, 10, 10, 10, 32, 100] 4
            (fun _ => 0)).1.next_break, 2⟩, none) ∧
    ∃ ps, extract_paragraphs [97, 97, 32, 32, 98, 10, 32, 99, 10, 10, 10, 32, 100] = .ok ps ∧
      1 ≤ ps.length ∧
      [97, 97, 32, 98, 10, 99, 10, 10, 100] = List.intercalate [10, 10]
        (ps.map (rendered_paragraph [97, 97, 32, 32, 98, 10, 32, 99, 10, 10, 10, 32, 100] 4)) ∧
      (∀ p ∈ ps,
        rendered_paragraph [97, 97, 32, 32, 98, 10, 32, 99, 10, 10, 10, 32, 100] 4 p
          = List.intercalate [10]
            (paragraph_lines [97, 97, 32, 32, 98, 10, 32, 99, 10, 10, 10, 32, 100] 4 p) ∧
        paragraph_lines [97, 97, 32, 32, 98, 10, 32, 99, 10, 10, 10, 32, 100] 4 p ≠ [] ∧
        ∀ line ∈ paragraph_lines [97, 97, 32, 32, 98, 10, 32, 99, 10, 10, 10, 32, 100] 4 p,
          line ≠ [] ∧ ∀ b ∈ line, b ≠ 10) ∧
      ([97, 97, 32, 98, 10, 99, 10, 10, 100] : List Nat) ≠ [] ∧
      (∀ b ∈ ([97, 97, 32, 98, 10, 99, 10, 10, 100] : List Nat).getLast?, b ≠ 10) ∧
      NoTripleLF [97, 97, 32, 98, 10, 99, 10, 10, 100] :=
  ⟨rfl, output_layout [97, 97, 32, 32, 98, 10, 32, 99, 10, 10, 10, 32, 100] 4
    (fun _ => 0) _ rfl⟩

end AODjustify
